import Mathlib

/-!
# Anagram sentence search: a shallow embedding of `sentence.c`

The search engine of `src/sentence.c` (`sentence_build`, `sentence_build_inner`) is
embedded as state-passing functions.

* A `char *` is a `List Char`; every read of it stops at the first NUL (`cstr`), as the
  C loops do.
* The candidate array `char **phrases` is a `List (Option (List Char))`, `none` being the
  NULL pointer; cursors into it are indices.  The filter loop compacts the array in place,
  so whatever lay behind the new terminator stays where it was.
* The sentence buffer `si->sentence` is a list of `max_length` characters.  A store at an
  index that is not below its length is an error of the C program (the behaviour is
  undefined): the run stops there with `halt = some Halt.out_of_bounds` and keeps what it
  had emitted.
* The sink (`done_cb`, or `printf` when it is NULL) is the trace `emitted`.
* `malloc` of a non-zero size is taken to succeed; whether `malloc(0)` returns NULL is an
  argument of `sentence_build`.
* `letter_pool.h` is not among the sources; the pool operations are modelled from the
  specification, section 4.1.  `sentence.c` calls `pool_subtract` without a test and goes
  on, so the operation is total: a slot from which more is taken than it holds becomes
  negative, and `pool_add` of the same text gives the old pool back.
* Recursion and the placement loop are driven by a fuel counter; a run that exhausts it
  stops with `halt = some Halt.out_of_fuel` and keeps what it had emitted.
* `sentence_build_traced` is the same engine on an array of catalog entries that carry
  their catalog position (the identity of the pointer), with a log of its calls.
-/

namespace WordSearch

/-! ## Letter pool (specification section 4.1) -/

/-- Modelled from the spec: `POOL_SIZE` of `letter_pool.h`, which is not among the sources.
The specification leaves the alphabet to the implementer and describes it as case-sensitive;
the model takes the ASCII letters, one slot per letter and case. -/
def POOL_SIZE : Nat := 52

/-- Modelled from the spec: a letter pool, `pool_t pool[POOL_SIZE]`, an array of integer
counts.  A slot is an integer: it is negative after a subtraction of letters that the pool
did not hold, where the 32-bit counter of the C program wraps around; in both cases the
slot is not 0 and adding the letters back restores it (`pool_subtract_wrap`).  The search
reads such a pool through `pool_is_empty` only, before `pool_add` restores it. -/
abbrev Pool := Fin POOL_SIZE → Int

/-- The NUL character that terminates a C string. -/
def NUL : Char := Char.ofNat 0

/-- The characters of a C string: what is stored up to the first NUL. -/
def cstr (s : List Char) : List Char := s.takeWhile (fun c => !(c == NUL))

/-- Modelled from the spec: the slot of a character, `none` for the characters that are
"not tracked as consumable letters" (spaces, punctuation, digits, ...).  Slots 0..25 are
`a`..`z`, slots 26..51 are `A`..`Z`. -/
def pool_index (c : Char) : Option (Fin POOL_SIZE) :=
  if 97 ≤ c.toNat ∧ c.toNat ≤ 122 then some (Fin.ofNat (c.toNat - 97))
  else if 65 ≤ c.toNat ∧ c.toNat ≤ 90 then some (Fin.ofNat (c.toNat - 65 + 26))
  else none

/-- Number of occurrences in `text` of the letter of slot `i`. -/
def letter_count (text : List Char) (i : Fin POOL_SIZE) : Nat :=
  (cstr text).countP (fun c => pool_index c == some i)

/-- Number of letters of `text`. -/
def letter_total (text : List Char) : Nat :=
  (cstr text).countP (fun c => (pool_index c).isSome)

/-- Modelled from the spec: `reset()`: zero all slots. -/
def pool_reset : Pool := fun _ => 0

/-- Modelled from the spec: `add(text)`: for each eligible letter character in `text`,
increment its slot; other characters are ignored. -/
def pool_add (pool : Pool) (text : List Char) : Pool :=
  (cstr text).foldl
    (fun p c =>
      match pool_index c with
      | some i => Function.update p i (p i + 1)
      | none => p)
    pool

/-- Modelled from the spec: `can_spell(text)`: true iff, for every letter, the count that
`text` requires is at most the pool's current count. -/
def pool_can_spell (pool : Pool) (text : List Char) : Bool :=
  (List.finRange POOL_SIZE).all (fun i => decide ((letter_count text i : Int) ≤ pool i))

/-- Modelled from the spec: `subtract(text)`: decrement each letter's slot by its
occurrence count in `text`.  There is no test of the precondition that `text` can be
spelled, as there is none in the caller (sentence.c 151). -/
def pool_subtract (pool : Pool) (text : List Char) : Pool :=
  fun i => pool i - (letter_count text i : Int)

/-- Modelled from the spec: `is_empty()`: true iff every slot is exactly 0. -/
def pool_is_empty (pool : Pool) : Bool :=
  (List.finRange POOL_SIZE).all (fun i => pool i == 0)

/-- Modelled from the spec: `count_all()`: the sum of all slot counts.  A slot below 0
counts as 0; the search asks for the count of the initial pool only (sentence.c 73). -/
def pool_count_all (pool : Pool) : Nat :=
  ((List.finRange POOL_SIZE).map (fun i => (pool i).toNat)).sum

/-! ## Search state -/

/-- The `struct sentence_info` fields that configure a search.  `max_words` and
`canceled_cb` are the fields declared in `sentence.h`; `check_cb`, `step` and `offset` are
the ones `sentence.c` reads.  `check_cb` is handed the structure, of which the pool and the
sentence buffer change during a search, and the candidate phrase.  `canceled_cb` answers
its n-th poll.  `phrase_list` is the linked list, NULL being the empty list. -/
structure sentence_info where
  phrase_list : List (List Char)
  pool : Pool
  check_cb : Option (Pool → List Char → List Char → Bool)
  step : Nat
  offset : Nat
  max_words : Nat
  canceled_cb : Option (Nat → Bool)

/-- The count kept next to the phrase list: `phrase_list_add` counts the entries. -/
def sentence_info.phrase_count (si : sentence_info) : Nat := si.phrase_list.length

/-- The function `sentence_info_init` followed by the caller's assignment of the pool. -/
def sentence_info_init (pool : Pool) : sentence_info :=
  { phrase_list := [], pool := pool, check_cb := none, step := 1, offset := 0,
    max_words := 0, canceled_cb := none }

/-- Why a run stopped early: a store outside the sentence buffer, or no fuel left. -/
inductive Halt where
  | out_of_bounds
  | out_of_fuel
deriving DecidableEq, Repr

/-- What a search changes: the live pool, the sentence buffer with its allocated size,
the sentences handed to the sink so far, and whether the run was cut short. -/
structure Search where
  pool : Pool
  sentence : List Char
  max_length : Nat
  emitted : List (List Char)
  halt : Option Halt

/-- Store `c` at index `i` of a buffer; `none` when the index is outside the buffer. -/
def mem_write (buf : List Char) (i : Nat) (c : Char) : Option (List Char) :=
  if i < buf.length then some (buf.set i c) else none

/-- The copy loop `while (*p != 0) *n++ = *p++;` (sentence.c 159-162): the buffer after
the copy, and the final `n`; `none` when a store falls outside the buffer. -/
def copy_phrase : List Char → Nat → List Char → Option (List Char × Nat)
  | buf, n, [] => some (buf, n)
  | buf, n, c :: p =>
    if c == NUL then some (buf, n)
    else
      match mem_write buf n c with
      | none => none
      | some buf1 => copy_phrase buf1 (n + 1) p

/-- The filter loop (sentence.c 125-136) with `prev` and `curr` as indices; `keep` is the
test of lines 126-130.  Entries are compacted to the front, a NULL is stored behind the
survivors, and `phrase_count` is decremented once per removed entry. -/
def filter_phrases {α : Type} (keep : α → Bool) :
    Nat → List (Option α) → Nat → Nat → Nat → List (Option α) × Nat
  | 0, phrases, _, curr, phrase_count => (phrases.set curr none, phrase_count)
  | fuel + 1, phrases, prev, curr, phrase_count =>
    match phrases[prev]? with
    | some (some p) =>
      if keep p then
        filter_phrases keep fuel (phrases.set curr (some p)) (prev + 1) (curr + 1) phrase_count
      else
        filter_phrases keep fuel phrases (prev + 1) curr (phrase_count - 1)
    | _ => (phrases.set curr none, phrase_count)

/-- The depth-0 skip loop (sentence.c 142-146): `none` is the early `return`. -/
def skip_offset {α : Type} (phrases : List (Option α)) : Nat → Nat → Option Nat
  | 0, curr => some curr
  | k + 1, curr =>
    match phrases[curr + 1]? with
    | some (some _) => skip_offset phrases k (curr + 1)
    | _ => none

/-- The advance loop (sentence.c 194-198): up to `k` increments, stopping at a NULL. -/
def advance {α : Type} (phrases : List (Option α)) : Nat → Nat → Nat
  | 0, curr => curr
  | k + 1, curr =>
    match phrases[curr + 1]? with
    | some (some _) => advance phrases k (curr + 1)
    | _ => curr + 1

/-- One pass through the body of the placement loop (sentence.c 150-190) for the phrase
`p` under the cursor; `recurse` is the recursive call of line 183.  The subtraction of
line 151 is not guarded.  A store outside the buffer (lines 162, 166, 180) stops the run;
the state kept then is the one before the copy, with the pool after the subtraction. -/
def place_phrase
    (recurse : Search → Option Nat → List (Option (List Char)) → Nat → Nat → Search)
    (write_pos : Nat) (phrases : List (Option (List Char))) (phrase_count depth : Nat)
    (p : List Char) (st : Search) : Search :=
  match copy_phrase st.sentence write_pos p with
  | none => { st with pool := pool_subtract st.pool p, halt := some Halt.out_of_bounds }
  | some (buf, n) =>
    let st1 : Search :=
      if pool_is_empty (pool_subtract st.pool p) then
        match mem_write buf n NUL with
        | none => { st with pool := pool_subtract st.pool p, halt := some Halt.out_of_bounds }
        | some buf1 =>
          { st with pool := pool_subtract st.pool p, sentence := buf1,
                    emitted := st.emitted ++ [cstr buf1] }
      else
        match mem_write buf n ' ' with
        | none => { st with pool := pool_subtract st.pool p, halt := some Halt.out_of_bounds }
        | some buf1 =>
          recurse { st with pool := pool_subtract st.pool p, sentence := buf1 } (some (n + 1))
            (phrases.take (phrase_count + 1)) phrase_count (depth + 1)
    match st1.halt with
    | some _ => st1
    | none => { st1 with pool := pool_add st1.pool p }

/-- The placement loop `while (*curr != NULL)` (sentence.c 149-199). -/
def place_loop
    (recurse : Search → Option Nat → List (Option (List Char)) → Nat → Nat → Search)
    (step : Nat) (write_pos : Nat) (phrases : List (Option (List Char)))
    (phrase_count depth : Nat) : Nat → Nat → Search → Search
  | 0, curr, st =>
    match phrases[curr]? with
    | some (some _) => { st with halt := some Halt.out_of_fuel }
    | _ => st
  | fuel + 1, curr, st =>
    match phrases[curr]? with
    | some (some p) =>
      let st1 := place_phrase recurse write_pos phrases phrase_count depth p st
      match st1.halt with
      | some _ => st1
      | none =>
        place_loop recurse step write_pos phrases phrase_count depth fuel
          (advance phrases (if depth = 0 then step else 1) curr) st1
    | _ => st

/-- The function `sentence_build_inner` (sentence.c 103-200).  `write_pos` is an index
into the sentence buffer, `none` being NULL; `phrases = none` is the NULL array. -/
def sentence_build_inner (si : sentence_info) :
    Nat → Search → Option Nat → Option (List (Option (List Char))) → Nat → Nat → Search
  | 0, st, _, _, _, _ => { st with halt := some Halt.out_of_fuel }
  | fuel + 1, st, write_pos, phrases, phrase_count, depth =>
    match phrases with
    | none => st
    | some phrases =>
      if phrase_count = 0 then st
      else
        let write_pos := write_pos.getD 0
        let keep : List Char → Bool := fun p =>
          pool_can_spell st.pool p &&
            (match si.check_cb with
             | none => true
             | some check => check st.pool st.sentence p)
        let filtered := filter_phrases keep phrases.length phrases 0 0 phrase_count
        match (if depth = 0 then skip_offset filtered.1 si.offset 0 else some 0) with
        | none => st
        | some curr =>
          place_loop (fun s w ps c d => sentence_build_inner si fuel s w (some ps) c d)
            si.step write_pos filtered.1 filtered.2 depth fuel curr st

/-- The function `sentence_build` (sentence.c 59-101).  The returned state is the one at
line 96, before the buffer is freed.  `malloc_zero_null` says whether `malloc(0)` returns
NULL, which the C standard leaves to the implementation: if it does, an empty pool makes
the function return at line 76.  The NULL tests on `si` and `si->pool` have no
counterpart: both are values here. -/
def sentence_build (malloc_zero_null : Bool) (fuel : Nat) (si : sentence_info) : Search :=
  if si.phrase_list = [] ∨ si.phrase_count = 0 then
    { pool := si.pool, sentence := [], max_length := 0, emitted := [], halt := none }
  else if 2 * pool_count_all si.pool = 0 ∧ malloc_zero_null = true then
    { pool := si.pool, sentence := [], max_length := 0, emitted := [], halt := none }
  else
    sentence_build_inner si fuel
      { pool := si.pool,
        sentence := List.replicate (2 * pool_count_all si.pool) NUL,
        max_length := 2 * pool_count_all si.pool,
        emitted := [],
        halt := none }
      none (some (si.phrase_list.map some ++ [none])) si.phrase_count 0

/-! ## The partitioner -/

/-- What `sentence_build_threaded` reports on stderr. -/
inductive Message where
  | invalid_threads (num_threads : Nat)
  | threading_unavailable
deriving DecidableEq, Repr

/-- What a call of `sentence_build_threaded` has done: the searches it ran, in the order
of the thread index, and its messages.  Each search has its own state; how the sentences
of different threads interleave at the sink is not part of the model. -/
structure Threaded where
  runs : List Search
  stderr : List Message

/-- The function `sentence_build_threaded` (sentence.c 202-310).  `threading` says whether
`ENABLE_THREADING` is defined.  `num_threads` is an `unsigned short`, so `num_threads <= 0`
is `num_threads = 0`.  Thread creation and the allocations are taken to succeed;
`pool_copy` gives each thread the caller's pool. -/
def sentence_build_threaded (threading : Bool) (malloc_zero_null : Bool) (fuel : Nat)
    (si : sentence_info) (num_threads : Nat) : Threaded :=
  if threading then
    if num_threads ≤ 0 then
      { runs := [], stderr := [Message.invalid_threads num_threads] }
    else if num_threads = 1 then
      { runs := [sentence_build malloc_zero_null fuel si], stderr := [] }
    else
      { runs := (List.range num_threads).map
          (fun i =>
            sentence_build malloc_zero_null fuel { si with step := num_threads, offset := i }),
        stderr := [] }
  else
    if num_threads ≤ 0 then
      { runs := [], stderr := [Message.invalid_threads num_threads] }
    else
      { runs := [sentence_build malloc_zero_null fuel si],
        stderr := if num_threads > 1 then [Message.threading_unavailable] else [] }

/-! ## Character classes of the C library, C locale -/

/-- The C library's `isalpha` in the C locale, on the character code. -/
def isalpha (c : Nat) : Bool := (65 ≤ c && c ≤ 90) || (97 ≤ c && c ≤ 122)

/-- The C library's `isdigit`. -/
def isdigit (c : Nat) : Bool := 48 ≤ c && c ≤ 57

/-- The C library's `iscntrl` in the C locale: the codes 0..31 and 127. -/
def iscntrl (c : Nat) : Bool := c < 32 || c == 127

/-- The C library's `ispunct` in the C locale: the printing characters that are neither
the space nor alphanumeric. -/
def ispunct (c : Nat) : Bool :=
  (33 ≤ c && c ≤ 47) || (58 ≤ c && c ≤ 64) || (91 ≤ c && c ≤ 96) || (123 ≤ c && c ≤ 126)

/-- The macro `phrase_cannot_include` (phrase_list.h 127-128). -/
def phrase_cannot_include (c : Nat) : Bool :=
  iscntrl c || !((c == 32) || ispunct c)

/-- Modelled from the spec: the body of `phrase_filter_default` is not among the sources.
This is the use of the macro that phrase_list.h 122-126 prescribes: a filter applies
`phrase_cannot_include` to each character that is not alphabetic and rejects the phrase as
soon as one such test succeeds. -/
def filter_rejects (p : List Char) : Bool :=
  p.any (fun c => !isalpha c.toNat && phrase_cannot_include c.toNat)

/-! ## The engine with a log of its calls -/

/-- A catalog entry as the candidate array holds it: a pointer to the phrase.  The first
component is the position of the entry in the catalog, which tells two entries with the
same text apart as their addresses do; the second is the text. -/
abbrev Entry := Nat × List Char

/-- The catalog with its positions, counted from `n`. -/
def entries_from : Nat → List (List Char) → List Entry
  | _, [] => []
  | n, p :: ps => (n, p) :: entries_from (n + 1) ps

/-- The catalog with its positions. -/
def entries (catalog : List (List Char)) : List Entry := entries_from 0 catalog

/-- What the log of a run records.  `expand`: a call of `pool_subtract` (sentence.c 151),
with the depth of the loop, the index of the cursor in the candidate array, the phrase
under the cursor, and whether the pool of that moment can spell it.  `call`: a recursive
call of `sentence_build_inner` (sentence.c 183), with its array, count and depth
arguments.  `emit`: a sentence handed to the sink (sentence.c 167-170), with the catalog
positions of the phrases under the cursors of the active calls, outermost first. -/
inductive Event where
  | expand (depth curr : Nat) (phrase : List Char) (spellable : Bool)
  | call (phrases : List (Option (List Char))) (phrase_count depth : Nat)
  | emit (branch : List Nat)
deriving DecidableEq, Repr

/-- The body of the placement loop, as `place_phrase`, for the entry `a` under the cursor
of index `curr`, with the log; `branch` holds the catalog positions of the entries under
the cursors of the calling loops. -/
def place_phrase_traced
    (recurse : Search × List Event → Option Nat → List (Option Entry) → Nat → Nat →
      List Nat → Search × List Event)
    (write_pos : Nat) (phrases : List (Option Entry)) (phrase_count depth curr : Nat)
    (branch : List Nat) (a : Entry) (t : Search × List Event) : Search × List Event :=
  match copy_phrase t.1.sentence write_pos a.2 with
  | none =>
    ({ t.1 with pool := pool_subtract t.1.pool a.2, halt := some Halt.out_of_bounds },
      t.2 ++ [Event.expand depth curr a.2 (pool_can_spell t.1.pool a.2)])
  | some (buf, n) =>
    let t1 : Search × List Event :=
      if pool_is_empty (pool_subtract t.1.pool a.2) then
        match mem_write buf n NUL with
        | none =>
          ({ t.1 with pool := pool_subtract t.1.pool a.2, halt := some Halt.out_of_bounds },
            t.2 ++ [Event.expand depth curr a.2 (pool_can_spell t.1.pool a.2)])
        | some buf1 =>
          ({ t.1 with pool := pool_subtract t.1.pool a.2, sentence := buf1,
                      emitted := t.1.emitted ++ [cstr buf1] },
            t.2 ++ [Event.expand depth curr a.2 (pool_can_spell t.1.pool a.2),
              Event.emit (branch ++ [a.1])])
      else
        match mem_write buf n ' ' with
        | none =>
          ({ t.1 with pool := pool_subtract t.1.pool a.2, halt := some Halt.out_of_bounds },
            t.2 ++ [Event.expand depth curr a.2 (pool_can_spell t.1.pool a.2)])
        | some buf1 =>
          recurse
            ({ t.1 with pool := pool_subtract t.1.pool a.2, sentence := buf1 },
              t.2 ++ [Event.expand depth curr a.2 (pool_can_spell t.1.pool a.2),
                Event.call ((phrases.take (phrase_count + 1)).map (Option.map Prod.snd))
                  phrase_count (depth + 1)])
            (some (n + 1)) (phrases.take (phrase_count + 1)) phrase_count (depth + 1)
            (branch ++ [a.1])
    match t1.1.halt with
    | some _ => t1
    | none => ({ t1.1 with pool := pool_add t1.1.pool a.2 }, t1.2)

/-- The placement loop, as `place_loop`, with the log. -/
def place_loop_traced
    (recurse : Search × List Event → Option Nat → List (Option Entry) → Nat → Nat →
      List Nat → Search × List Event)
    (step : Nat) (write_pos : Nat) (phrases : List (Option Entry))
    (phrase_count depth : Nat) (branch : List Nat) :
    Nat → Nat → Search × List Event → Search × List Event
  | 0, curr, t =>
    match phrases[curr]? with
    | some (some _) => ({ t.1 with halt := some Halt.out_of_fuel }, t.2)
    | _ => t
  | fuel + 1, curr, t =>
    match phrases[curr]? with
    | some (some a) =>
      let t1 :=
        place_phrase_traced recurse write_pos phrases phrase_count depth curr branch a t
      match t1.1.halt with
      | some _ => t1
      | none =>
        place_loop_traced recurse step write_pos phrases phrase_count depth branch fuel
          (advance phrases (if depth = 0 then step else 1) curr) t1
    | _ => t

/-- The function `sentence_build_inner` on an array of entries, with the log. -/
def sentence_build_inner_traced (si : sentence_info) :
    Nat → Search × List Event → Option Nat → Option (List (Option Entry)) → Nat → Nat →
      List Nat → Search × List Event
  | 0, t, _, _, _, _, _ => ({ t.1 with halt := some Halt.out_of_fuel }, t.2)
  | fuel + 1, t, write_pos, phrases, phrase_count, depth, branch =>
    match phrases with
    | none => t
    | some phrases =>
      if phrase_count = 0 then t
      else
        let write_pos := write_pos.getD 0
        let keep : Entry → Bool := fun a =>
          pool_can_spell t.1.pool a.2 &&
            (match si.check_cb with
             | none => true
             | some check => check t.1.pool t.1.sentence a.2)
        let filtered := filter_phrases keep phrases.length phrases 0 0 phrase_count
        match (if depth = 0 then skip_offset filtered.1 si.offset 0 else some 0) with
        | none => t
        | some curr =>
          place_loop_traced
            (fun s w ps c d b => sentence_build_inner_traced si fuel s w (some ps) c d b)
            si.step write_pos filtered.1 filtered.2 depth branch fuel curr t

/-- The function `sentence_build` with the log. -/
def sentence_build_traced (malloc_zero_null : Bool) (fuel : Nat) (si : sentence_info) :
    Search × List Event :=
  if si.phrase_list = [] ∨ si.phrase_count = 0 then
    ({ pool := si.pool, sentence := [], max_length := 0, emitted := [], halt := none }, [])
  else if 2 * pool_count_all si.pool = 0 ∧ malloc_zero_null = true then
    ({ pool := si.pool, sentence := [], max_length := 0, emitted := [], halt := none }, [])
  else
    sentence_build_inner_traced si fuel
      ({ pool := si.pool,
         sentence := List.replicate (2 * pool_count_all si.pool) NUL,
         max_length := 2 * pool_count_all si.pool,
         emitted := [],
         halt := none }, [])
      none (some ((entries si.phrase_list).map some ++ [none])) si.phrase_count 0 []

/-- The branches that a log records as handed to the sink, in the order of the log. -/
def emitted_branches : List Event → List (List Nat)
  | [] => []
  | Event.emit b :: log => b :: emitted_branches log
  | _ :: log => emitted_branches log

/-! ## Devices for the proofs -/

/-- The candidate array that holds the entries of `L`, then a NULL, then `tail`. -/
def phrase_array {α : Type} (L : List α) (tail : List (Option α)) : List (Option α) :=
  L.map some ++ none :: tail

/-- The test of the filter loop (sentence.c 126-130) in the state `st`. -/
def keep_phrase (si : sentence_info) (st : Search) (p : List Char) : Bool :=
  pool_can_spell st.pool p &&
    (match si.check_cb with
     | none => true
     | some check => check st.pool st.sentence p)

/-- The state in which `sentence_build` enters the search (sentence.c 73-95). -/
def start (si : sentence_info) : Search :=
  { pool := si.pool,
    sentence := List.replicate (2 * pool_count_all si.pool) NUL,
    max_length := 2 * pool_count_all si.pool,
    emitted := [],
    halt := none }

/-- The entries of `L` that survive the filter loop in the state `st`. -/
def survivors (si : sentence_info) (st : Search) (L : List Entry) : List Entry :=
  L.filter (fun a => keep_phrase si st a.2)

/-- The entries from which the placement loop starts, `L` being the candidates the call
received and `S` the survivors of its filter loop.  Below depth 0, and for offset 0, these
are the survivors.  At depth 0 the skip loop steps `offset` entries on without looking at
the entry it starts from, so that with no survivor at all it walks over what the filter
loop left behind the terminator, the old entries of `L`. -/
def visited (si : sentence_info) (depth : Nat) (L S : List Entry) : List Entry :=
  if depth = 0 then
    if si.offset = 0 then S else (if S = [] then L else S).drop si.offset
  else S

/-- The body of the placement loop for the entry `a` under the cursor of index `curr`, the
filtered candidates being `S` and the recursive call having `fuel` left. -/
def place_entry (si : sentence_info) (fuel : Nat) (write_pos : Nat) (S : List Entry)
    (depth : Nat) (branch : List Nat) (curr : Nat) (a : Entry) (t : Search × List Event) :
    Search × List Event :=
  place_phrase_traced
    (fun s w ps c d b => sentence_build_inner_traced si fuel s w (some ps) c d b)
    write_pos (phrase_array S []) S.length depth curr branch a t

/-- The placement loop over the list of the entries it visits, the first of them under
the cursor of index `curr`: after an entry the cursor moves `k` entries on. -/
def place_list (body : Nat → Entry → Search × List Event → Search × List Event) (k : Nat) :
    Nat → Nat → List Entry → Search × List Event → Search × List Event
  | _, _, [], t => t
  | 0, _, _ :: _, t => ({ t.1 with halt := some Halt.out_of_fuel }, t.2)
  | fuel + 1, curr, v :: V, t =>
    match (body curr v t).1.halt with
    | some _ => body curr v t
    | none => place_list body k fuel (curr + k) ((v :: V).drop k) (body curr v t)

/-- The text of a sentence: the phrases, each read as a C string, with one space between
neighbours. -/
def sentence_text : List (List Char) → List Char
  | [] => []
  | [w] => cstr w
  | w :: ws => cstr w ++ ' ' :: sentence_text ws

/-- Number of occurrences of the letter of slot `i` in the phrases `ws` together. -/
def letters (ws : List (List Char)) (i : Fin POOL_SIZE) : Nat :=
  (ws.map (fun w => letter_count w i)).sum

/-- The order of two branches of the search: the lexicographic order of their catalog
positions. -/
def branch_lt (x y : List Entry) : Prop :=
  List.Lex (fun m n : Nat => m < n) (x.map Prod.fst) (y.map Prod.fst)

/-- What a stretch of the search, from the state and log `t` to the state and log `t1`,
has done: `D` lists, in the order of emission, the branches below the current node that
were completed.  `pre` is the text in front of the write position, `P` the pool at the
node, `cands` the candidates of the node, `heads` the entries the placement loop starts
branches from, and `br` the catalog positions of the entries placed above the node. -/
structure Outcome (pre : List Char) (P : Pool) (cands heads : List Entry) (ord : Prop)
    (br : List Nat) (t t1 : Search × List Event) (D : List (List Entry)) : Prop where
  emitted_eq :
    t1.1.emitted = t.1.emitted ++ D.map (fun ws => pre ++ sentence_text (ws.map Prod.snd))
  branches_eq :
    emitted_branches t1.2 =
      emitted_branches t.2 ++ D.map (fun ws => br ++ ws.map Prod.fst)
  heads_mem : ∀ ws ∈ D, ∃ a rest, ws = a :: rest ∧ a ∈ heads
  cands_mem : ∀ ws ∈ D, ∀ b ∈ ws, b ∈ cands
  letters_eq : ∀ ws ∈ D, ∀ i, (letters (ws.map Prod.snd) i : Int) = P i
  ordered : ord → D.Pairwise branch_lt
  max_length_eq : t1.1.max_length = t.1.max_length
  length_eq : t1.1.sentence.length = t.1.sentence.length
  restored : t1.1.halt = none → t1.1.pool = P ∧ ∃ rest, t1.1.sentence = pre ++ rest

/-- The entries from which the placement loop starts a branch when it runs over `V` with
stride `k`: the first one, and those reached from the entry `k` places on. -/
inductive Reached (k : Nat) : List Entry → Entry → Prop where
  | here (v : Entry) (V : List Entry) : Reached k (v :: V) v
  | next (v : Entry) (V : List Entry) (a : Entry) :
      Reached k ((v :: V).drop k) a → Reached k (v :: V) a

/-- What a complete run from a node promises: it returns, and it has emitted the sentence
of every sequence of candidates that starts at a reached entry and spells the pool. -/
def Complete (pre : List Char) (P : Pool) (cands heads : List Entry) (k : Nat)
    (t1 : Search × List Event) : Prop :=
  t1.1.halt = none ∧
    ∀ (a : Entry) (ws : List (List Char)), Reached k heads a →
      (∀ w ∈ ws, ∃ b ∈ cands, b.2 = w) → (∀ i, (letters (a.2 :: ws) i : Int) = P i) →
      pre ++ sentence_text (a.2 :: ws) ∈ t1.1.emitted

/-- The description `si` with its catalog restricted, order preserved, to the phrases that
the initial pool can spell: what reading the catalog with the pool as filter would give
(phrase_list.h 84-99). -/
def prefiltered (si : sentence_info) : sentence_info :=
  { si with phrase_list := si.phrase_list.filter (fun p => pool_can_spell si.pool p) }

/-- The description `si` without a check predicate, on the catalog from which the phrases
that `accepts` rejects have been removed, the others keeping their order. -/
def without_rejected (si : sentence_info) (accepts : List Char → Bool) : sentence_info :=
  { si with check_cb := none, phrase_list := si.phrase_list.filter accepts }

/-! ## Example inputs -/

/-- The description of a search for `subject` over `catalog`, as `anagram.c` sets it up,
with the given stride. -/
def search_of (subject : List Char) (catalog : List (List Char)) (step offset : Nat) :
    sentence_info :=
  { sentence_info_init (pool_add pool_reset subject) with
    phrase_list := catalog, step := step, offset := offset }

/-- Subject "eat" with the catalog eat, tea, ate, at, e. -/
def eat_search : sentence_info :=
  search_of ['e', 'a', 't']
    [['e', 'a', 't'], ['t', 'e', 'a'], ['a', 't', 'e'], ['a', 't'], ['e']] 1 0

/-- Subject "a" with the catalog "-", "a": the first phrase has no letter. -/
def dash_search : sentence_info := search_of ['a'] [['-'], ['a']] 1 0

/-- Subject "a" with the catalog "a", "b". -/
def a_b_search : sentence_info := search_of ['a'] [['a'], ['b']] 1 0

/-- Subject "a" with the catalog "b", "ccc", as the second of two shards. -/
def unspellable_search : sentence_info := search_of ['a'] [['b'], ['c', 'c', 'c']] 2 1

/-- Subject "a" with the catalog "b", "c", as the second of two shards. -/
def stale_search : sentence_info := search_of ['a'] [['b'], ['c']] 2 1

/-- Subject "ab" with the catalog "a", "b" and `max_words = 1`. -/
def one_word_search : sentence_info :=
  { search_of ['a', 'b'] [['a'], ['b']] 1 0 with max_words := 1 }

/-- Subject "a" with the catalog "a", "b" and a cancellation predicate that reports
canceled on every poll. -/
def canceled_search : sentence_info :=
  { a_b_search with canceled_cb := some (fun _ => true) }

/-- Subject "a" with the catalog "b", "a" and a check predicate that rejects every
candidate, as the second of two shards. -/
def rejecting_search : sentence_info :=
  { search_of ['a'] [['b'], ['a']] 2 1 with check_cb := some (fun _ _ _ => false) }

/-- Subject "a" with the catalog "b", "c", "a" and a check predicate that rejects every
candidate, with step 1 and offset 1. -/
def stale_rejecting_search : sentence_info :=
  { search_of ['a'] [['b'], ['c'], ['a']] 1 1 with check_cb := some (fun _ _ _ => false) }

/-- Subject "ab" with the catalog "a-", "b-". -/
def hyphen_search : sentence_info := search_of ['a', 'b'] [['a', '-'], ['b', '-']] 1 0

/-- Subject "ab" with the catalog "a-", "b-", "ab". -/
def hyphen_ab_search : sentence_info :=
  search_of ['a', 'b'] [['a', '-'], ['b', '-'], ['a', 'b']] 1 0

/-- Subject "aa" with the catalog " aa", a phrase that begins with a space. -/
def space_search : sentence_info := search_of ['a', 'a'] [[' ', 'a', 'a']] 1 0

/-! ## C strings and the sentence buffer -/

theorem cstr_nil : cstr [] = [] := rfl

theorem cstr_cons (c : Char) (s : List Char) :
    cstr (c :: s) = if c = NUL then [] else c :: cstr s := by
  by_cases h : c = NUL <;> simp [cstr, List.takeWhile_cons, h]

theorem NUL_not_mem_cstr (s : List Char) : NUL ∉ cstr s := by
  intro h
  have := List.mem_takeWhile_imp h
  simp at this

theorem cstr_append_NUL (pre rest : List Char) (h : NUL ∉ pre) :
    cstr (pre ++ NUL :: rest) = pre := by
  induction pre with
  | nil => simp [cstr_cons]
  | cons c pre ih =>
    have hc : c ≠ NUL := fun e => h (by simp [e])
    have hp : NUL ∉ pre := fun e => h (by simp [e])
    simp [cstr_cons, hc, ih hp]

theorem mem_write_at (pre rest : List Char) (r c : Char) :
    mem_write (pre ++ r :: rest) pre.length c = some (pre ++ c :: rest) := by
  simp [mem_write]

theorem mem_write_end (pre : List Char) (c : Char) : mem_write pre pre.length c = none := by
  simp [mem_write]

theorem mem_write_nil (i : Nat) (c : Char) : mem_write [] i c = none := by
  simp [mem_write]

theorem copy_phrase_at (p pre rest : List Char) (h : (cstr p).length ≤ rest.length) :
    copy_phrase (pre ++ rest) pre.length p =
      some (pre ++ cstr p ++ rest.drop (cstr p).length, pre.length + (cstr p).length) := by
  induction p generalizing pre rest with
  | nil => simp [copy_phrase, cstr_nil]
  | cons c p ih =>
    by_cases hc : c = NUL
    · simp [copy_phrase, cstr_cons, hc]
    · simp only [cstr_cons, hc, if_false, List.length_cons] at h
      cases rest with
      | nil => simp at h
      | cons r rest =>
        simp only [List.length_cons] at h
        have := ih (pre ++ [c]) rest (by omega)
        simp only [List.length_append, List.length_singleton, List.append_assoc,
          List.singleton_append] at this
        have hcb : (c == NUL) = false := by simpa using hc
        rw [copy_phrase]
        simp only [hcb, Bool.false_eq_true, if_false, mem_write_at, this, cstr_cons, hc,
          List.length_cons, List.drop_succ_cons, List.append_assoc, List.cons_append]
        simp [Nat.add_assoc, Nat.add_comm 1]

theorem copy_phrase_none (p pre rest : List Char) (h : rest.length < (cstr p).length) :
    copy_phrase (pre ++ rest) pre.length p = none := by
  induction p generalizing pre rest with
  | nil => simp [cstr_nil] at h
  | cons c p ih =>
    by_cases hc : c = NUL
    · simp [cstr_cons, hc] at h
    · simp only [cstr_cons, hc, if_false, List.length_cons] at h
      have hcb : (c == NUL) = false := by simpa using hc
      rw [copy_phrase]
      simp only [hcb, Bool.false_eq_true, if_false]
      cases rest with
      | nil => simp [mem_write_end]
      | cons r rest =>
        simp only [List.length_cons] at h
        have := ih (pre ++ [c]) rest (by omega)
        simp only [List.length_append, List.length_singleton, List.append_assoc,
          List.singleton_append] at this
        simp only [mem_write_at, this]

theorem copy_phrase_nil_buf (p : List Char) (n : Nat) (h : cstr p ≠ []) :
    copy_phrase [] n p = none := by
  cases p with
  | nil => exact absurd cstr_nil h
  | cons c p =>
    by_cases hc : c = NUL
    · simp [cstr_cons, hc] at h
    · have hcb : (c == NUL) = false := by simpa using hc
      simp [copy_phrase, hcb, mem_write_nil]

theorem pool_can_spell_iff (pool : Pool) (text : List Char) :
    pool_can_spell pool text = true ↔ ∀ i, (letter_count text i : Int) ≤ pool i := by
  simp [pool_can_spell, List.all_eq_true]

theorem pool_is_empty_iff (pool : Pool) :
    pool_is_empty pool = true ↔ ∀ i, pool i = 0 := by
  simp [pool_is_empty, List.all_eq_true]

theorem pool_subtract_apply (pool : Pool) (text : List Char) (i : Fin POOL_SIZE) :
    pool_subtract pool text i = pool i - (letter_count text i : Int) := rfl

theorem pool_add_foldl (l : List Char) (pool : Pool) (i : Fin POOL_SIZE) :
    (l.foldl
      (fun p c =>
        match pool_index c with
        | some i => Function.update p i (p i + 1)
        | none => p)
      pool) i = pool i + (l.countP (fun c => pool_index c == some i) : Nat) := by
  induction l generalizing pool with
  | nil => simp
  | cons c l ih =>
    rw [List.foldl_cons, ih, List.countP_cons]
    cases hc : pool_index c with
    | none => simp
    | some j =>
      by_cases hji : j = i
      · subst hji; simp; omega
      · have : i ≠ j := fun e => hji e.symm
        simp [Function.update_noteq this, hji]

theorem pool_add_apply (pool : Pool) (text : List Char) (i : Fin POOL_SIZE) :
    pool_add pool text i = pool i + (letter_count text i : Int) := by
  unfold pool_add letter_count
  exact pool_add_foldl _ _ _

theorem pool_add_subtract (pool : Pool) (text : List Char) :
    pool_add (pool_subtract pool text) text = pool := by
  funext i
  rw [pool_add_apply, pool_subtract_apply]
  omega

theorem pool_subtract_wrap (pool : Pool) (text : List Char) (i : Fin POOL_SIZE)
    (h0 : 0 ≤ pool i) (h1 : pool i < 4294967296)
    (h2 : (letter_count text i : Int) < 4294967296) :
    (pool_subtract pool text i % 4294967296 = 0 ↔ pool_subtract pool text i = 0) ∧
      (pool_subtract pool text i % 4294967296 + letter_count text i) % 4294967296 =
        pool i := by
  rw [pool_subtract_apply]
  omega

theorem pool_count_all_eq (pool : Pool) : pool_count_all pool = ∑ i, (pool i).toNat := by
  unfold pool_count_all
  exact (Fin.sum_univ_def (fun i => (pool i).toNat)).symm

theorem letter_total_pos_iff (text : List Char) :
    0 < letter_total text ↔ ∃ i, 0 < letter_count text i := by
  unfold letter_total letter_count
  simp only [List.countP_pos_iff]
  constructor
  · rintro ⟨c, hc, h⟩
    cases hi : pool_index c with
    | none => simp [hi] at h
    | some i => exact ⟨i, c, hc, by simp [hi]⟩
  · rintro ⟨i, c, hc, h⟩
    refine ⟨c, hc, ?_⟩
    simp at h
    simp [h]

theorem pool_count_all_subtract_le (pool : Pool) (text : List Char) :
    pool_count_all (pool_subtract pool text) ≤ pool_count_all pool := by
  rw [pool_count_all_eq, pool_count_all_eq]
  apply Finset.sum_le_sum
  intro i _
  rw [pool_subtract_apply]
  omega

theorem pool_count_all_subtract_lt (pool : Pool) (text : List Char)
    (h : pool_can_spell pool text = true) (hl : 0 < letter_total text) :
    pool_count_all (pool_subtract pool text) < pool_count_all pool := by
  rw [pool_count_all_eq, pool_count_all_eq]
  obtain ⟨j, hj⟩ := (letter_total_pos_iff text).1 hl
  have hle := (pool_can_spell_iff pool text).1 h
  apply Finset.sum_lt_sum
  · intro i _
    rw [pool_subtract_apply]
    omega
  · refine ⟨j, Finset.mem_univ _, ?_⟩
    rw [pool_subtract_apply]
    have := hle j
    omega

theorem pool_count_all_pos (pool : Pool) (hn : ∀ i, 0 ≤ pool i)
    (h : pool_is_empty pool = false) : 0 < pool_count_all pool := by
  by_contra hc
  have h0 : pool_count_all pool = 0 := by omega
  rw [pool_count_all_eq] at h0
  have : pool_is_empty pool = true := by
    rw [pool_is_empty_iff]
    intro i
    have := (Finset.sum_eq_zero_iff.1 h0) i (Finset.mem_univ _)
    have := hn i
    omega
  rw [this] at h
  cases h

theorem pool_subtract_nonneg (pool : Pool) (text : List Char)
    (h : pool_can_spell pool text = true) : ∀ i, 0 ≤ pool_subtract pool text i := by
  intro i
  have := (pool_can_spell_iff pool text).1 h i
  rw [pool_subtract_apply]
  omega

theorem pool_subtract_not_empty (pool : Pool) (text : List Char)
    (h : pool_can_spell pool text = false) :
    pool_is_empty (pool_subtract pool text) = false := by
  by_contra hc
  have he : pool_is_empty (pool_subtract pool text) = true := by simpa using hc
  have hz := (pool_is_empty_iff _).1 he
  have : pool_can_spell pool text = true := by
    rw [pool_can_spell_iff]
    intro i
    have := hz i
    rw [pool_subtract_apply] at this
    omega
  rw [this] at h
  cases h

theorem pool_subtract_empty_iff (pool : Pool) (text : List Char) :
    pool_is_empty (pool_subtract pool text) = true ↔
      ∀ i, (letter_count text i : Int) = pool i := by
  rw [pool_is_empty_iff]
  constructor
  · intro h i
    have := h i
    rw [pool_subtract_apply] at this
    omega
  · intro h i
    rw [pool_subtract_apply, h i]
    omega

/-! ## The candidate array -/

theorem phrase_array_take {α : Type} (L : List α) (tail : List (Option α)) :
    (phrase_array L tail).take (L.length + 1) = phrase_array L [] := by
  simp [phrase_array, List.take_append_eq_append_take]

theorem phrase_array_map {α β : Type} (f : α → β) (L : List α) (tail : List (Option α)) :
    (phrase_array L tail).map (Option.map f) =
      phrase_array (L.map f) (tail.map (Option.map f)) := by
  simp [phrase_array, List.map_map, Function.comp]

theorem get_of_drop_eq {α : Type} (arr : List α) (j : Nat) (x : α) (rest : List α)
    (h : arr.drop j = x :: rest) : arr[j]? = some x ∧ j < arr.length ∧
      arr.drop (j + 1) = rest := by
  have h1 : j < arr.length := by
    by_contra hc
    rw [List.drop_eq_nil_of_le (by omega)] at h
    cases h
  have h2 := List.drop_eq_getElem_cons h1
  rw [h2] at h
  injection h with ha hb
  exact ⟨by simp [List.getElem?_eq_getElem h1, ha], h1, hb⟩

theorem filter_phrases_spec {α : Type} (keep : α → Bool) (R : List α) :
    ∀ (fuel : Nat) (arr : List (Option α)) (prev curr cnt : Nat) (tail : List (Option α)),
      R.length ≤ fuel → curr ≤ prev → arr.drop prev = phrase_array R tail →
      filter_phrases keep fuel arr prev curr cnt =
        (arr.take curr ++ phrase_array (R.filter keep)
            (arr.drop (curr + (R.filter keep).length + 1)),
         cnt - (R.length - (R.filter keep).length)) := by
  induction R with
  | nil =>
    intro fuel arr prev curr cnt tail _ hcp hd
    obtain ⟨hg, hlt, _⟩ := get_of_drop_eq arr prev none tail (by simpa [phrase_array] using hd)
    have hs : arr.set curr none = arr.take curr ++ none :: arr.drop (curr + 1) := by
      rw [List.set_eq_take_append_cons_drop, if_pos (by omega)]
    cases fuel with
    | zero => simp [filter_phrases, hs, phrase_array]
    | succ f =>
      rw [filter_phrases, hg]
      simp [hs, phrase_array]
  | cons r R ih =>
    intro fuel arr prev curr cnt tail hf hcp hd
    obtain ⟨hg, hlt, hd1⟩ := get_of_drop_eq arr prev (some r) (phrase_array R tail)
      (by simpa [phrase_array] using hd)
    cases fuel with
    | zero => simp at hf
    | succ f =>
      have hf1 : R.length ≤ f := by simpa using hf
      have hle := List.length_filter_le keep R
      by_cases hk : keep r = true
      · have hd2 : (arr.set curr (some r)).drop (prev + 1) = phrase_array R tail := by
          rw [List.drop_set_of_lt _ _ (by omega)]; exact hd1
        rw [filter_phrases, hg]
        simp only [hk, if_true]
        rw [ih f _ (prev + 1) (curr + 1) cnt tail hf1 (by omega) hd2]
        simp only [List.filter_cons, hk, if_true, List.length_cons]
        have ht : (arr.set curr (some r)).take (curr + 1) = arr.take curr ++ [some r] := by
          rw [List.set_eq_take_append_cons_drop, if_pos (by omega),
            List.take_append_eq_append_take]
          simp [List.length_take, Nat.min_eq_left (show curr ≤ arr.length by omega)]
        rw [ht, List.drop_set_of_lt _ _ (by omega)]
        refine Prod.ext ?_ ?_
        · simp [phrase_array, Nat.add_assoc, Nat.add_comm 1]
        · simp
      · have hk2 : keep r = false := by simpa using hk
        rw [filter_phrases, hg]
        simp only [hk2]
        rw [ih f _ (prev + 1) curr (cnt - 1) tail hf1 (by omega) hd1]
        simp only [List.filter_cons, hk2, List.length_cons]
        refine Prod.ext ?_ ?_
        · simp
        · simp; omega

theorem filter_phrases_array {α : Type} (keep : α → Bool) (L : List α)
    (tail : List (Option α)) :
    filter_phrases keep (phrase_array L tail).length (phrase_array L tail) 0 0 L.length =
      (phrase_array (L.filter keep)
          ((phrase_array L tail).drop ((L.filter keep).length + 1)),
        (L.filter keep).length) := by
  have hle := List.length_filter_le keep L
  rw [filter_phrases_spec keep L _ _ 0 0 L.length tail (by simp [phrase_array])
    (Nat.le_refl _) (by simp)]
  refine Prod.ext ?_ ?_
  · simp
  · simp; omega

theorem phrase_array_drop {α : Type} (L : List α) (tail : List (Option α)) (k : Nat)
    (h : k ≤ L.length) : (phrase_array L tail).drop k = phrase_array (L.drop k) tail := by
  simp [phrase_array, List.drop_append_eq_append_drop, Nat.sub_eq_zero_of_le h]

theorem advance_spec {α : Type} (arr : List (Option α)) (tail : List (Option α)) :
    ∀ (k j : Nat) (W : List α), W ≠ [] → arr.drop j = phrase_array W tail →
      arr.drop (advance arr k j) = phrase_array (W.drop k) tail := by
  intro k
  induction k with
  | zero => intro j W _ h; simpa [advance] using h
  | succ k ih =>
    intro j W hW h
    cases W with
    | nil => exact absurd rfl hW
    | cons v V =>
      obtain ⟨_, _, hd⟩ := get_of_drop_eq arr j (some v) (phrase_array V tail)
        (by simpa [phrase_array] using h)
      cases V with
      | nil =>
        obtain ⟨hg, _, _⟩ := get_of_drop_eq arr (j + 1) none tail
          (by simpa [phrase_array] using hd)
        rw [advance, hg]
        simpa using hd
      | cons v2 V2 =>
        obtain ⟨hg, _, _⟩ := get_of_drop_eq arr (j + 1) (some v2) (phrase_array V2 tail)
          (by simpa [phrase_array] using hd)
        rw [advance, hg]
        simpa using ih (j + 1) (v2 :: V2) (by simp) hd

theorem advance_index {α : Type} (arr : List (Option α)) (tail : List (Option α)) :
    ∀ (k j : Nat) (W : List α), W.drop k ≠ [] → arr.drop j = phrase_array W tail →
      advance arr k j = j + k := by
  intro k
  induction k with
  | zero => intro j W _ _; simp [advance]
  | succ k ih =>
    intro j W hW h
    cases W with
    | nil => simp at hW
    | cons v V =>
      obtain ⟨_, _, hd⟩ := get_of_drop_eq arr j (some v) (phrase_array V tail)
        (by simpa [phrase_array] using h)
      cases V with
      | nil => simp at hW
      | cons v2 V2 =>
        obtain ⟨hg, _, _⟩ := get_of_drop_eq arr (j + 1) (some v2) (phrase_array V2 tail)
          (by simpa [phrase_array] using hd)
        rw [advance, hg]
        simp only
        rw [ih (j + 1) (v2 :: V2) (by simpa using hW) hd]
        omega

theorem skip_offset_spec {α : Type} (arr : List (Option α)) (tail : List (Option α)) :
    ∀ (k j : Nat) (W : List α), arr.drop (j + 1) = phrase_array W tail →
      skip_offset arr k j = if k ≤ W.length then some (j + k) else none := by
  intro k
  induction k with
  | zero => intro j W _; simp [skip_offset]
  | succ k ih =>
    intro j W h
    cases W with
    | nil =>
      obtain ⟨hg, _, _⟩ := get_of_drop_eq arr (j + 1) none tail (by simpa [phrase_array] using h)
      rw [skip_offset, hg]
      simp
    | cons v V =>
      obtain ⟨hg, _, hd⟩ := get_of_drop_eq arr (j + 1) (some v) (phrase_array V tail)
        (by simpa [phrase_array] using h)
      rw [skip_offset, hg]
      simp only
      rw [ih (j + 1) V hd]
      simp [Nat.add_assoc, Nat.add_comm 1]

/-! ## The array of entries and the array of their texts -/

theorem filter_phrases_map {α β : Type} (f : α → β) (keep : β → Bool) :
    ∀ (fuel : Nat) (arr : List (Option α)) (prev curr cnt : Nat),
      filter_phrases keep fuel (arr.map (Option.map f)) prev curr cnt =
        ((filter_phrases (fun a => keep (f a)) fuel arr prev curr cnt).1.map (Option.map f),
          (filter_phrases (fun a => keep (f a)) fuel arr prev curr cnt).2) := by
  intro fuel
  induction fuel with
  | zero =>
    intro arr prev curr cnt
    simp [filter_phrases, List.map_set]
  | succ fuel ih =>
    intro arr prev curr cnt
    rw [filter_phrases, filter_phrases]
    rcases hg : arr[prev]? with _ | _ | a
    · simp [hg, List.map_set]
    · simp [hg, List.map_set]
    · simp only [List.getElem?_map, hg, Option.map_some']
      by_cases hk : keep (f a) = true
      · simp only [hk, if_true]
        rw [← ih]
        simp [List.map_set]
      · have hk2 : keep (f a) = false := by simpa using hk
        simp only [hk2, Bool.false_eq_true, if_false]
        rw [← ih]

theorem skip_offset_map {α β : Type} (f : α → β) (arr : List (Option α)) :
    ∀ (k j : Nat), skip_offset (arr.map (Option.map f)) k j = skip_offset arr k j := by
  intro k
  induction k with
  | zero => intro j; rfl
  | succ k ih =>
    intro j
    rw [skip_offset, skip_offset]
    rcases hg : arr[j + 1]? with _ | _ | a <;> simp [hg, ih]

theorem advance_map {α β : Type} (f : α → β) (arr : List (Option α)) :
    ∀ (k j : Nat), advance (arr.map (Option.map f)) k j = advance arr k j := by
  intro k
  induction k with
  | zero => intro j; rfl
  | succ k ih =>
    intro j
    rw [advance, advance]
    rcases hg : arr[j + 1]? with _ | _ | a <;> simp [hg, ih]

/-! ## One step of `sentence_build_inner` -/

theorem inner_succ (si : sentence_info) (f : Nat) (st : Search) (wp : Option Nat)
    (ps : List (Option (List Char))) (cnt depth : Nat) :
    sentence_build_inner si (f + 1) st wp (some ps) cnt depth =
      if cnt = 0 then st
      else
        match (if depth = 0 then
            skip_offset (filter_phrases (keep_phrase si st) ps.length ps 0 0 cnt).1 si.offset 0
          else some 0) with
        | none => st
        | some curr =>
          place_loop (fun s w ps c d => sentence_build_inner si f s w (some ps) c d)
            si.step (wp.getD 0) (filter_phrases (keep_phrase si st) ps.length ps 0 0 cnt).1
            (filter_phrases (keep_phrase si st) ps.length ps 0 0 cnt).2 depth f curr st := by
  rw [sentence_build_inner]
  rfl

theorem inner_traced_succ (si : sentence_info) (f : Nat) (t : Search × List Event)
    (wp : Option Nat) (ps : List (Option Entry)) (cnt depth : Nat) (br : List Nat) :
    sentence_build_inner_traced si (f + 1) t wp (some ps) cnt depth br =
      if cnt = 0 then t
      else
        match (if depth = 0 then
            skip_offset
              (filter_phrases (fun a : Entry => keep_phrase si t.1 a.2) ps.length ps 0 0 cnt).1
              si.offset 0
          else some 0) with
        | none => t
        | some curr =>
          place_loop_traced
            (fun s w ps c d b => sentence_build_inner_traced si f s w (some ps) c d b)
            si.step (wp.getD 0)
            (filter_phrases (fun a : Entry => keep_phrase si t.1 a.2) ps.length ps 0 0 cnt).1
            (filter_phrases (fun a : Entry => keep_phrase si t.1 a.2) ps.length ps 0 0 cnt).2
            depth br f curr t := by
  rw [sentence_build_inner_traced]
  rfl

/-! ## The log does not change the run -/

theorem place_phrase_traced_fst
    (rt : Search × List Event → Option Nat → List (Option Entry) → Nat → Nat → List Nat →
      Search × List Event)
    (r : Search → Option Nat → List (Option (List Char)) → Nat → Nat → Search)
    (h : ∀ t w ps c d b, (rt t w ps c d b).1 = r t.1 w (ps.map (Option.map Prod.snd)) c d)
    (w : Nat) (arr : List (Option Entry)) (cnt depth curr : Nat) (br : List Nat) (a : Entry)
    (t : Search × List Event) :
    (place_phrase_traced rt w arr cnt depth curr br a t).1 =
      place_phrase r w (arr.map (Option.map Prod.snd)) cnt depth a.2 t.1 := by
  unfold place_phrase_traced place_phrase
  cases hcp : copy_phrase t.1.sentence w a.2 with
  | none => rfl
  | some bn =>
    obtain ⟨buf, n⟩ := bn
    simp only
    by_cases he : pool_is_empty (pool_subtract t.1.pool a.2) = true
    · simp only [he, if_true]
      cases hw : mem_write buf n NUL with
      | none => rfl
      | some buf1 =>
        simp only
        cases hh : t.1.halt <;> rfl
    · have he2 : pool_is_empty (pool_subtract t.1.pool a.2) = false := by simpa using he
      simp only [he2, Bool.false_eq_true, if_false]
      cases hw : mem_write buf n ' ' with
      | none => rfl
      | some buf1 =>
        simp only [← List.map_take]
        have hr := h
          ({ t.1 with pool := pool_subtract t.1.pool a.2, sentence := buf1 },
            t.2 ++ [Event.expand depth curr a.2 (pool_can_spell t.1.pool a.2),
              Event.call ((arr.take (cnt + 1)).map (Option.map Prod.snd)) cnt (depth + 1)])
          (some (n + 1)) (arr.take (cnt + 1)) cnt (depth + 1) (br ++ [a.1])
        simp only at hr
        rw [← hr]
        generalize rt _ _ _ _ _ _ = y
        cases hx : y.1.halt <;> rfl

theorem place_loop_traced_fst
    (rt : Search × List Event → Option Nat → List (Option Entry) → Nat → Nat → List Nat →
      Search × List Event)
    (r : Search → Option Nat → List (Option (List Char)) → Nat → Nat → Search)
    (h : ∀ t w ps c d b, (rt t w ps c d b).1 = r t.1 w (ps.map (Option.map Prod.snd)) c d)
    (k w : Nat) (arr : List (Option Entry)) (cnt depth : Nat) (br : List Nat) :
    ∀ (g curr : Nat) (t : Search × List Event),
      (place_loop_traced rt k w arr cnt depth br g curr t).1 =
        place_loop r k w (arr.map (Option.map Prod.snd)) cnt depth g curr t.1 := by
  intro g
  induction g with
  | zero =>
    intro curr t
    unfold place_loop_traced place_loop
    rw [List.getElem?_map]
    rcases hg : arr[curr]? with _ | _ | a <;> rfl
  | succ g ih =>
    intro curr t
    rw [place_loop_traced, place_loop, List.getElem?_map]
    rcases hg : arr[curr]? with _ | _ | a
    · rfl
    · rfl
    · simp only [Option.map_some']
      have e := place_phrase_traced_fst rt r h w arr cnt depth curr br a t
      cases hh : (place_phrase r w (arr.map (Option.map Prod.snd)) cnt depth a.2 t.1).halt with
      | some x =>
        rw [e, hh]
        simp only
        exact e
      | none =>
        rw [e, hh]
        simp only
        rw [ih, e, advance_map]

theorem inner_traced_fst (si : sentence_info) :
    ∀ (f : Nat) (t : Search × List Event) (wp : Option Nat)
      (phrases : Option (List (Option Entry))) (cnt depth : Nat) (br : List Nat),
      (sentence_build_inner_traced si f t wp phrases cnt depth br).1 =
        sentence_build_inner si f t.1 wp (phrases.map (List.map (Option.map Prod.snd))) cnt
          depth := by
  intro f
  induction f with
  | zero =>
    intro t wp phrases cnt depth br
    rw [sentence_build_inner_traced, sentence_build_inner]
  | succ f ih =>
    intro t wp phrases cnt depth br
    cases phrases with
    | none => simp [sentence_build_inner_traced, sentence_build_inner]
    | some ps =>
      rw [inner_traced_succ, Option.map_some', inner_succ]
      by_cases hc : cnt = 0
      · simp only [hc, if_true]
      · simp only [hc, if_false]
        have hf := filter_phrases_map (Prod.snd : Entry → List Char) (keep_phrase si t.1)
          ps.length ps 0 0 cnt
        rw [List.length_map, hf]
        simp only [skip_offset_map]
        cases (if depth = 0 then
            skip_offset
              (filter_phrases (fun a : Entry => keep_phrase si t.1 a.2) ps.length ps 0 0
                cnt).1 si.offset 0
          else some 0) with
        | none => rfl
        | some curr =>
          exact place_loop_traced_fst _ _ (fun s w ps c d b => ih s w (some ps) c d b)
            _ _ _ _ _ _ _ _ _

theorem entries_from_map_snd (n : Nat) (cat : List (List Char)) :
    (entries_from n cat).map Prod.snd = cat := by
  induction cat generalizing n with
  | nil => rfl
  | cons p ps ih => simp [entries_from, ih]

theorem entries_from_length (n : Nat) (cat : List (List Char)) :
    (entries_from n cat).length = cat.length := by
  induction cat generalizing n with
  | nil => rfl
  | cons p ps ih => simp [entries_from, ih]

theorem entries_array_map (cat : List (List Char)) :
    ((entries cat).map some ++ [none]).map (Option.map Prod.snd) = cat.map some ++ [none] := by
  have := entries_from_map_snd 0 cat
  unfold entries
  simp only [List.map_append, List.map_map, List.map_cons, List.map_nil, Option.map_none']
  congr 1
  conv => rhs; rw [← this]
  simp [List.map_map, Function.comp]

theorem sentence_build_traced_fst (zn : Bool) (fuel : Nat) (si : sentence_info) :
    (sentence_build_traced zn fuel si).1 = sentence_build zn fuel si := by
  unfold sentence_build_traced sentence_build
  split
  · rfl
  · split
    · rfl
    · rw [inner_traced_fst, Option.map_some', entries_array_map]

/-! ## The placement loop as a loop over a list -/

theorem place_list_nil (body : Nat → Entry → Search × List Event → Search × List Event)
    (k fuel curr : Nat) (t : Search × List Event) : place_list body k fuel curr [] t = t := by
  cases fuel <;> rfl

theorem place_loop_eq_place_list
    (recurse : Search × List Event → Option Nat → List (Option Entry) → Nat → Nat →
      List Nat → Search × List Event)
    (k w : Nat) (arr : List (Option Entry)) (cnt depth : Nat) (br : List Nat)
    (tail : List (Option Entry)) :
    ∀ (fuel j : Nat) (V : List Entry) (t : Search × List Event),
      arr.drop j = phrase_array V tail →
      place_loop_traced recurse k w arr cnt depth br fuel j t =
        place_list (fun c a => place_phrase_traced recurse w arr cnt depth c br a)
          (if depth = 0 then k else 1) fuel j V t := by
  intro fuel
  induction fuel with
  | zero =>
    intro j V t h
    cases V with
    | nil =>
      obtain ⟨hg, _, _⟩ := get_of_drop_eq arr j none tail (by simpa [phrase_array] using h)
      simp [place_loop_traced, place_list, hg]
    | cons v V =>
      obtain ⟨hg, _, _⟩ := get_of_drop_eq arr j (some v) (phrase_array V tail)
        (by simpa [phrase_array] using h)
      simp [place_loop_traced, place_list, hg]
  | succ fuel ih =>
    intro j V t h
    cases V with
    | nil =>
      obtain ⟨hg, _, _⟩ := get_of_drop_eq arr j none tail (by simpa [phrase_array] using h)
      simp [place_loop_traced, place_list, hg]
    | cons v V =>
      obtain ⟨hg, _, _⟩ := get_of_drop_eq arr j (some v) (phrase_array V tail)
        (by simpa [phrase_array] using h)
      have ha := advance_spec arr tail (if depth = 0 then k else 1) j (v :: V) (by simp) h
      rw [place_loop_traced, hg, place_list]
      simp only
      cases hh : (place_phrase_traced recurse w arr cnt depth j br v t).1.halt with
      | some x => simp
      | none =>
        simp only
        rw [ih _ _ _ ha]
        by_cases hnil : (v :: V).drop (if depth = 0 then k else 1) = []
        · rw [hnil, place_list_nil, place_list_nil]
        · rw [advance_index arr tail _ j (v :: V) hnil h]

theorem place_phrase_traced_take
    (recurse : Search × List Event → Option Nat → List (Option Entry) → Nat → Nat →
      List Nat → Search × List Event)
    (w : Nat) (arr : List (Option Entry)) (cnt depth curr : Nat) (br : List Nat) (a : Entry)
    (t : Search × List Event) :
    place_phrase_traced recurse w arr cnt depth curr br a t =
      place_phrase_traced recurse w (arr.take (cnt + 1)) cnt depth curr br a t := by
  simp [place_phrase_traced, List.take_take]

theorem place_phrase_traced_array
    (recurse : Search × List Event → Option Nat → List (Option Entry) → Nat → Nat →
      List Nat → Search × List Event)
    (w : Nat) (S : List Entry) (rest : List (Option Entry)) (depth : Nat) (br : List Nat) :
    (fun (c : Nat) (a : Entry) =>
        place_phrase_traced recurse w (phrase_array S rest) S.length depth c br a) =
      (fun (c : Nat) (a : Entry) =>
        place_phrase_traced recurse w (phrase_array S []) S.length depth c br a) := by
  funext c a t
  rw [place_phrase_traced_take, phrase_array_take]

theorem inner_unfold (si : sentence_info) (f : Nat) (t : Search × List Event)
    (wp : Option Nat) (L : List Entry) (tail : List (Option Entry)) (depth : Nat)
    (br : List Nat) (hL : L ≠ []) :
    sentence_build_inner_traced si (f + 1) t wp (some (phrase_array L tail)) L.length depth br =
      place_list (place_entry si f (wp.getD 0) (survivors si t.1 L) depth br)
        (if depth = 0 then si.step else 1) f (if depth = 0 then si.offset else 0)
        (visited si depth L (survivors si t.1 L)) t := by
  have hlen : L.length ≠ 0 := by
    intro h; exact hL (List.length_eq_zero.1 h)
  rw [inner_traced_succ]
  simp only [hlen, if_false]
  rw [filter_phrases_array]
  simp only
  change _ = place_list (place_entry si f (wp.getD 0) (survivors si t.1 L) depth br) _ f _
    (visited si depth L (survivors si t.1 L)) t
  have hS : List.filter (fun a : Entry => keep_phrase si t.1 a.2) L = survivors si t.1 L := rfl
  rw [hS]
  generalize hSe : survivors si t.1 L = S
  generalize hrest : List.drop (S.length + 1) (phrase_array L tail) = rest
  have hbody := place_phrase_traced_array
    (fun s w ps c d b => sentence_build_inner_traced si f s w (some ps) c d b) (wp.getD 0) S
    rest depth br
  by_cases hd : depth = 0
  · subst hd
    simp only [if_true]
    cases S with
    | cons a S1 =>
      have h1 : (phrase_array (a :: S1) rest).drop (0 + 1) = phrase_array S1 rest := by
        simp [phrase_array]
      rw [skip_offset_spec _ rest si.offset 0 S1 h1]
      by_cases ho : si.offset ≤ S1.length
      · simp only [ho, if_true, Nat.zero_add]
        rw [place_loop_eq_place_list _ _ _ _ _ _ _ rest _ si.offset ((a :: S1).drop si.offset) t
          (phrase_array_drop _ _ _ (by simp; omega))]
        simp only [if_true]
        rw [hbody]
        have : visited si 0 L (a :: S1) = (a :: S1).drop si.offset := by
          unfold visited
          by_cases h0 : si.offset = 0 <;> simp [h0]
        rw [this]
        rfl
      · simp only [ho, if_false]
        have : visited si 0 L (a :: S1) = [] := by
          unfold visited
          have h0 : si.offset ≠ 0 := by omega
          simp only [if_true, h0, if_false]
          apply List.drop_eq_nil_of_le
          simp; omega
        rw [this, place_list_nil]
    | nil =>
      cases L with
      | nil => exact absurd rfl hL
      | cons b L1 =>
        have hr : rest = phrase_array L1 tail := by
          rw [← hrest]; simp [phrase_array]
        have h1 : (phrase_array ([] : List Entry) rest).drop (0 + 1) = phrase_array L1 tail := by
          simp [phrase_array, hr]
        rw [skip_offset_spec _ tail si.offset 0 L1 h1]
        by_cases ho : si.offset ≤ L1.length
        · simp only [ho, if_true, Nat.zero_add]
          have hdrop : (phrase_array ([] : List Entry) rest).drop si.offset =
              phrase_array (visited si 0 (b :: L1) []) (if si.offset = 0 then rest else tail) := by
            unfold visited
            by_cases h0 : si.offset = 0
            · simp [h0]
            · obtain ⟨o, ho1⟩ := Nat.exists_eq_succ_of_ne_zero h0
              simp only [if_true, h0, if_false]
              rw [ho1, hr]
              simp only [phrase_array, List.map_nil, List.nil_append, List.drop_succ_cons]
              have := phrase_array_drop L1 tail o (by omega)
              simpa [phrase_array] using this
          rw [place_loop_eq_place_list _ _ _ _ _ _ _ _ _ si.offset _ t hdrop]
          simp only [if_true]
          rw [hbody]
          rfl
        · simp only [ho, if_false]
          have : visited si 0 (b :: L1) [] = [] := by
            unfold visited
            have h0 : si.offset ≠ 0 := by omega
            simp only [if_true, h0, if_false]
            apply List.drop_eq_nil_of_le
            simp; omega
          rw [this, place_list_nil]
  · simp only [hd, if_false]
    have h0 : (phrase_array S rest).drop 0 = phrase_array (visited si depth L S) rest := by
      simp [visited, hd]
    rw [place_loop_eq_place_list _ _ _ _ _ _ _ rest _ 0 _ t h0]
    simp only [hd, if_false]
    rw [hbody]
    rfl

/-! ## What a search emits -/

theorem emitted_branches_append (l1 l2 : List Event) :
    emitted_branches (l1 ++ l2) = emitted_branches l1 ++ emitted_branches l2 := by
  induction l1 with
  | nil => rfl
  | cons e l1 ih =>
    cases e <;> simp [emitted_branches, ih]

theorem sentence_text_cons (w : List Char) (ws : List (List Char)) (h : ws ≠ []) :
    sentence_text (w :: ws) = cstr w ++ ' ' :: sentence_text ws := by
  cases ws with
  | nil => exact absurd rfl h
  | cons v vs => rfl

theorem letters_cons (w : List Char) (ws : List (List Char)) (i : Fin POOL_SIZE) :
    letters (w :: ws) i = letter_count w i + letters ws i := by
  simp [letters]

theorem Outcome.refl (pre : List Char) (P : Pool) (cands heads : List Entry) (ord : Prop)
    (br : List Nat) (t : Search × List Event) (hP : t.1.pool = P) (rest : List Char)
    (hs : t.1.sentence = pre ++ rest) :
    Outcome pre P cands heads ord br t t [] :=
  { emitted_eq := by simp
    branches_eq := by simp
    heads_mem := by simp
    cands_mem := by simp
    letters_eq := by simp
    ordered := by simp
    max_length_eq := rfl
    length_eq := rfl
    restored := fun _ => ⟨hP, rest, hs⟩ }

theorem Outcome.halted (pre : List Char) (P : Pool) (cands heads : List Entry) (ord : Prop)
    (br : List Nat) (t t1 : Search × List Event) (h : Halt) (hh : t1.1.halt = some h)
    (he : t1.1.emitted = t.1.emitted) (hm : t1.1.max_length = t.1.max_length)
    (hl : t1.1.sentence.length = t.1.sentence.length)
    (hb : emitted_branches t1.2 = emitted_branches t.2) :
    Outcome pre P cands heads ord br t t1 [] :=
  { emitted_eq := by simp [he]
    branches_eq := by simp [hb]
    heads_mem := by simp
    cands_mem := by simp
    letters_eq := by simp
    ordered := by simp
    max_length_eq := hm
    length_eq := hl
    restored := fun hx => by rw [hh] at hx; cases hx }

theorem Outcome.append {pre : List Char} {P : Pool} {cands : List Entry} {ord : Prop}
    {br : List Nat} {a : Entry} {V2 : List Entry} {t t1 t2 : Search × List Event}
    {D1 D2 : List (List Entry)}
    (h1 : Outcome pre P cands [a] ord br t t1 D1)
    (h2 : Outcome pre P cands V2 ord br t1 t2 D2)
    (hlt : ord → ∀ b ∈ V2, a.1 < b.1) :
    Outcome pre P cands (a :: V2) ord br t t2 (D1 ++ D2) :=
  { emitted_eq := by rw [h2.emitted_eq, h1.emitted_eq]; simp
    branches_eq := by rw [h2.branches_eq, h1.branches_eq]; simp
    heads_mem := by
      intro ws hws
      rcases List.mem_append.1 hws with h | h
      · obtain ⟨x, r, e, hx⟩ := h1.heads_mem ws h
        exact ⟨x, r, e, by simp at hx; simp [hx]⟩
      · obtain ⟨x, r, e, hx⟩ := h2.heads_mem ws h
        exact ⟨x, r, e, List.mem_cons_of_mem _ hx⟩
    cands_mem := by
      intro ws hws
      rcases List.mem_append.1 hws with h | h
      · exact h1.cands_mem ws h
      · exact h2.cands_mem ws h
    letters_eq := by
      intro ws hws
      rcases List.mem_append.1 hws with h | h
      · exact h1.letters_eq ws h
      · exact h2.letters_eq ws h
    ordered := by
      intro ho
      rw [List.pairwise_append]
      refine ⟨h1.ordered ho, h2.ordered ho, ?_⟩
      intro x hx y hy
      obtain ⟨x1, xr, ex, hx1⟩ := h1.heads_mem x hx
      obtain ⟨y1, yr, ey, hy1⟩ := h2.heads_mem y hy
      have hxa : x1 = a := by simpa using hx1
      subst ex ey hxa
      unfold branch_lt
      simp only [List.map_cons]
      exact List.Lex.rel (hlt ho y1 hy1)
    max_length_eq := by rw [h2.max_length_eq, h1.max_length_eq]
    length_eq := by rw [h2.length_eq, h1.length_eq]
    restored := h2.restored }

theorem Outcome.mono_heads {pre : List Char} {P : Pool} {cands H1 H2 : List Entry}
    {ord : Prop} {br : List Nat} {t t1 : Search × List Event} {D : List (List Entry)}
    (h : Outcome pre P cands H1 ord br t t1 D) (hH : ∀ x ∈ H1, x ∈ H2) :
    Outcome pre P cands H2 ord br t t1 D :=
  { emitted_eq := h.emitted_eq
    branches_eq := h.branches_eq
    heads_mem := by
      intro ws hws
      obtain ⟨x, r, e, hx⟩ := h.heads_mem ws hws
      exact ⟨x, r, e, hH x hx⟩
    cands_mem := h.cands_mem
    letters_eq := h.letters_eq
    ordered := h.ordered
    max_length_eq := h.max_length_eq
    length_eq := h.length_eq
    restored := h.restored }

theorem place_entry_outcome (si : sentence_info) (f w : Nat) (S : List Entry) (depth : Nat)
    (br : List Nat) (curr : Nat) (a : Entry) (t : Search × List Event) (pre rest : List Char)
    (P : Pool) (cands : List Entry) (ord : Prop)
    (ih : ∀ (t2 : Search × List Event) (pre2 rest2 : List Char) (br2 : List Nat),
      t2.1.halt = none → t2.1.sentence = pre2 ++ rest2 → NUL ∉ pre2 →
      ∃ D, Outcome pre2 t2.1.pool S S True br2 t2
        (sentence_build_inner_traced si f t2 (some pre2.length) (some (phrase_array S []))
          S.length (depth + 1) br2) D)
    (hh : t.1.halt = none) (hP : t.1.pool = P) (hs : t.1.sentence = pre ++ rest)
    (hw : pre.length = w) (hn : NUL ∉ pre) (hS : ∀ b ∈ S, b ∈ cands) (ha : a ∈ cands) :
    ∃ D, Outcome pre P cands [a] ord br t (place_entry si f w S depth br curr a t) D := by
  unfold place_entry place_phrase_traced
  rw [hs, ← hw]
  by_cases hfit : (cstr a.2).length ≤ rest.length
  · rw [copy_phrase_at a.2 pre rest hfit]
    simp only
    have e1 : pre.length + (cstr a.2).length = (pre ++ cstr a.2).length := by simp
    have hn2 : NUL ∉ pre ++ cstr a.2 := by
      simp only [List.mem_append, not_or]
      exact ⟨hn, NUL_not_mem_cstr _⟩
    rw [e1]
    cases hrd : rest.drop (cstr a.2).length with
    | nil =>
      simp only [List.append_nil, mem_write_end]
      refine ⟨[], ?_⟩
      by_cases he : pool_is_empty (pool_subtract t.1.pool a.2) = true
      · simp only [he, if_true]
        exact Outcome.halted _ _ _ _ _ _ _ _ Halt.out_of_bounds rfl rfl rfl rfl
          (by simp [emitted_branches_append, emitted_branches])
      · have he2 : pool_is_empty (pool_subtract t.1.pool a.2) = false := by simpa using he
        simp only [he2, Bool.false_eq_true, if_false]
        exact Outcome.halted _ _ _ _ _ _ _ _ Halt.out_of_bounds rfl rfl rfl rfl
          (by simp [emitted_branches_append, emitted_branches])
    | cons r rest1 =>
      simp only [mem_write_at]
      by_cases he : pool_is_empty (pool_subtract t.1.pool a.2) = true
      · simp only [he, if_true, hh]
        refine ⟨[[a]], ?_⟩
        have hz := (pool_subtract_empty_iff _ _).1 he
        exact
          { emitted_eq := by
              have hc := cstr_append_NUL (pre ++ cstr a.2) rest1 hn2
              simp only [List.map_cons, List.map_nil, sentence_text]
              rw [hc]
            branches_eq := by simp [emitted_branches_append, emitted_branches]
            heads_mem := by simp
            cands_mem := by
              intro ws hws b hb
              have e1 : ws = [a] := by simpa using hws
              subst e1
              have e2 : b = a := by simpa using hb
              exact e2 ▸ ha
            letters_eq := by
              intro ws hws i
              have : ws = [a] := by simpa using hws
              subst this
              have h1 := hz i
              simp only [List.map_cons, List.map_nil, letters_cons]
              simp only [letters, List.map_nil, List.sum_nil]
              rw [← hP]
              omega
            ordered := by simp
            max_length_eq := rfl
            length_eq := by
              have hl := congrArg List.length hrd
              simp only [List.length_drop, List.length_cons] at hl
              simp only [hs, List.length_append, List.length_cons]
              omega
            restored := fun _ => ⟨by
              simp only
              rw [pool_add_subtract, hP],
              cstr a.2 ++ NUL :: rest1, by simp⟩ }
      · have he2 : pool_is_empty (pool_subtract t.1.pool a.2) = false := by simpa using he
        simp only [he2, Bool.false_eq_true, if_false]
        have hn3 : NUL ∉ pre ++ cstr a.2 ++ [' '] := by
          simp only [List.mem_append, List.mem_singleton, not_or]
          exact ⟨⟨hn, NUL_not_mem_cstr _⟩, by decide⟩
        have e2 : (pre ++ cstr a.2).length + 1 = (pre ++ cstr a.2 ++ [' ']).length := by
          simp [Nat.add_assoc]
        rw [e2, phrase_array_take]
        obtain ⟨Dc, hD⟩ := ih
          ({ t.1 with pool := pool_subtract t.1.pool a.2,
                      sentence := pre ++ cstr a.2 ++ ' ' :: rest1 },
            t.2 ++ [Event.expand depth curr a.2 (pool_can_spell t.1.pool a.2),
              Event.call ((phrase_array S []).map (Option.map Prod.snd)) S.length (depth + 1)])
          (pre ++ cstr a.2 ++ [' ']) rest1 (br ++ [a.1]) hh (by simp) hn3
        generalize sentence_build_inner_traced si f _ _ _ _ _ _ = t1 at hD ⊢
        simp only at hD
        refine ⟨Dc.map (fun ws => a :: ws), ?_⟩
        have hne : ∀ ws ∈ Dc, ws ≠ [] := by
          intro ws hws
          obtain ⟨x, r, e, _⟩ := hD.heads_mem ws hws
          simp [e]
        have hem : t1.1.emitted = t.1.emitted ++
            (Dc.map (fun ws => a :: ws)).map
              (fun ws => pre ++ sentence_text (ws.map Prod.snd)) := by
          rw [hD.emitted_eq, List.map_map]
          congr 1
          apply List.map_congr_left
          intro ws hws
          have : ws.map Prod.snd ≠ [] := by simpa using hne ws hws
          simp [sentence_text_cons _ _ this]
        have hbr : emitted_branches t1.2 = emitted_branches t.2 ++
            (Dc.map (fun ws => a :: ws)).map (fun ws => br ++ ws.map Prod.fst) := by
          rw [hD.branches_eq, List.map_map]
          simp [emitted_branches_append, emitted_branches, Function.comp]
        have hcm : ∀ ws ∈ Dc.map (fun ws => a :: ws), ∀ b ∈ ws, b ∈ cands := by
          intro ws hws b hb
          obtain ⟨ws0, h0, e⟩ := List.mem_map.1 hws
          subst e
          rcases List.mem_cons.1 hb with h | h
          · exact h ▸ ha
          · exact hS b (hD.cands_mem ws0 h0 b h)
        have hlt : ∀ ws ∈ Dc.map (fun ws => a :: ws), ∀ i,
            (letters (ws.map Prod.snd) i : Int) = P i := by
          intro ws hws i
          obtain ⟨ws0, h0, e⟩ := List.mem_map.1 hws
          subst e
          have h1 := hD.letters_eq ws0 h0 i
          rw [pool_subtract_apply] at h1
          simp only [List.map_cons, letters_cons]
          rw [← hP]
          omega
        have hord : ord → (Dc.map (fun ws => a :: ws)).Pairwise branch_lt := by
          intro _
          apply List.Pairwise.map _ _ (hD.ordered trivial)
          intro x y hxy
          unfold branch_lt at hxy ⊢
          simp only [List.map_cons]
          exact List.Lex.cons hxy
        have hlen : t1.1.sentence.length = t.1.sentence.length := by
          have hl := congrArg List.length hrd
          simp only [List.length_drop, List.length_cons] at hl
          rw [hD.length_eq]
          simp only [hs, List.length_append, List.length_cons]
          omega
        cases hh1 : t1.1.halt with
        | some x =>
          simp only
          exact
            { emitted_eq := hem
              branches_eq := hbr
              heads_mem := by
                intro ws hws
                obtain ⟨ws0, _, e⟩ := List.mem_map.1 hws
                exact ⟨a, ws0, e.symm, by simp⟩
              cands_mem := hcm
              letters_eq := hlt
              ordered := hord
              max_length_eq := hD.max_length_eq
              length_eq := hlen
              restored := fun hx => by rw [hh1] at hx; cases hx }
        | none =>
          simp only
          obtain ⟨hp1, r1, hs1⟩ := hD.restored hh1
          exact
            { emitted_eq := hem
              branches_eq := hbr
              heads_mem := by
                intro ws hws
                obtain ⟨ws0, _, e⟩ := List.mem_map.1 hws
                exact ⟨a, ws0, e.symm, by simp⟩
              cands_mem := hcm
              letters_eq := hlt
              ordered := hord
              max_length_eq := hD.max_length_eq
              length_eq := hlen
              restored := fun _ => ⟨by
                simp only
                rw [hp1, pool_add_subtract, hP], cstr a.2 ++ ' ' :: r1, by
                simp only
                rw [hs1]
                simp⟩ }
  · rw [copy_phrase_none a.2 pre rest (by omega)]
    exact ⟨[], Outcome.halted _ _ _ _ _ _ _ _ Halt.out_of_bounds rfl rfl rfl rfl
      (by simp [emitted_branches_append, emitted_branches])⟩

theorem mem_of_mem_drop_cons {α : Type} (v : α) (V : List α) (k : Nat) (hk : 1 ≤ k) (b : α)
    (hb : b ∈ (v :: V).drop k) : b ∈ V := by
  obtain ⟨j, rfl⟩ : ∃ j, k = j + 1 := ⟨k - 1, by omega⟩
  rw [List.drop_succ_cons] at hb
  exact List.mem_of_mem_drop hb

theorem place_list_outcome (si : sentence_info) (f w : Nat) (S : List Entry) (depth : Nat)
    (br : List Nat) (pre : List Char) (P : Pool) (cands : List Entry) (k : Nat) (ord : Prop)
    (ih : ∀ (t2 : Search × List Event) (pre2 rest2 : List Char) (br2 : List Nat),
      t2.1.halt = none → t2.1.sentence = pre2 ++ rest2 → NUL ∉ pre2 →
      ∃ D, Outcome pre2 t2.1.pool S S True br2 t2
        (sentence_build_inner_traced si f t2 (some pre2.length) (some (phrase_array S []))
          S.length (depth + 1) br2) D)
    (hw : pre.length = w) (hn : NUL ∉ pre) (hS : ∀ b ∈ S, b ∈ cands) (hk : ord → 1 ≤ k) :
    ∀ (g curr : Nat) (V : List Entry) (t : Search × List Event), t.1.halt = none →
      t.1.pool = P → (∃ rest, t.1.sentence = pre ++ rest) → (∀ b ∈ V, b ∈ cands) →
      V.Pairwise (fun x y => x.1 < y.1) →
      ∃ D, Outcome pre P cands V ord br t
        (place_list (place_entry si f w S depth br) k g curr V t) D := by
  intro g
  induction g with
  | zero =>
    intro curr V t hh hP hs _ _
    obtain ⟨rest, hs⟩ := hs
    cases V with
    | nil => exact ⟨[], by rw [place_list_nil]; exact Outcome.refl _ _ _ _ _ _ _ hP rest hs⟩
    | cons v V =>
      exact ⟨[], Outcome.halted _ _ _ _ _ _ _ _ Halt.out_of_fuel rfl rfl rfl rfl rfl⟩
  | succ g ihg =>
    intro curr V t hh hP hs hV hsorted
    obtain ⟨rest, hs⟩ := hs
    cases V with
    | nil => exact ⟨[], by rw [place_list_nil]; exact Outcome.refl _ _ _ _ _ _ _ hP rest hs⟩
    | cons v V =>
      obtain ⟨D1, h1⟩ := place_entry_outcome si f w S depth br curr v t pre rest P cands ord
        ih hh hP hs hw hn hS (hV v (by simp))
      rw [place_list]
      cases hh1 : (place_entry si f w S depth br curr v t).1.halt with
      | some x =>
        simp only
        exact ⟨D1, h1.mono_heads (by intro x hx; simp at hx; simp [hx])⟩
      | none =>
        simp only
        obtain ⟨hp1, hs1⟩ := h1.restored hh1
        have hV2 : ∀ b ∈ (v :: V).drop k, b ∈ cands :=
          fun b hb => hV b (List.mem_of_mem_drop hb)
        have hsorted2 : ((v :: V).drop k).Pairwise (fun x y => x.1 < y.1) :=
          hsorted.sublist (List.drop_sublist _ _)
        obtain ⟨D2, h2⟩ := ihg (curr + k) ((v :: V).drop k) _ hh1 hp1 hs1 hV2 hsorted2
        refine ⟨D1 ++ D2, (Outcome.append h1 h2 ?_).mono_heads ?_⟩
        · intro ho b hb
          have hb2 := mem_of_mem_drop_cons v V k (hk ho) b hb
          exact List.rel_of_pairwise_cons hsorted hb2
        · intro x hx
          rcases List.mem_cons.1 hx with h | h
          · simp [h]
          · exact List.mem_of_mem_drop h

theorem survivors_subset (si : sentence_info) (st : Search) (L : List Entry) :
    ∀ b ∈ survivors si st L, b ∈ L := fun _ hb => List.mem_of_mem_filter hb

theorem visited_subset (si : sentence_info) (depth : Nat) (L S : List Entry)
    (hS : ∀ b ∈ S, b ∈ L) : ∀ b ∈ visited si depth L S, b ∈ L := by
  intro b hb
  unfold visited at hb
  split at hb
  · split at hb
    · exact hS b hb
    · split at hb
      · exact List.mem_of_mem_drop hb
      · exact hS b (List.mem_of_mem_drop hb)
  · exact hS b hb

theorem visited_pairwise (si : sentence_info) (depth : Nat) (L S : List Entry)
    (hL : L.Pairwise (fun x y => x.1 < y.1)) (hS : S.Pairwise (fun x y => x.1 < y.1)) :
    (visited si depth L S).Pairwise (fun x y => x.1 < y.1) := by
  unfold visited
  split
  · split
    · exact hS
    · split
      · exact hL.sublist (List.drop_sublist _ _)
      · exact hS.sublist (List.drop_sublist _ _)
  · exact hS

theorem inner_outcome (si : sentence_info) :
    ∀ (f : Nat) (t : Search × List Event) (wp : Option Nat) (L : List Entry)
      (tail : List (Option Entry)) (depth : Nat) (br : List Nat) (pre rest : List Char),
      t.1.halt = none → t.1.sentence = pre ++ rest → pre.length = wp.getD 0 → NUL ∉ pre →
      L.Pairwise (fun x y => x.1 < y.1) →
      ∃ D, Outcome pre t.1.pool L L (depth = 0 → 1 ≤ si.step) br t
        (sentence_build_inner_traced si f t wp (some (phrase_array L tail)) L.length depth br)
        D := by
  intro f
  induction f with
  | zero =>
    intro t wp L tail depth br pre rest _ _ _ _ _
    exact ⟨[], by
      rw [sentence_build_inner_traced]
      exact Outcome.halted _ _ _ _ _ _ _ _ Halt.out_of_fuel rfl rfl rfl rfl rfl⟩
  | succ f ihf =>
    intro t wp L tail depth br pre rest hh hs hw hn hL
    by_cases hnil : L = []
    · subst hnil
      refine ⟨[], ?_⟩
      rw [sentence_build_inner_traced]
      simp only [List.length_nil, if_true]
      exact Outcome.refl _ _ _ _ _ _ _ rfl rest hs
    · rw [inner_unfold si f t wp L tail depth br hnil]
      have hSL := survivors_subset si t.1 L
      have hSs : (survivors si t.1 L).Pairwise (fun x y => x.1 < y.1) :=
        hL.sublist (List.filter_sublist _)
      have ih2 : ∀ (t2 : Search × List Event) (pre2 rest2 : List Char) (br2 : List Nat),
          t2.1.halt = none → t2.1.sentence = pre2 ++ rest2 → NUL ∉ pre2 →
          ∃ D, Outcome pre2 t2.1.pool (survivors si t.1 L) (survivors si t.1 L) True br2 t2
            (sentence_build_inner_traced si f t2 (some pre2.length)
              (some (phrase_array (survivors si t.1 L) [])) (survivors si t.1 L).length
              (depth + 1) br2) D := by
        intro t2 pre2 rest2 br2 h1 h2 h3
        obtain ⟨D, hD⟩ := ihf t2 (some pre2.length) (survivors si t.1 L) [] (depth + 1) br2
          pre2 rest2 h1 h2 rfl h3 hSs
        exact ⟨D,
          { emitted_eq := hD.emitted_eq
            branches_eq := hD.branches_eq
            heads_mem := hD.heads_mem
            cands_mem := hD.cands_mem
            letters_eq := hD.letters_eq
            ordered := fun _ => hD.ordered (by simp)
            max_length_eq := hD.max_length_eq
            length_eq := hD.length_eq
            restored := hD.restored }⟩
      obtain ⟨D, hD⟩ := place_list_outcome si f (wp.getD 0) (survivors si t.1 L) depth br pre
        t.1.pool L (if depth = 0 then si.step else 1) (depth = 0 → 1 ≤ si.step) ih2 hw hn hSL
        (by
          intro ho
          by_cases hd : depth = 0
          · simp [hd, ho hd]
          · simp [hd])
        f (if depth = 0 then si.offset else 0) (visited si depth L (survivors si t.1 L)) t hh
        rfl ⟨rest, hs⟩
        (visited_subset si depth L _ hSL) (visited_pairwise si depth L _ hL hSs)
      exact ⟨D, hD.mono_heads (visited_subset si depth L _ hSL)⟩

/-! ## The top-level call -/

theorem entries_from_mem (n : Nat) (cat : List (List Char)) (b : Entry)
    (h : b ∈ entries_from n cat) : n ≤ b.1 ∧ cat[b.1 - n]? = some b.2 := by
  induction cat generalizing n with
  | nil => cases h
  | cons p ps ih =>
    simp only [entries_from, List.mem_cons] at h
    rcases h with e | e
    · subst e; simp
    · obtain ⟨h1, h2⟩ := ih (n + 1) e
      refine ⟨by omega, ?_⟩
      have : b.1 - n = (b.1 - (n + 1)) + 1 := by omega
      rw [this, List.getElem?_cons_succ]
      exact h2

theorem entries_from_pairwise (n : Nat) (cat : List (List Char)) :
    (entries_from n cat).Pairwise (fun x y => x.1 < y.1) := by
  induction cat generalizing n with
  | nil => exact List.Pairwise.nil
  | cons p ps ih =>
    simp only [entries_from, List.pairwise_cons]
    refine ⟨?_, ih (n + 1)⟩
    intro b hb
    have := (entries_from_mem (n + 1) ps b hb).1
    omega

theorem entries_from_exists (n : Nat) (cat : List (List Char)) (w : List Char)
    (h : w ∈ cat) : ∃ b ∈ entries_from n cat, b.2 = w := by
  induction cat generalizing n with
  | nil => cases h
  | cons p ps ih =>
    rcases List.mem_cons.1 h with e | e
    · exact ⟨(n, p), by simp [entries_from], e.symm⟩
    · obtain ⟨b, hb, e2⟩ := ih (n + 1) e
      exact ⟨b, by simp [entries_from, hb], e2⟩

theorem entries_mem (cat : List (List Char)) (b : Entry) (h : b ∈ entries cat) :
    cat[b.1]? = some b.2 := by
  have := (entries_from_mem 0 cat b h).2
  simpa using this

theorem entries_snd_mem (cat : List (List Char)) (b : Entry) (h : b ∈ entries cat) :
    b.2 ∈ cat := by
  have := entries_mem cat b h
  exact List.mem_iff_getElem?.2 ⟨_, this⟩

theorem entries_length (cat : List (List Char)) : (entries cat).length = cat.length :=
  entries_from_length 0 cat

theorem sentence_build_traced_nil (zn : Bool) (fuel : Nat) (si : sentence_info)
    (h : si.phrase_list = []) :
    sentence_build_traced zn fuel si =
      ({ pool := si.pool, sentence := [], max_length := 0, emitted := [], halt := none },
        []) := by
  simp [sentence_build_traced, h]

theorem sentence_build_traced_null (fuel : Nat) (si : sentence_info)
    (h : pool_count_all si.pool = 0) :
    sentence_build_traced true fuel si =
      ({ pool := si.pool, sentence := [], max_length := 0, emitted := [], halt := none },
        []) := by
  simp [sentence_build_traced, h]

theorem sentence_build_traced_eq (zn : Bool) (fuel : Nat) (si : sentence_info)
    (h : si.phrase_list ≠ []) (hz : ¬ (2 * pool_count_all si.pool = 0 ∧ zn = true)) :
    sentence_build_traced zn fuel si =
      sentence_build_inner_traced si fuel (start si, []) none
        (some (phrase_array (entries si.phrase_list) [])) (entries si.phrase_list).length 0
        [] := by
  have h2 : si.phrase_count ≠ 0 := by
    unfold sentence_info.phrase_count
    intro e
    exact h (List.length_eq_zero.1 e)
  unfold sentence_build_traced
  simp only [h, h2, or_self, if_false, hz]
  rw [entries_length]
  rfl

theorem sentence_build_traced_cases (zn : Bool) (fuel : Nat) (si : sentence_info) :
    sentence_build_traced zn fuel si =
        ({ pool := si.pool, sentence := [], max_length := 0, emitted := [], halt := none },
          []) ∨
      sentence_build_traced zn fuel si =
        sentence_build_inner_traced si fuel (start si, []) none
          (some (phrase_array (entries si.phrase_list) [])) (entries si.phrase_list).length 0
          [] := by
  by_cases h : si.phrase_list = []
  · exact Or.inl (sentence_build_traced_nil zn fuel si h)
  · by_cases hz : 2 * pool_count_all si.pool = 0 ∧ zn = true
    · left
      obtain ⟨h1, h2⟩ := hz
      subst h2
      exact sentence_build_traced_null fuel si (by omega)
    · exact Or.inr (sentence_build_traced_eq zn fuel si h hz)

theorem sentence_build_traced_branches (zn : Bool) (fuel : Nat) (si : sentence_info) :
    ∃ D : List (List Entry),
      (sentence_build_traced zn fuel si).1.emitted =
        D.map (fun ws => sentence_text (ws.map Prod.snd)) ∧
      emitted_branches (sentence_build_traced zn fuel si).2 =
        D.map (fun ws => ws.map Prod.fst) ∧
      (∀ ws ∈ D, ws ≠ [] ∧ (∀ b ∈ ws, b ∈ entries si.phrase_list) ∧
        ∀ i, (letters (ws.map Prod.snd) i : Int) = si.pool i) ∧
      (1 ≤ si.step → D.Pairwise branch_lt) := by
  rcases sentence_build_traced_cases zn fuel si with h | h
  · exact ⟨[], by simp [h, emitted_branches]⟩
  · rw [h]
    have h0 : (start si, ([] : List Event)).1.halt = none := rfl
    have h1 : (start si, ([] : List Event)).1.sentence = [] ++ (start si).sentence :=
      (List.nil_append _).symm
    have h2 : ([] : List Char).length = (none : Option Nat).getD 0 := rfl
    obtain ⟨D, hD⟩ := inner_outcome si fuel (start si, []) none (entries si.phrase_list) [] 0
      [] [] (start si).sentence h0 h1 h2 (by simp) (entries_from_pairwise 0 _)
    refine ⟨D, ?_, ?_, ?_, ?_⟩
    · have := hD.emitted_eq
      simpa [start] using this
    · have := hD.branches_eq
      simpa [emitted_branches] using this
    · intro ws hws
      obtain ⟨a, r, e, _⟩ := hD.heads_mem ws hws
      exact ⟨by simp [e], hD.cands_mem ws hws, hD.letters_eq ws hws⟩
    · intro hs
      exact hD.ordered (fun _ => hs)

theorem sentence_build_branches (zn : Bool) (fuel : Nat) (si : sentence_info) :
    ∃ D : List (List Entry),
      (sentence_build zn fuel si).emitted =
        D.map (fun ws => sentence_text (ws.map Prod.snd)) ∧
      (∀ ws ∈ D, ws ≠ [] ∧ (∀ b ∈ ws, b ∈ entries si.phrase_list) ∧
        ∀ i, (letters (ws.map Prod.snd) i : Int) = si.pool i) ∧
      (1 ≤ si.step → D.Pairwise branch_lt) := by
  obtain ⟨D, h1, _, h3, h4⟩ := sentence_build_traced_branches zn fuel si
  rw [sentence_build_traced_fst] at h1
  exact ⟨D, h1, h3, h4⟩

/-! ## Letters of a sentence -/

theorem cstr_of_not_mem (s : List Char) (h : NUL ∉ s) : cstr s = s := by
  induction s with
  | nil => rfl
  | cons c s ih =>
    have hc : c ≠ NUL := fun e => h (by simp [e])
    have hs : NUL ∉ s := fun e => h (by simp [e])
    simp [cstr_cons, hc, ih hs]

theorem NUL_not_mem_sentence_text (ws : List (List Char)) : NUL ∉ sentence_text ws := by
  induction ws with
  | nil => simp [sentence_text]
  | cons w ws ih =>
    cases ws with
    | nil => simpa [sentence_text] using NUL_not_mem_cstr w
    | cons v vs =>
      rw [sentence_text_cons w (v :: vs) (by simp)]
      simp only [List.mem_append, List.mem_cons, not_or]
      exact ⟨NUL_not_mem_cstr w, by decide, ih⟩

theorem letter_count_sentence_text (ws : List (List Char)) (i : Fin POOL_SIZE) :
    letter_count (sentence_text ws) i = letters ws i := by
  unfold letter_count
  rw [cstr_of_not_mem _ (NUL_not_mem_sentence_text ws)]
  induction ws with
  | nil => simp [sentence_text, letters]
  | cons w ws ih =>
    cases ws with
    | nil => simp [sentence_text, letters, letter_count]
    | cons v vs =>
      rw [sentence_text_cons w (v :: vs) (by simp), letters_cons, ← ih]
      have hsp : pool_index ' ' = none := by decide
      simp [List.countP_append, List.countP_cons, letter_count, hsp]

theorem sentence_text_eq_intercalate (ws : List (List Char)) :
    sentence_text ws = List.intercalate [' '] (ws.map cstr) := by
  induction ws with
  | nil => rfl
  | cons w ws ih =>
    cases ws with
    | nil => simp [sentence_text, List.intercalate]
    | cons v vs =>
      rw [sentence_text_cons w (v :: vs) (by simp), ih]
      simp [List.intercalate, List.intersperse]

theorem lex_lt_irrefl (l : List Nat) : ¬ List.Lex (fun m n : Nat => m < n) l l := by
  induction l with
  | nil => intro h; cases h
  | cons a l ih =>
    intro h
    cases h with
    | cons h2 => exact ih h2
    | rel h2 => exact Nat.lt_irrefl _ h2

theorem map_snd_eq_getD (cat : List (List Char)) (ws : List Entry)
    (h : ∀ b ∈ ws, b ∈ entries cat) :
    ws.map Prod.snd = (ws.map Prod.fst).map (fun n => cat.getD n []) := by
  rw [List.map_map]
  apply List.map_congr_left
  intro b hb
  have := entries_mem cat b (h b hb)
  simp [List.getD, this]

theorem entries_fst_lt (cat : List (List Char)) (b : Entry) (h : b ∈ entries cat) :
    b.1 < cat.length := by
  have := entries_mem cat b h
  by_contra hc
  rw [List.getElem?_eq_none (by omega)] at this
  cases this

theorem letter_count_le_letters (ws : List (List Char)) (w : List Char) (h : w ∈ ws)
    (i : Fin POOL_SIZE) : letter_count w i ≤ letters ws i := by
  induction ws with
  | nil => cases h
  | cons v vs ih =>
    rw [letters_cons]
    rcases List.mem_cons.1 h with e | e
    · subst e; omega
    · have := ih e
      omega

theorem emitted_nil_of_unspellable (zn : Bool) (fuel : Nat) (si : sentence_info)
    (h : ∀ p ∈ si.phrase_list, pool_can_spell si.pool p = false) :
    (sentence_build zn fuel si).emitted = [] := by
  obtain ⟨D, hD, hprop, _⟩ := sentence_build_branches zn fuel si
  cases D with
  | nil => simpa using hD
  | cons ws D =>
    exfalso
    obtain ⟨hne, hmem, hl⟩ := hprop ws (by simp)
    cases ws with
    | nil => exact hne rfl
    | cons a r =>
      have ha := entries_snd_mem _ a (hmem a (by simp))
      have hs : pool_can_spell si.pool a.2 = true := by
        rw [pool_can_spell_iff]
        intro i
        have h1 := hl i
        have h2 := letter_count_le_letters ((a :: r).map Prod.snd) a.2 (by simp) i
        omega
      rw [h _ ha] at hs
      cases hs

/-! ## More fuel does not change a run that did not run out of it -/

theorem place_phrase_traced_more_fuel
    (rt rt2 : Search × List Event → Option Nat → List (Option Entry) → Nat → Nat →
      List Nat → Search × List Event)
    (hb : ∀ s w ps c d b, (rt s w ps c d b).1.halt ≠ some Halt.out_of_fuel →
      rt2 s w ps c d b = rt s w ps c d b)
    (w : Nat) (arr : List (Option Entry)) (cnt depth curr : Nat) (br : List Nat) (a : Entry)
    (t : Search × List Event)
    (h : (place_phrase_traced rt w arr cnt depth curr br a t).1.halt ≠
      some Halt.out_of_fuel) :
    place_phrase_traced rt2 w arr cnt depth curr br a t =
      place_phrase_traced rt w arr cnt depth curr br a t := by
  unfold place_phrase_traced at h ⊢
  rcases hcp : copy_phrase t.1.sentence w a.2 with _ | ⟨buf, n⟩
  · rfl
  · rw [hcp] at h
    simp only at h ⊢
    by_cases he : pool_is_empty (pool_subtract t.1.pool a.2) = true
    · simp only [he, if_true]
    · have he2 : pool_is_empty (pool_subtract t.1.pool a.2) = false := by simpa using he
      simp only [he2, Bool.false_eq_true, if_false] at h ⊢
      cases hm : mem_write buf n ' ' with
      | none => rfl
      | some buf1 =>
        rw [hm] at h
        simp only at h ⊢
        have hne : (rt
            ({ t.1 with pool := pool_subtract t.1.pool a.2, sentence := buf1 },
              t.2 ++ [Event.expand depth curr a.2 (pool_can_spell t.1.pool a.2),
                Event.call ((arr.take (cnt + 1)).map (Option.map Prod.snd)) cnt (depth + 1)])
            (some (n + 1)) (List.take (cnt + 1) arr) cnt
            (depth + 1) (br ++ [a.1])).1.halt ≠ some Halt.out_of_fuel := by
          intro e
          rw [e] at h
          exact h e
        rw [hb _ _ _ _ _ _ hne]

theorem place_loop_traced_more_fuel
    (rt rt2 : Search × List Event → Option Nat → List (Option Entry) → Nat → Nat →
      List Nat → Search × List Event)
    (hb : ∀ s w ps c d b, (rt s w ps c d b).1.halt ≠ some Halt.out_of_fuel →
      rt2 s w ps c d b = rt s w ps c d b)
    (k w : Nat) (arr : List (Option Entry)) (cnt depth : Nat) (br : List Nat) :
    ∀ (g curr : Nat) (t : Search × List Event),
      (place_loop_traced rt k w arr cnt depth br g curr t).1.halt ≠ some Halt.out_of_fuel →
      place_loop_traced rt2 k w arr cnt depth br (g + 1) curr t =
        place_loop_traced rt k w arr cnt depth br g curr t := by
  intro g
  induction g with
  | zero =>
    intro curr t h
    rw [place_loop_traced]
    unfold place_loop_traced at h ⊢
    rcases hg : arr[curr]? with _ | _ | p
    · rfl
    · rfl
    · simp [hg] at h
  | succ g ih =>
    intro curr t h
    rw [place_loop_traced] at h ⊢
    conv => rhs; rw [place_loop_traced]
    rcases hg : arr[curr]? with _ | _ | p
    · rfl
    · rfl
    · simp only [hg] at h ⊢
      cases hh : (place_phrase_traced rt w arr cnt depth curr br p t).1.halt with
      | some x =>
        rw [hh] at h
        simp only at h
        have e := place_phrase_traced_more_fuel rt rt2 hb w arr cnt depth curr br p t
          (by rw [hh]; intro e2; exact h (by rw [hh]; exact e2))
        rw [e, hh]
      | none =>
        rw [hh] at h
        simp only at h
        have e := place_phrase_traced_more_fuel rt rt2 hb w arr cnt depth curr br p t
          (by rw [hh]; simp)
        rw [e, hh]
        simp only
        rw [ih _ _ h]

theorem inner_traced_more_fuel (si : sentence_info) :
    ∀ (f : Nat) (t : Search × List Event) (wp : Option Nat)
      (phrases : Option (List (Option Entry))) (cnt depth : Nat) (br : List Nat),
      (sentence_build_inner_traced si f t wp phrases cnt depth br).1.halt ≠
        some Halt.out_of_fuel →
      sentence_build_inner_traced si (f + 1) t wp phrases cnt depth br =
        sentence_build_inner_traced si f t wp phrases cnt depth br := by
  intro f
  induction f with
  | zero =>
    intro t wp phrases cnt depth br h
    exact absurd rfl h
  | succ f ih =>
    intro t wp phrases cnt depth br h
    cases phrases with
    | none => simp [sentence_build_inner_traced]
    | some ps =>
      rw [inner_traced_succ] at h
      rw [inner_traced_succ, inner_traced_succ si f]
      by_cases hc : cnt = 0
      · simp only [hc, if_true]
      · simp only [hc, if_false] at h ⊢
        cases ho : (if depth = 0 then
            skip_offset
              (filter_phrases (fun a : Entry => keep_phrase si t.1 a.2) ps.length ps 0 0
                cnt).1 si.offset 0
          else some 0) with
        | none => rfl
        | some curr =>
          rw [ho] at h
          exact place_loop_traced_more_fuel _ _
            (fun s w ps c d b hh => ih s w (some ps) c d b hh) _ _ _ _ _ _ _ _ _ h

theorem sentence_build_traced_more_fuel (zn : Bool) (si : sentence_info) (f0 : Nat)
    (h : (sentence_build zn f0 si).halt ≠ some Halt.out_of_fuel) (n : Nat) :
    sentence_build_traced zn (f0 + n) si = sentence_build_traced zn f0 si := by
  induction n with
  | zero => rfl
  | succ n ih =>
    rw [← ih]
    rw [← sentence_build_traced_fst, ← ih] at h
    unfold sentence_build_traced at h ⊢
    split
    · rfl
    · split
      · rfl
      · rename_i hne hz
        simp only [hne, hz, if_false] at h
        exact inner_traced_more_fuel si (f0 + n) _ _ _ _ _ _ h

theorem sentence_build_more_fuel (zn : Bool) (si : sentence_info) (f0 : Nat)
    (h : (sentence_build zn f0 si).halt ≠ some Halt.out_of_fuel) (n : Nat) :
    sentence_build zn (f0 + n) si = sentence_build zn f0 si := by
  rw [← sentence_build_traced_fst, ← sentence_build_traced_fst,
    sentence_build_traced_more_fuel zn si f0 h n]

/-! ## Fields the search never reads -/

theorem inner_config (si si2 : sentence_info) (h1 : si.check_cb = si2.check_cb)
    (h2 : si.offset = si2.offset) (h3 : si.step = si2.step) :
    ∀ f, sentence_build_inner si f = sentence_build_inner si2 f := by
  intro f
  induction f with
  | zero =>
    funext st wp ph c d
    simp [sentence_build_inner]
  | succ f ih =>
    funext st wp ph c d
    simp only [sentence_build_inner, ih, h1, h2, h3]

theorem sentence_build_config (zn : Bool) (fuel : Nat) (si si2 : sentence_info)
    (hl : si.phrase_list = si2.phrase_list) (hp : si.pool = si2.pool)
    (h1 : si.check_cb = si2.check_cb) (h2 : si.offset = si2.offset)
    (h3 : si.step = si2.step) : sentence_build zn fuel si = sentence_build zn fuel si2 := by
  unfold sentence_build sentence_info.phrase_count
  rw [inner_config si si2 h1 h2 h3, hl, hp]

/-! ## Backtracking -/

theorem place_phrase_pool
    (recurse : Search → Option Nat → List (Option (List Char)) → Nat → Nat → Search)
    (hrec : ∀ s w ps c d, (recurse s w ps c d).halt = none → (recurse s w ps c d).pool = s.pool)
    (w : Nat) (arr : List (Option (List Char))) (cnt depth : Nat) (p : List Char)
    (st : Search) (h : (place_phrase recurse w arr cnt depth p st).halt = none) :
    (place_phrase recurse w arr cnt depth p st).pool = st.pool := by
  unfold place_phrase at h ⊢
  rcases hcp : copy_phrase st.sentence w p with _ | ⟨buf, n⟩
  · simp [hcp] at h
  · rw [hcp] at h
    simp only at h ⊢
    by_cases he : pool_is_empty (pool_subtract st.pool p) = true
    · simp only [he, if_true] at h ⊢
      cases hm : mem_write buf n NUL with
      | none => simp [hm] at h
      | some buf1 =>
        rw [hm] at h
        simp only at h ⊢
        cases hh : st.halt with
        | some x => simp [hh] at h
        | none =>
          simp only
          rw [pool_add_subtract]
    · have he2 : pool_is_empty (pool_subtract st.pool p) = false := by simpa using he
      simp only [he2, Bool.false_eq_true, if_false] at h ⊢
      cases hm : mem_write buf n ' ' with
      | none => simp [hm] at h
      | some buf1 =>
        rw [hm] at h
        simp only at h ⊢
        generalize hr : recurse
          { st with pool := pool_subtract st.pool p, sentence := buf1 }
          (some (n + 1)) (List.take (cnt + 1) arr) cnt (depth + 1) = r at h ⊢
        cases hh : r.halt with
        | some x => simp [hh] at h
        | none =>
          simp only
          have := hrec _ _ _ _ _ (by rw [hr]; exact hh)
          rw [hr] at this
          rw [this]
          simp only
          rw [pool_add_subtract]

theorem place_loop_pool
    (recurse : Search → Option Nat → List (Option (List Char)) → Nat → Nat → Search)
    (hrec : ∀ s w ps c d, (recurse s w ps c d).halt = none → (recurse s w ps c d).pool = s.pool)
    (k w : Nat) (arr : List (Option (List Char))) (cnt depth : Nat) :
    ∀ (g curr : Nat) (st : Search),
      (place_loop recurse k w arr cnt depth g curr st).halt = none →
      (place_loop recurse k w arr cnt depth g curr st).pool = st.pool := by
  intro g
  induction g with
  | zero =>
    intro curr st h
    unfold place_loop at h ⊢
    split at h
    · simp at h
    · rfl
  | succ g ih =>
    intro curr st h
    rw [place_loop] at h ⊢
    split at h
    · rename_i p hp
      simp only at h ⊢
      cases hh : (place_phrase recurse w arr cnt depth p st).halt with
      | some x => simp [hh] at h
      | none =>
        rw [hh] at h
        simp only at h ⊢
        rw [ih _ _ h]
        exact place_phrase_pool recurse hrec w arr cnt depth p st hh
    · rfl

theorem inner_pool (si : sentence_info) :
    ∀ (f : Nat) (st : Search) (wp : Option Nat) (phrases : Option (List (Option (List Char))))
      (cnt depth : Nat),
      (sentence_build_inner si f st wp phrases cnt depth).halt = none →
      (sentence_build_inner si f st wp phrases cnt depth).pool = st.pool := by
  intro f
  induction f with
  | zero =>
    intro st wp phrases cnt depth h
    rw [sentence_build_inner] at h
    simp at h
  | succ f ih =>
    intro st wp phrases cnt depth h
    cases phrases with
    | none => simp [sentence_build_inner]
    | some ps =>
      rw [inner_succ] at h ⊢
      by_cases hc : cnt = 0
      · simp only [hc, if_true]
      · simp only [hc, if_false] at h ⊢
        cases ho : (if depth = 0 then
            skip_offset (filter_phrases (keep_phrase si st) ps.length ps 0 0 cnt).1 si.offset 0
          else some 0) with
        | none => rfl
        | some curr =>
          rw [ho] at h
          exact place_loop_pool _ (fun s w ps c d hh => ih s w (some ps) c d hh)
            _ _ _ _ _ _ _ _ h

theorem sentence_build_pool (zn : Bool) (fuel : Nat) (si : sentence_info)
    (h : (sentence_build zn fuel si).halt = none) :
    (sentence_build zn fuel si).pool = si.pool := by
  unfold sentence_build at h ⊢
  split
  · rfl
  · split
    · rfl
    · rename_i hne hz
      simp only [hne, hz, if_false] at h
      exact inner_pool si fuel _ _ _ _ _ h

/-! ## A buffer of no bytes -/

theorem place_list_invariant
    (body : Nat → Entry → Search × List Event → Search × List Event) (k : Nat)
    (I R : Search × List Event → Prop) (V0 : List Entry)
    (hend : ∀ t, I t → t.1.halt = none → R t)
    (hbody : ∀ curr v t, v ∈ V0 → I t → t.1.halt = none →
      (∀ x, (body curr v t).1.halt = some x → R (body curr v t)) ∧
        ((body curr v t).1.halt = none → I (body curr v t))) :
    ∀ (g curr : Nat) (V : List Entry) (t : Search × List Event),
      (∀ v ∈ V, v ∈ V0) → I t → t.1.halt = none →
      ((V.length ≤ g ∧ 1 ≤ k) ∨
        (∀ t : Search × List Event, I t → R ({ t.1 with halt := some Halt.out_of_fuel }, t.2))) →
      R (place_list body k g curr V t) := by
  intro g
  induction g with
  | zero =>
    intro curr V t hV hI hh hf
    cases V with
    | nil => rw [place_list_nil]; exact hend t hI hh
    | cons v V =>
      rcases hf with hf | hf
      · simp at hf
      · exact hf t hI
  | succ g ih =>
    intro curr V t hV hI hh hf
    cases V with
    | nil => rw [place_list_nil]; exact hend t hI hh
    | cons v V =>
      obtain ⟨h1, h2⟩ := hbody curr v t (hV v (by simp)) hI hh
      rw [place_list]
      cases hh1 : (body curr v t).1.halt with
      | some x => exact h1 x hh1
      | none =>
        simp only
        apply ih _ _ _ (fun b hb => hV b (List.mem_of_mem_drop hb)) (h2 hh1) hh1
        rcases hf with hf | hf
        · left
          refine ⟨?_, hf.2⟩
          have := hf.1
          simp only [List.length_drop, List.length_cons] at this ⊢
          omega
        · exact Or.inr hf

theorem place_entry_cases (M : Search × List Event → Prop) (si : sentence_info) (f w : Nat)
    (S : List Entry) (depth : Nat) (br : List Nat) (curr : Nat) (a : Entry)
    (t : Search × List Event) (hh : t.1.halt = none)
    (hA : M ({ t.1 with pool := pool_subtract t.1.pool a.2,
                        halt := some Halt.out_of_bounds },
      t.2 ++ [Event.expand depth curr a.2 (pool_can_spell t.1.pool a.2)]))
    (hB : ∀ buf1 : List Char, pool_is_empty (pool_subtract t.1.pool a.2) = true →
      M ({ t.1 with pool := pool_add (pool_subtract t.1.pool a.2) a.2, sentence := buf1,
                    emitted := t.1.emitted ++ [cstr buf1] },
        t.2 ++ [Event.expand depth curr a.2 (pool_can_spell t.1.pool a.2),
          Event.emit (br ++ [a.1])]))
    (hC : ∀ (buf1 : List Char) (n : Nat),
      pool_is_empty (pool_subtract t.1.pool a.2) = false →
      ∀ r, r = sentence_build_inner_traced si f
          ({ t.1 with pool := pool_subtract t.1.pool a.2, sentence := buf1 },
            t.2 ++ [Event.expand depth curr a.2 (pool_can_spell t.1.pool a.2),
              Event.call ((phrase_array S []).map (Option.map Prod.snd)) S.length
                (depth + 1)])
          (some (n + 1)) (some (phrase_array S [])) S.length (depth + 1) (br ++ [a.1]) →
        (∀ x, r.1.halt = some x → M r) ∧
          (r.1.halt = none → M ({ r.1 with pool := pool_add r.1.pool a.2 }, r.2))) :
    M (place_entry si f w S depth br curr a t) := by
  unfold place_entry place_phrase_traced
  rcases hcp : copy_phrase t.1.sentence w a.2 with _ | ⟨buf, n⟩
  · exact hA
  · simp only
    by_cases he : pool_is_empty (pool_subtract t.1.pool a.2) = true
    · simp only [he, if_true]
      cases hm : mem_write buf n NUL with
      | none => exact hA
      | some buf1 =>
        have hb := hB buf1 he
        simp only [hh] at hb ⊢
        exact hb
    · have he2 : pool_is_empty (pool_subtract t.1.pool a.2) = false := by simpa using he
      simp only [he2, Bool.false_eq_true, if_false]
      cases hm : mem_write buf n ' ' with
      | none => exact hA
      | some buf1 =>
        simp only [phrase_array_take]
        obtain ⟨h1, h2⟩ := hC buf1 n he2 _ rfl
        generalize sentence_build_inner_traced si f _ _ _ _ _ _ = r at h1 h2 ⊢
        cases hr : r.1.halt with
        | some x => exact h1 x hr
        | none =>
          have hc := h2 hr
          simp only [hr] at hc ⊢
          exact hc

theorem place_entry_fst (si : sentence_info) (f w : Nat) (S : List Entry) (depth : Nat)
    (br : List Nat) (curr : Nat) (a : Entry) (t : Search × List Event) :
    (place_entry si f w S depth br curr a t).1 =
      place_phrase (fun s w ps c d => sentence_build_inner si f s w (some ps) c d) w
        ((phrase_array S []).map (Option.map Prod.snd)) S.length depth a.2 t.1 := by
  unfold place_entry
  exact place_phrase_traced_fst _ _
    (fun t w ps c d b => inner_traced_fst si f t w (some ps) c d b) _ _ _ _ _ _ _ _

theorem place_entry_pool (si : sentence_info) (f w : Nat) (S : List Entry) (depth : Nat)
    (br : List Nat) (curr : Nat) (a : Entry) (t : Search × List Event)
    (h : (place_entry si f w S depth br curr a t).1.halt = none) :
    (place_entry si f w S depth br curr a t).1.pool = t.1.pool := by
  rw [place_entry_fst] at h ⊢
  exact place_phrase_pool _ (fun s w ps c d hh => inner_pool si f s w (some ps) c d hh)
    _ _ _ _ _ _ h

theorem visited_mem_survivors (si : sentence_info) (depth : Nat) (L S : List Entry)
    (h : depth = 0 → si.offset = 0 ∨ S ≠ []) : ∀ b ∈ visited si depth L S, b ∈ S := by
  intro b hb
  unfold visited at hb
  by_cases hd : depth = 0
  · simp only [hd, if_true] at hb
    by_cases ho : si.offset = 0
    · simpa [ho] using hb
    · simp only [ho, if_false] at hb
      rcases h hd with h1 | h1
      · exact absurd h1 ho
      · simp only [h1, if_false] at hb
        exact List.mem_of_mem_drop hb
  · simpa [hd] using hb

theorem visited_mem_or (si : sentence_info) (depth : Nat) (L S : List Entry)
    (hS : ∀ b ∈ S, b ∈ L) : ∀ b ∈ visited si depth L S, (b ∈ S ∨ S = []) ∧ b ∈ L := by
  intro b hb
  refine ⟨?_, visited_subset si depth L S hS b hb⟩
  by_cases h : S = []
  · exact Or.inr h
  · exact Or.inl (visited_mem_survivors si depth L S (fun _ => Or.inr h) b hb)

theorem visited_length_le (si : sentence_info) (depth : Nat) (L S : List Entry)
    (h : S.length ≤ L.length) : (visited si depth L S).length ≤ L.length := by
  unfold visited
  split
  · split
    · exact h
    · split
      · simp
      · simp only [List.length_drop]; omega
  · exact h

theorem survivors_length_le (si : sentence_info) (st : Search) (L : List Entry) :
    (survivors si st L).length ≤ L.length := List.length_filter_le _ _

theorem survivors_can_spell (si : sentence_info) (st : Search) (L : List Entry) (b : Entry)
    (h : b ∈ survivors si st L) : pool_can_spell st.pool b.2 = true := by
  have := (List.mem_filter.1 h).2
  unfold keep_phrase at this
  simp only [Bool.and_eq_true] at this
  exact this.1

/-! ## Termination -/

theorem inner_ends (si : sentence_info) (hstep : 1 ≤ si.step) :
    ∀ (f : Nat) (t : Search × List Event) (wp : Option Nat) (L : List Entry)
      (tail : List (Option Entry)) (depth : Nat) (br : List Nat),
      t.1.halt = none → (∀ b ∈ L, 0 < letter_total b.2) →
      pool_count_all t.1.pool + L.length + 1 ≤ f →
      (sentence_build_inner_traced si f t wp (some (phrase_array L tail)) L.length depth
        br).1.halt ≠ some Halt.out_of_fuel := by
  intro f
  induction f with
  | zero =>
    intro t wp L tail depth br _ _ hf
    omega
  | succ f ihf =>
    intro t wp L tail depth br hh hlet hf
    by_cases hnil : L = []
    · subst hnil
      rw [sentence_build_inner_traced]
      simp [hh]
    · rw [inner_unfold si f t wp L tail depth br hnil]
      have hLpos : 0 < L.length := List.length_pos.2 hnil
      apply place_list_invariant _ _ (fun t1 => t1.1.pool = t.1.pool)
        (fun t1 => t1.1.halt ≠ some Halt.out_of_fuel)
        (visited si depth L (survivors si t.1 L))
      · intro t1 _ h1
        rw [h1]
        simp
      · intro curr v t1 hv hI h1
        refine ⟨?_, fun h2 => (place_entry_pool _ _ _ _ _ _ _ _ _ h2).trans hI⟩
        intro x
        apply place_entry_cases (fun r => r.1.halt = some x → r.1.halt ≠ some Halt.out_of_fuel)
          si f _ _ depth br curr v t1 h1
        · intro _
          simp
        · intro buf1 _ hx
          simp only [h1] at hx
          cases hx
        · intro buf1 n he r hr
          obtain ⟨hvS, hvL⟩ := visited_mem_or si depth L _ (survivors_subset si t.1 L) v hv
          have hne : r.1.halt ≠ some Halt.out_of_fuel := by
            rw [hr]
            refine ihf _ _ _ _ _ _ h1 ?_ ?_
            · intro b hb
              exact hlet b (survivors_subset si t.1 L b hb)
            · simp only
              rw [hI]
              rcases hvS with hvS | hvS
              · have h3 := pool_count_all_subtract_lt t.1.pool v.2
                  (survivors_can_spell si t.1 L v hvS) (hlet v hvL)
                have h4 := survivors_length_le si t.1 L
                omega
              · rw [hvS]
                have h3 := pool_count_all_subtract_le t.1.pool v.2
                simp only [List.length_nil]
                omega
          refine ⟨fun _ _ _ => hne, ?_⟩
          intro h2 hx
          simp only [h2] at hx
          cases hx
      · intro v hv
        exact hv
      · rfl
      · exact hh
      · left
        refine ⟨?_, ?_⟩
        · have := visited_length_le si depth L _ (survivors_length_le si t.1 L)
          omega
        · by_cases hd : depth = 0
          · simp [hd, hstep]
          · simp [hd]

theorem sentence_build_traced_ends (zn : Bool) (si : sentence_info) (hstep : 1 ≤ si.step)
    (hlet : ∀ p ∈ si.phrase_list, 0 < letter_total p) (fuel : Nat)
    (hf : pool_count_all si.pool + si.phrase_list.length + 1 ≤ fuel) :
    (sentence_build_traced zn fuel si).1.halt ≠ some Halt.out_of_fuel := by
  rcases sentence_build_traced_cases zn fuel si with h | h
  · rw [h]
    simp
  · rw [h]
    apply inner_ends si hstep
    · rfl
    · intro b hb
      exact hlet _ (entries_snd_mem _ b hb)
    · rw [entries_length]
      exact hf

theorem sentence_build_ends (zn : Bool) (si : sentence_info) (hstep : 1 ≤ si.step)
    (hlet : ∀ p ∈ si.phrase_list, 0 < letter_total p) (fuel : Nat)
    (hf : pool_count_all si.pool + si.phrase_list.length + 1 ≤ fuel) :
    (sentence_build zn fuel si).halt ≠ some Halt.out_of_fuel := by
  rw [← sentence_build_traced_fst]
  exact sentence_build_traced_ends zn si hstep hlet fuel hf

/-! ## Every placed phrase can be spelled, when the skip loop stays within the list -/

theorem inner_spellable (si : sentence_info) :
    ∀ (f : Nat) (t : Search × List Event) (wp : Option Nat) (L : List Entry)
      (tail : List (Option Entry)) (depth : Nat) (br : List Nat),
      t.1.halt = none → (depth = 0 → si.offset = 0 ∨ survivors si t.1 L ≠ []) →
      (∀ d c p ok, Event.expand d c p ok ∈ t.2 → ok = true) →
      ∀ d c p ok, Event.expand d c p ok ∈
        (sentence_build_inner_traced si f t wp (some (phrase_array L tail)) L.length depth
          br).2 → ok = true := by
  intro f
  induction f with
  | zero =>
    intro t wp L tail depth br _ _ hlog
    rw [sentence_build_inner_traced]
    exact hlog
  | succ f ihf =>
    intro t wp L tail depth br hh hns hlog
    by_cases hnil : L = []
    · subst hnil
      rw [sentence_build_inner_traced]
      simpa using hlog
    · rw [inner_unfold si f t wp L tail depth br hnil]
      apply place_list_invariant _ _
        (fun t1 => t1.1.pool = t.1.pool ∧ ∀ d c p ok, Event.expand d c p ok ∈ t1.2 → ok = true)
        (fun t1 => ∀ d c p ok, Event.expand d c p ok ∈ t1.2 → ok = true)
        (visited si depth L (survivors si t.1 L))
      · intro t1 hI _
        exact hI.2
      · intro curr v t1 hv hI h1
        have hvS := visited_mem_survivors si depth L _ hns v hv
        have hsp : pool_can_spell t1.1.pool v.2 = true := by
          rw [hI.1]
          exact survivors_can_spell si t.1 L v hvS
        have hM : ∀ d c p ok, Event.expand d c p ok ∈
            (place_entry si f (wp.getD 0) (survivors si t.1 L) depth br curr v t1).2 →
            ok = true := by
          apply place_entry_cases
            (fun r => ∀ d c p ok, Event.expand d c p ok ∈ r.2 → ok = true)
            si f _ _ depth br curr v t1 h1
          · intro d c p ok hm
            simp only [List.mem_append, List.mem_singleton] at hm
            rcases hm with hm | hm
            · exact hI.2 d c p ok hm
            · injection hm with _ _ _ e
              rw [e, hsp]
          · intro buf1 _ d c p ok hm
            simp only [List.mem_append, List.mem_cons, List.mem_singleton] at hm
            rcases hm with hm | hm | hm | hm
            · exact hI.2 d c p ok hm
            · injection hm with _ _ _ e
              rw [e, hsp]
            · cases hm
            · cases hm
          · intro buf1 n he r hr
            have hr2 : ∀ d c p ok, Event.expand d c p ok ∈ r.2 → ok = true := by
              rw [hr]
              refine ihf _ _ _ _ _ _ h1 (fun h0 => by omega) ?_
              intro d c p ok hm
              simp only [List.mem_append, List.mem_cons, List.mem_singleton] at hm
              rcases hm with hm | hm | hm | hm
              · exact hI.2 d c p ok hm
              · injection hm with _ _ _ e
                rw [e, hsp]
              · cases hm
              · cases hm
            exact ⟨fun _ _ => hr2, fun _ => hr2⟩
        exact ⟨fun _ _ => hM, fun h2 => ⟨(place_entry_pool _ _ _ _ _ _ _ _ _ h2).trans hI.1, hM⟩⟩
      · intro v hv
        exact hv
      · exact ⟨rfl, hlog⟩
      · exact hh
      · right
        intro t1 hI
        exact hI.2

theorem survivors_ne_nil (si : sentence_info) (p : List Char) (hp : p ∈ si.phrase_list)
    (hk : keep_phrase si (start si) p = true) :
    survivors si (start si) (entries si.phrase_list) ≠ [] := by
  obtain ⟨b, hb, e⟩ := entries_from_exists 0 si.phrase_list p hp
  intro hnil
  have : b ∈ survivors si (start si) (entries si.phrase_list) :=
    List.mem_filter.2 ⟨hb, by rw [e]; exact hk⟩
  rw [hnil] at this
  cases this

theorem sentence_build_traced_spellable (zn : Bool) (fuel : Nat) (si : sentence_info)
    (h : si.offset = 0 ∨ ∃ p ∈ si.phrase_list, keep_phrase si (start si) p = true) :
    ∀ d c p ok, Event.expand d c p ok ∈ (sentence_build_traced zn fuel si).2 → ok = true := by
  rcases sentence_build_traced_cases zn fuel si with e | e
  · rw [e]
    intro d c p ok hm
    cases hm
  · rw [e]
    apply inner_spellable si fuel _ _ _ _ _ _ rfl
    · intro _
      rcases h with h | ⟨p, hp, hk⟩
      · exact Or.inl h
      · exact Or.inr (survivors_ne_nil si p hp hk)
    · intro d c p ok hm
      cases hm

/-! ## The depth of the recursion -/

theorem inner_depth (si : sentence_info) (B : Nat) :
    ∀ (f : Nat) (t : Search × List Event) (wp : Option Nat) (L : List Entry)
      (tail : List (Option Entry)) (depth : Nat) (br : List Nat),
      t.1.halt = none → (depth = 0 → si.offset = 0 ∨ survivors si t.1 L ≠ []) →
      (∀ b ∈ L, 0 < letter_total b.2) → depth + pool_count_all t.1.pool ≤ B →
      (∀ ps c d, Event.call ps c d ∈ t.2 → d < B) →
      ∀ ps c d, Event.call ps c d ∈
        (sentence_build_inner_traced si f t wp (some (phrase_array L tail)) L.length depth
          br).2 → d < B := by
  intro f
  induction f with
  | zero =>
    intro t wp L tail depth br _ _ _ _ hlog
    rw [sentence_build_inner_traced]
    exact hlog
  | succ f ihf =>
    intro t wp L tail depth br hh hns hlet hB hlog
    by_cases hnil : L = []
    · subst hnil
      rw [sentence_build_inner_traced]
      simpa using hlog
    · rw [inner_unfold si f t wp L tail depth br hnil]
      apply place_list_invariant _ _
        (fun t1 => t1.1.pool = t.1.pool ∧ ∀ ps c d, Event.call ps c d ∈ t1.2 → d < B)
        (fun t1 => ∀ ps c d, Event.call ps c d ∈ t1.2 → d < B)
        (visited si depth L (survivors si t.1 L))
      · intro t1 hI _
        exact hI.2
      · intro curr v t1 hv hI h1
        have hvS := visited_mem_survivors si depth L _ hns v hv
        have hsp : pool_can_spell t1.1.pool v.2 = true := by
          rw [hI.1]
          exact survivors_can_spell si t.1 L v hvS
        have hM : ∀ ps c d, Event.call ps c d ∈
            (place_entry si f (wp.getD 0) (survivors si t.1 L) depth br curr v t1).2 →
            d < B := by
          apply place_entry_cases
            (fun r => ∀ ps c d, Event.call ps c d ∈ r.2 → d < B)
            si f _ _ depth br curr v t1 h1
          · intro ps c d hm
            simp only [List.mem_append, List.mem_singleton] at hm
            rcases hm with hm | hm
            · exact hI.2 ps c d hm
            · cases hm
          · intro buf1 _ ps c d hm
            simp only [List.mem_append, List.mem_cons, List.mem_singleton] at hm
            rcases hm with hm | hm | hm | hm
            · exact hI.2 ps c d hm
            · cases hm
            · cases hm
            · cases hm
          · intro buf1 n he r hr
            have hlt := pool_count_all_subtract_lt t1.1.pool v.2 hsp
              (hlet v (survivors_subset si t.1 L v hvS))
            have hpos := pool_count_all_pos _ (pool_subtract_nonneg t1.1.pool v.2 hsp) he
            rw [hI.1] at hlt hpos
            have hr2 : ∀ ps c d, Event.call ps c d ∈ r.2 → d < B := by
              rw [hr]
              refine ihf _ _ _ _ _ _ h1 (fun h0 => by omega) ?_ ?_ ?_
              · intro b hb
                exact hlet b (survivors_subset si t.1 L b hb)
              · simp only
                rw [hI.1]
                omega
              · intro ps c d hm
                simp only [List.mem_append, List.mem_cons, List.mem_singleton] at hm
                rcases hm with hm | hm | hm | hm
                · exact hI.2 ps c d hm
                · cases hm
                · simp only [Event.call.injEq] at hm
                  omega
                · cases hm
            exact ⟨fun _ _ => hr2, fun _ => hr2⟩
        exact ⟨fun _ _ => hM, fun h2 => ⟨(place_entry_pool _ _ _ _ _ _ _ _ _ h2).trans hI.1, hM⟩⟩
      · intro v hv
        exact hv
      · exact ⟨rfl, hlog⟩
      · exact hh
      · right
        intro t1 hI
        exact hI.2

theorem sentence_build_traced_depth (zn : Bool) (fuel : Nat) (si : sentence_info)
    (hlet : ∀ p ∈ si.phrase_list, 0 < letter_total p)
    (h : si.offset = 0 ∨ ∃ p ∈ si.phrase_list, keep_phrase si (start si) p = true) :
    ∀ ps c d, Event.call ps c d ∈ (sentence_build_traced zn fuel si).2 →
      d < pool_count_all si.pool := by
  rcases sentence_build_traced_cases zn fuel si with e | e
  · rw [e]
    intro ps c d hm
    cases hm
  · rw [e]
    apply inner_depth si _ fuel _ _ _ _ _ _ rfl
    · intro _
      rcases h with h | ⟨p, hp, hk⟩
      · exact Or.inl h
      · exact Or.inr (survivors_ne_nil si p hp hk)
    · intro b hb
      exact hlet _ (entries_snd_mem _ b hb)
    · simp [start]
    · intro ps c d hm
      cases hm

/-! ## Completeness -/

theorem isSome_eq_sum (c : Char) :
    (if (pool_index c).isSome = true then 1 else 0) =
      ∑ i : Fin POOL_SIZE, (if pool_index c = some i then 1 else 0) := by
  cases hi : pool_index c with
  | none =>
    simp only [Option.isSome_none, Bool.false_eq_true, if_false]
    symm
    apply Finset.sum_eq_zero
    intro i _
    simp
  | some j =>
    simp only [Option.isSome_some, if_true]
    rw [Finset.sum_eq_single j]
    · simp
    · intro b _ hb
      have : ¬ (j = b) := fun e => hb e.symm
      simp [this]
    · intro h
      exact absurd (Finset.mem_univ j) h

theorem countP_isSome_eq_sum (l : List Char) :
    l.countP (fun c => (pool_index c).isSome) =
      ∑ i : Fin POOL_SIZE, l.countP (fun c => pool_index c == some i) := by
  induction l with
  | nil => simp only [List.countP_nil, Finset.sum_const_zero]
  | cons c l ih =>
    have h1 : ∀ i : Fin POOL_SIZE, (c :: l).countP (fun c => pool_index c == some i) =
        l.countP (fun c => pool_index c == some i) +
          (if pool_index c = some i then 1 else 0) := by
      intro i
      rw [List.countP_cons]
      simp only [beq_iff_eq]
    rw [Finset.sum_congr rfl (fun i _ => h1 i), Finset.sum_add_distrib, ← ih,
      List.countP_cons, isSome_eq_sum]

theorem letter_total_eq_sum (text : List Char) :
    letter_total text = ∑ i : Fin POOL_SIZE, letter_count text i :=
  countP_isSome_eq_sum (cstr text)

theorem pool_count_all_subtract_add (pool : Pool) (text : List Char)
    (h : pool_can_spell pool text = true) :
    pool_count_all (pool_subtract pool text) + letter_total text = pool_count_all pool := by
  rw [pool_count_all_eq, pool_count_all_eq, letter_total_eq_sum, ← Finset.sum_add_distrib]
  apply Finset.sum_congr rfl
  intro i _
  have := (pool_can_spell_iff pool text).1 h i
  rw [pool_subtract_apply]
  omega

theorem letters_zero_nil (ws : List (List Char)) (hl : ∀ w ∈ ws, 0 < letter_total w)
    (hz : ∀ i, letters ws i = 0) : ws = [] := by
  cases ws with
  | nil => rfl
  | cons w ws =>
    exfalso
    obtain ⟨i, hi⟩ := (letter_total_pos_iff w).1 (hl w (by simp))
    have := hz i
    rw [letters_cons] at this
    omega

theorem reached_one_of_mem (V : List Entry) (a : Entry) (h : a ∈ V) : Reached 1 V a := by
  induction V with
  | nil => cases h
  | cons v V ih =>
    rcases List.mem_cons.1 h with e | e
    · subst e; exact Reached.here _ _
    · exact Reached.next _ _ _ (by simpa using ih e)

theorem keep_phrase_of_check_none (si : sentence_info) (hc : si.check_cb = none)
    (st : Search) (p : List Char) : keep_phrase si st p = pool_can_spell st.pool p := by
  simp [keep_phrase, hc]

theorem inner_outcome_child (si : sentence_info) (f : Nat) (S : List Entry)
    (hS : S.Pairwise (fun x y => x.1 < y.1)) (depth : Nat) :
    ∀ (t2 : Search × List Event) (pre2 rest2 : List Char) (br2 : List Nat),
      t2.1.halt = none → t2.1.sentence = pre2 ++ rest2 → NUL ∉ pre2 →
      ∃ D, Outcome pre2 t2.1.pool S S True br2 t2
        (sentence_build_inner_traced si f t2 (some pre2.length) (some (phrase_array S []))
          S.length (depth + 1) br2) D := by
  intro t2 pre2 rest2 br2 h1 h2 h3
  obtain ⟨D, hD⟩ := inner_outcome si f t2 (some pre2.length) S [] (depth + 1) br2 pre2
    rest2 h1 h2 rfl h3 hS
  exact ⟨D,
    { emitted_eq := hD.emitted_eq
      branches_eq := hD.branches_eq
      heads_mem := hD.heads_mem
      cands_mem := hD.cands_mem
      letters_eq := hD.letters_eq
      ordered := fun _ => hD.ordered (by simp)
      max_length_eq := hD.max_length_eq
      length_eq := hD.length_eq
      restored := hD.restored }⟩

theorem fits_letter_total (p : List Char) (h : (cstr p).length + 1 ≤ 2 * letter_total p) :
    0 < letter_total p := by omega

theorem place_entry_complete (si : sentence_info) (hc : si.check_cb = none) (f w : Nat)
    (S : List Entry) (depth : Nat) (br : List Nat) (curr : Nat) (v : Entry)
    (t : Search × List Event) (pre rest : List Char) (P : Pool)
    (ihC : ∀ (t2 : Search × List Event) (pre2 rest2 : List Char) (br2 : List Nat),
      t2.1.halt = none → t2.1.sentence = pre2 ++ rest2 → NUL ∉ pre2 →
      2 * pool_count_all t2.1.pool ≤ rest2.length →
      pool_count_all t2.1.pool + S.length + 1 ≤ f →
      Complete pre2 t2.1.pool S (survivors si t2.1 S) 1
        (sentence_build_inner_traced si f t2 (some pre2.length) (some (phrase_array S []))
          S.length (depth + 1) br2))
    (hh : t.1.halt = none) (hP : t.1.pool = P) (hs : t.1.sentence = pre ++ rest)
    (hw : pre.length = w) (hn : NUL ∉ pre) (hbuf : 2 * pool_count_all P ≤ rest.length)
    (hSl : ∀ b ∈ S, (cstr b.2).length + 1 ≤ 2 * letter_total b.2) (hv : v ∈ S)
    (hvP : pool_can_spell P v.2 = true) (hf : pool_count_all P + S.length ≤ f) :
    (place_entry si f w S depth br curr v t).1.halt = none ∧
      ∀ (ws : List (List Char)), (∀ w ∈ ws, ∃ b ∈ S, b.2 = w) →
        (∀ i, (letters (v.2 :: ws) i : Int) = P i) →
        pre ++ sentence_text (v.2 :: ws) ∈
          (place_entry si f w S depth br curr v t).1.emitted := by
  subst hP
  have hle := (pool_can_spell_iff _ _).1 hvP
  have hadd := pool_count_all_subtract_add t.1.pool v.2 hvP
  have hvfit := hSl v hv
  unfold place_entry place_phrase_traced
  rw [hs, ← hw]
  have hfit : (cstr v.2).length ≤ rest.length := by omega
  rw [copy_phrase_at v.2 pre rest hfit]
  simp only
  have e1 : pre.length + (cstr v.2).length = (pre ++ cstr v.2).length := by simp
  have hn2 : NUL ∉ pre ++ cstr v.2 := by
    simp only [List.mem_append, not_or]
    exact ⟨hn, NUL_not_mem_cstr _⟩
  rw [e1]
  cases hrd : rest.drop (cstr v.2).length with
  | nil =>
    exfalso
    have hl := congrArg List.length hrd
    simp only [List.length_drop, List.length_nil] at hl
    omega
  | cons r rest1 =>
    have hl1 := congrArg List.length hrd
    simp only [List.length_drop, List.length_cons] at hl1
    simp only [mem_write_at]
    by_cases he : pool_is_empty (pool_subtract t.1.pool v.2) = true
    · simp only [he, if_true, hh]
      refine ⟨trivial, ?_⟩
      intro ws hws hlet
      have hz := (pool_subtract_empty_iff _ _).1 he
      have : ws = [] := by
        apply letters_zero_nil ws
        · intro w hw
          obtain ⟨b, hb, e⟩ := hws w hw
          exact e ▸ fits_letter_total _ (hSl b hb)
        · intro i
          have h1 := hlet i
          have h2 := hz i
          rw [letters_cons] at h1
          omega
      subst this
      have hc2 := cstr_append_NUL (pre ++ cstr v.2) rest1 hn2
      simp only [sentence_text, List.mem_append, List.mem_singleton]
      right
      rw [hc2]
    · have he2 : pool_is_empty (pool_subtract t.1.pool v.2) = false := by simpa using he
      simp only [he2, Bool.false_eq_true, if_false]
      have hn3 : NUL ∉ pre ++ cstr v.2 ++ [' '] := by
        simp only [List.mem_append, List.mem_singleton, not_or]
        exact ⟨⟨hn, NUL_not_mem_cstr _⟩, by decide⟩
      have e2 : (pre ++ cstr v.2).length + 1 = (pre ++ cstr v.2 ++ [' ']).length := by
        simp [Nat.add_assoc]
      rw [e2, phrase_array_take]
      have hC := ihC
        ({ t.1 with pool := pool_subtract t.1.pool v.2,
                    sentence := pre ++ cstr v.2 ++ ' ' :: rest1 },
          t.2 ++ [Event.expand depth curr v.2 (pool_can_spell t.1.pool v.2),
            Event.call ((phrase_array S []).map (Option.map Prod.snd)) S.length (depth + 1)])
        (pre ++ cstr v.2 ++ [' ']) rest1 (br ++ [v.1]) hh (by simp) hn3
        (by simp only; omega) (by simp only; omega)
      generalize sentence_build_inner_traced si f _ _ _ _ _ _ = t1 at hC ⊢
      simp only at hC
      obtain ⟨hh1, hmem⟩ := hC
      simp only [hh1]
      refine ⟨trivial, ?_⟩
      intro ws hws hlet
      cases ws with
      | nil =>
        exfalso
        have : pool_is_empty (pool_subtract t.1.pool v.2) = true := by
          rw [pool_subtract_empty_iff]
          intro i
          have h1 := hlet i
          rw [letters_cons] at h1
          simp only [letters, List.map_nil, List.sum_nil] at h1
          omega
        rw [this] at he2
        cases he2
      | cons w1 ws1 =>
        obtain ⟨b, hb, eb⟩ := hws w1 (by simp)
        have hlet2 : ∀ i, (letters (b.2 :: ws1) i : Int) = pool_subtract t.1.pool v.2 i := by
          intro i
          have h1 := hlet i
          rw [letters_cons] at h1
          rw [pool_subtract_apply, eb]
          omega
        have hb2 : b ∈ survivors si
            { t.1 with pool := pool_subtract t.1.pool v.2,
                       sentence := pre ++ cstr v.2 ++ ' ' :: rest1 } S := by
          unfold survivors
          rw [List.mem_filter]
          refine ⟨hb, ?_⟩
          rw [keep_phrase_of_check_none si hc, pool_can_spell_iff]
          intro i
          have h5 := letter_count_le_letters (b.2 :: ws1) b.2 (by simp) i
          have h6 := hlet2 i
          simp only
          omega
        have := hmem b ws1 (reached_one_of_mem _ _ hb2)
          (fun w hw => hws w (List.mem_cons_of_mem _ hw)) hlet2
        rw [eb] at this
        rw [sentence_text_cons v.2 (w1 :: ws1) (by simp)]
        simpa using this

theorem place_list_complete (si : sentence_info) (hc : si.check_cb = none) (f w : Nat)
    (S : List Entry) (depth : Nat) (br : List Nat) (pre : List Char) (P : Pool) (k : Nat)
    (hk : 1 ≤ k) (M : Nat)
    (ihC : ∀ (t2 : Search × List Event) (pre2 rest2 : List Char) (br2 : List Nat),
      t2.1.halt = none → t2.1.sentence = pre2 ++ rest2 → NUL ∉ pre2 →
      2 * pool_count_all t2.1.pool ≤ rest2.length →
      pool_count_all t2.1.pool + S.length + 1 ≤ f →
      Complete pre2 t2.1.pool S (survivors si t2.1 S) 1
        (sentence_build_inner_traced si f t2 (some pre2.length) (some (phrase_array S []))
          S.length (depth + 1) br2))
    (hw : pre.length = w) (hn : NUL ∉ pre) (hbuf : pre.length + 2 * pool_count_all P ≤ M)
    (hSl : ∀ b ∈ S, (cstr b.2).length + 1 ≤ 2 * letter_total b.2)
    (hSP : ∀ b ∈ S, pool_can_spell P b.2 = true)
    (hSs : S.Pairwise (fun x y => x.1 < y.1))
    (hf : pool_count_all P + S.length ≤ f) :
    ∀ (g curr : Nat) (V : List Entry) (t : Search × List Event), V.length ≤ g →
      t.1.halt = none → t.1.pool = P → t.1.sentence.length = M →
      (∃ rest, t.1.sentence = pre ++ rest) → (∀ a ∈ V, a ∈ S) →
      V.Pairwise (fun x y => x.1 < y.1) →
      Complete pre P S V k (place_list (place_entry si f w S depth br) k g curr V t) := by
  intro g
  induction g with
  | zero =>
    intro curr V t hlen hh _ _ _ _ _
    have : V = [] := List.length_eq_zero.1 (by omega)
    subst this
    rw [place_list_nil]
    exact ⟨hh, fun a ws hr => by cases hr⟩
  | succ g ihg =>
    intro curr V t hlen hh hP hM hs hV hVs
    obtain ⟨rest, hs⟩ := hs
    cases V with
    | nil =>
      rw [place_list_nil]
      exact ⟨hh, fun a ws hr => by cases hr⟩
    | cons v V =>
      have hvS := hV v (by simp)
      have hrest : 2 * pool_count_all P ≤ rest.length := by
        have := congrArg List.length hs
        simp only [List.length_append] at this
        omega
      obtain ⟨hh1, hmem1⟩ := place_entry_complete si hc f w S depth br curr v t pre rest P ihC
        hh hP hs hw hn hrest hSl hvS (hSP v hvS) hf
      obtain ⟨D1, h1⟩ := place_entry_outcome si f w S depth br curr v t pre rest P S True
        (inner_outcome_child si f S hSs depth) hh hP hs hw hn (fun b hb => hb) hvS
      obtain ⟨hp1, hs1⟩ := h1.restored hh1
      have hM1 := h1.length_eq.trans hM
      have hV2 : ∀ b ∈ (v :: V).drop k, b ∈ S := fun b hb => hV b (List.mem_of_mem_drop hb)
      have hVs2 : ((v :: V).drop k).Pairwise (fun x y => x.1 < y.1) :=
        hVs.sublist (List.drop_sublist _ _)
      have hlen2 : ((v :: V).drop k).length ≤ g := by
        simp only [List.length_drop, List.length_cons] at hlen ⊢
        omega
      have IH := ihg (curr + k) ((v :: V).drop k) _ hlen2 hh1 hp1 hM1 hs1 hV2 hVs2
      obtain ⟨D2, h2⟩ := place_list_outcome si f w S depth br pre P S k True
        (inner_outcome_child si f S hSs depth) hw hn (fun b hb => hb) (fun _ => hk) g
        (curr + k) ((v :: V).drop k) _ hh1 hp1 hs1 hV2 hVs2
      rw [place_list]
      simp only [hh1]
      refine ⟨IH.1, ?_⟩
      intro a ws hr hws hlet
      cases hr with
      | here =>
        rw [h2.emitted_eq]
        exact List.mem_append_left _ (hmem1 ws hws hlet)
      | next _ _ _ hr2 => exact IH.2 a ws hr2 hws hlet

theorem inner_complete (si : sentence_info) (hc : si.check_cb = none) :
    ∀ (f : Nat) (t : Search × List Event) (wp : Option Nat) (L : List Entry)
      (tail : List (Option Entry)) (depth : Nat) (br : List Nat) (pre rest : List Char),
      t.1.halt = none → t.1.sentence = pre ++ rest → pre.length = wp.getD 0 → NUL ∉ pre →
      2 * pool_count_all t.1.pool ≤ rest.length →
      L.Pairwise (fun x y => x.1 < y.1) →
      (∀ b ∈ L, (cstr b.2).length + 1 ≤ 2 * letter_total b.2) →
      pool_count_all t.1.pool + L.length + 1 ≤ f →
      1 ≤ (if depth = 0 then si.step else 1) →
      (∀ a ∈ visited si depth L (survivors si t.1 L), a ∈ survivors si t.1 L) →
      Complete pre t.1.pool L (visited si depth L (survivors si t.1 L))
        (if depth = 0 then si.step else 1)
        (sentence_build_inner_traced si f t wp (some (phrase_array L tail)) L.length depth
          br) := by
  intro f
  induction f with
  | zero => intro t wp L tail depth br pre rest _ _ _ _ _ _ _ hf; omega
  | succ f ihf =>
    intro t wp L tail depth br pre rest hh hs hw hn hbuf hL hLl hf hk hV
    by_cases hnil : L = []
    · subst hnil
      rw [sentence_build_inner_traced]
      simp only [List.length_nil, if_true]
      refine ⟨hh, ?_⟩
      intro a ws hr
      have : visited si depth [] (survivors si t.1 []) = [] := by
        simp [visited, survivors]
      rw [this] at hr
      cases hr
    · rw [inner_unfold si f t wp L tail depth br hnil]
      have hSL := survivors_subset si t.1 L
      have hSs : (survivors si t.1 L).Pairwise (fun x y => x.1 < y.1) :=
        hL.sublist (List.filter_sublist _)
      have hSlen : (survivors si t.1 L).length ≤ L.length := List.length_filter_le _ _
      have hSP : ∀ b ∈ survivors si t.1 L, pool_can_spell t.1.pool b.2 = true :=
        fun b hb => survivors_can_spell si t.1 L b hb
      have ihC : ∀ (t2 : Search × List Event) (pre2 rest2 : List Char) (br2 : List Nat),
          t2.1.halt = none → t2.1.sentence = pre2 ++ rest2 → NUL ∉ pre2 →
          2 * pool_count_all t2.1.pool ≤ rest2.length →
          pool_count_all t2.1.pool + (survivors si t.1 L).length + 1 ≤ f →
          Complete pre2 t2.1.pool (survivors si t.1 L)
            (survivors si t2.1 (survivors si t.1 L)) 1
            (sentence_build_inner_traced si f t2 (some pre2.length)
              (some (phrase_array (survivors si t.1 L) [])) (survivors si t.1 L).length
              (depth + 1) br2) := by
        intro t2 pre2 rest2 br2 h1 h2 h3 h5 h4
        have := ihf t2 (some pre2.length) (survivors si t.1 L) [] (depth + 1) br2 pre2 rest2
          h1 h2 rfl h3 h5 hSs (fun b hb => hLl b (hSL b hb)) h4 (by simp)
          (by simp [visited])
        simpa [visited] using this
      have hC := place_list_complete si hc f (wp.getD 0) (survivors si t.1 L) depth br pre
        t.1.pool (if depth = 0 then si.step else 1) hk t.1.sentence.length ihC hw hn
        (by rw [hs, List.length_append]; omega)
        (fun b hb => hLl b (hSL b hb)) hSP hSs
        (by omega) f (if depth = 0 then si.offset else 0)
        (visited si depth L (survivors si t.1 L)) t
        (by have := visited_length_le si depth L _ hSlen; omega) hh rfl rfl ⟨rest, hs⟩ hV
        (visited_pairwise si depth L _ hL hSs)
      refine ⟨hC.1, ?_⟩
      intro a ws hr hws hlet
      apply hC.2 a ws hr _ hlet
      intro w hw2
      obtain ⟨b, hb, eb⟩ := hws w hw2
      refine ⟨b, ?_, eb⟩
      unfold survivors
      rw [List.mem_filter]
      refine ⟨hb, ?_⟩
      rw [keep_phrase_of_check_none si hc, pool_can_spell_iff]
      intro i
      have h1 := letter_count_le_letters (a.2 :: ws) w (List.mem_cons_of_mem _ hw2) i
      have h2 := hlet i
      rw [eb]
      omega

theorem sentence_build_traced_complete (zn : Bool) (fuel : Nat) (si : sentence_info)
    (hc : si.check_cb = none)
    (hfit : ∀ p ∈ si.phrase_list, (cstr p).length + 1 ≤ 2 * letter_total p)
    (hfuel : pool_count_all si.pool + si.phrase_list.length + 1 ≤ fuel)
    (hstep : 1 ≤ si.step)
    (hV : ∀ a ∈ visited si 0 (entries si.phrase_list)
        (survivors si (start si) (entries si.phrase_list)),
      a ∈ survivors si (start si) (entries si.phrase_list)) :
    Complete [] si.pool (entries si.phrase_list)
      (visited si 0 (entries si.phrase_list)
        (survivors si (start si) (entries si.phrase_list)))
      si.step (sentence_build_traced zn fuel si) := by
  have hnone : ∀ t : Search × List Event, t.1.halt = none →
      (si.phrase_list = [] ∨ pool_count_all si.pool = 0) →
      Complete [] si.pool (entries si.phrase_list)
        (visited si 0 (entries si.phrase_list)
          (survivors si (start si) (entries si.phrase_list))) si.step t := by
    intro t ht h0
    refine ⟨ht, ?_⟩
    intro a ws hr
    exfalso
    have hav : ∀ (k : Nat) (V : List Entry) (a : Entry), Reached k V a → a ∈ V := by
      intro k V a hr
      induction hr with
      | here v V => simp
      | next v V a _ ih => exact List.mem_of_mem_drop ih
    have haS := hV a (hav _ _ _ hr)
    have haL := survivors_subset _ _ _ a haS
    rcases h0 with h0 | h0
    · have := entries_snd_mem _ a haL
      rw [h0] at this
      cases this
    · have h1 := pool_count_all_subtract_add si.pool a.2 (survivors_can_spell _ _ _ a haS)
      have h2 := fits_letter_total _ (hfit _ (entries_snd_mem _ a haL))
      omega
  by_cases hne : si.phrase_list = []
  · rw [sentence_build_traced_nil zn fuel si hne]
    exact hnone _ rfl (Or.inl hne)
  · by_cases hz : 2 * pool_count_all si.pool = 0 ∧ zn = true
    · obtain ⟨h1, h2⟩ := hz
      subst h2
      rw [sentence_build_traced_null fuel si (by omega)]
      exact hnone _ rfl (Or.inr (by omega))
    · rw [sentence_build_traced_eq zn fuel si hne hz]
      have h0 : (start si, ([] : List Event)).1.halt = none := rfl
      have h1 : (start si, ([] : List Event)).1.sentence = [] ++ (start si).sentence :=
        (List.nil_append _).symm
      have h2 : ([] : List Char).length = (none : Option Nat).getD 0 := rfl
      have hl : ∀ b ∈ entries si.phrase_list, (cstr b.2).length + 1 ≤ 2 * letter_total b.2 :=
        fun b hb => hfit _ (entries_snd_mem _ b hb)
      have hf : pool_count_all (start si).pool + (entries si.phrase_list).length + 1 ≤ fuel := by
        rw [entries_length]
        exact hfuel
      have := inner_complete si hc fuel (start si, []) none (entries si.phrase_list) [] 0 []
        [] (start si).sentence h0 h1 h2 (by simp) (by simp [start])
        (entries_from_pairwise 0 _) hl hf (by simpa using hstep) hV
      simpa using this

theorem default_run_complete (zn : Bool) (fuel : Nat) (si : sentence_info)
    (hcheck : si.check_cb = none) (hstep : si.step = 1) (hoffset : si.offset = 0)
    (hfit : ∀ p ∈ si.phrase_list, (cstr p).length + 1 ≤ 2 * letter_total p)
    (hfuel : pool_count_all si.pool + si.phrase_list.length + 1 ≤ fuel)
    (w : List Char) (ws : List (List Char)) (hws : ∀ v ∈ w :: ws, v ∈ si.phrase_list)
    (hsum : ∀ i, (letters (w :: ws) i : Int) = si.pool i) :
    (sentence_build zn fuel si).halt = none ∧
      sentence_text (w :: ws) ∈ (sentence_build zn fuel si).emitted := by
  have hvis : visited si 0 (entries si.phrase_list)
      (survivors si (start si) (entries si.phrase_list)) =
      survivors si (start si) (entries si.phrase_list) := by
    simp [visited, hoffset]
  have hC := sentence_build_traced_complete zn fuel si hcheck hfit hfuel (by omega)
    (by rw [hvis]; exact fun a ha => ha)
  rw [hvis, hstep] at hC
  unfold Complete at hC
  rw [sentence_build_traced_fst] at hC
  refine ⟨hC.1, ?_⟩
  obtain ⟨b, hb, eb⟩ := entries_from_exists 0 si.phrase_list w (hws w (by simp))
  have hbS : b ∈ survivors si (start si) (entries si.phrase_list) := by
    unfold survivors
    rw [List.mem_filter]
    refine ⟨hb, ?_⟩
    rw [keep_phrase_of_check_none si hcheck, pool_can_spell_iff]
    intro i
    have h1 := letter_count_le_letters (w :: ws) w (by simp) i
    have h2 := hsum i
    rw [eb]
    show (letter_count w i : Int) ≤ si.pool i
    omega
  have := hC.2 b ws (reached_one_of_mem _ _ hbS)
    (fun v hv => by
      obtain ⟨c, hc1, hc2⟩ := entries_from_exists 0 si.phrase_list v
        (hws v (List.mem_cons_of_mem _ hv))
      exact ⟨c, hc1, hc2⟩)
    (by rw [eb]; exact hsum)
  rw [eb] at this
  simpa using this

theorem reached_of_index (k : Nat) :
    ∀ (m : Nat) (V : List Entry) (a : Entry), V[m * k]? = some a → Reached k V a := by
  intro m
  induction m with
  | zero =>
    intro V a h
    cases V with
    | nil => simp at h
    | cons v V =>
      simp at h
      subst h
      exact Reached.here _ _
  | succ m ih =>
    intro V a h
    cases V with
    | nil => simp at h
    | cons v V =>
      apply Reached.next
      apply ih
      rw [List.getElem?_drop]
      have : k + m * k = (m + 1) * k := by rw [Nat.succ_mul, Nat.add_comm]
      rw [this]
      exact h

theorem mem_survivors_of_letters (si : sentence_info) (hcheck : si.check_cb = none)
    (a : Entry) (ws : List (List Char)) (ha : a ∈ entries si.phrase_list)
    (hsum : ∀ i, (letters (a.2 :: ws) i : Int) = si.pool i) :
    a ∈ survivors si (start si) (entries si.phrase_list) := by
  unfold survivors
  rw [List.mem_filter]
  refine ⟨ha, ?_⟩
  rw [keep_phrase_of_check_none si hcheck, pool_can_spell_iff]
  intro i
  have h1 := letter_count_le_letters (a.2 :: ws) a.2 (by simp) i
  have h2 := hsum i
  show (letter_count a.2 i : Int) ≤ si.pool i
  omega

theorem shard_run_complete (zn : Bool) (fuel : Nat) (si : sentence_info)
    (hcheck : si.check_cb = none)
    (hfit : ∀ p ∈ si.phrase_list, (cstr p).length + 1 ≤ 2 * letter_total p)
    (hfuel : pool_count_all si.pool + si.phrase_list.length + 1 ≤ fuel)
    (hstep : 1 ≤ si.step) (a : Entry) (ws : List (List Char)) (m : Nat)
    (ht : (survivors si (start si) (entries si.phrase_list))[m]? = some a)
    (hoffset : si.offset = m % si.step)
    (hws : ∀ w ∈ ws, ∃ b ∈ entries si.phrase_list, b.2 = w)
    (hsum : ∀ i, (letters (a.2 :: ws) i : Int) = si.pool i) :
    (sentence_build zn fuel si).halt = none ∧
      sentence_text (a.2 :: ws) ∈ (sentence_build zn fuel si).emitted := by
  have haS : a ∈ survivors si (start si) (entries si.phrase_list) :=
    List.mem_iff_getElem?.2 ⟨m, ht⟩
  have hSne : survivors si (start si) (entries si.phrase_list) ≠ [] := List.ne_nil_of_mem haS
  have hv : visited si 0 (entries si.phrase_list)
      (survivors si (start si) (entries si.phrase_list)) =
      (survivors si (start si) (entries si.phrase_list)).drop si.offset := by
    unfold visited
    by_cases h0 : si.offset = 0
    · simp [h0]
    · simp [h0, hSne]
  have hC := sentence_build_traced_complete zn fuel si hcheck hfit hfuel hstep
    (by rw [hv]; exact fun b hb => List.mem_of_mem_drop hb)
  rw [hv] at hC
  unfold Complete at hC
  rw [sentence_build_traced_fst] at hC
  have hr : Reached si.step
      ((survivors si (start si) (entries si.phrase_list)).drop si.offset) a := by
    apply reached_of_index si.step (m / si.step)
    rw [List.getElem?_drop, hoffset]
    have : m % si.step + m / si.step * si.step = m := by
      rw [Nat.mul_comm]; exact Nat.mod_add_div m si.step
    rw [this]
    exact ht
  exact ⟨hC.1, by simpa using hC.2 a ws hr hws hsum⟩

/-! ## A catalog restricted to what the pool can spell -/

theorem inner_traced_config (si si2 : sentence_info) (h1 : si.check_cb = si2.check_cb)
    (h2 : si.offset = si2.offset) (h3 : si.step = si2.step) :
    ∀ f, sentence_build_inner_traced si f = sentence_build_inner_traced si2 f := by
  intro f
  induction f with
  | zero =>
    funext st wp ph c d b
    simp [sentence_build_inner_traced]
  | succ f ih =>
    funext st wp ph c d b
    simp only [sentence_build_inner_traced, ih, h1, h2, h3]

theorem sentence_build_eq_inner (zn : Bool) (fuel : Nat) (si : sentence_info)
    (E : List Entry) (hE : E.map Prod.snd = si.phrase_list) (hne : si.phrase_list ≠ [])
    (hz : ¬ (2 * pool_count_all si.pool = 0 ∧ zn = true)) :
    sentence_build zn fuel si =
      (sentence_build_inner_traced si fuel (start si, []) none (some (phrase_array E []))
        E.length 0 []).1 := by
  have hcount : si.phrase_count ≠ 0 := by
    unfold sentence_info.phrase_count
    intro e
    exact hne (List.length_eq_zero.1 e)
  have hlen : E.length = si.phrase_count := by
    unfold sentence_info.phrase_count
    rw [← hE, List.length_map]
  unfold sentence_build
  simp only [hne, hcount, or_self, if_false, hz]
  rw [inner_traced_fst, hlen]
  simp only [Option.map_some', phrase_array_map, hE, List.map_nil]
  rfl

theorem sentence_build_zero_null (fuel : Nat) (si : sentence_info)
    (h : 2 * pool_count_all si.pool = 0) : (sentence_build true fuel si).emitted = [] := by
  unfold sentence_build
  split
  · rfl
  · split
    · rfl
    · rename_i h2
      exact absurd ⟨h, rfl⟩ h2

theorem sentence_build_nil (zn : Bool) (fuel : Nat) (si : sentence_info)
    (h : si.phrase_list = []) :
    sentence_build zn fuel si =
      { pool := si.pool, sentence := [], max_length := 0, emitted := [], halt := none } := by
  simp [sentence_build, h]

theorem filter_entries_map (cat : List (List Char)) (g : List Char → Bool) :
    (List.filter (fun a : Entry => g a.2) (entries cat)).map Prod.snd = cat.filter g := by
  have e := entries_from_map_snd 0 cat
  conv => rhs; rw [← e]
  rw [List.filter_map]
  rfl

theorem entries_ne_nil (cat : List (List Char)) (h : cat ≠ []) : entries cat ≠ [] := by
  intro e
  have := congrArg List.length e
  rw [entries_length] at this
  exact h (List.length_eq_zero.1 (by simpa using this))

theorem prefiltered_run (zn : Bool) (fuel : Nat) (si : sentence_info)
    (hc : si.check_cb = none)
    (hne : si.phrase_list.filter (fun p => pool_can_spell si.pool p) ≠ [])
    (hz : ¬ (2 * pool_count_all si.pool = 0 ∧ zn = true)) :
    sentence_build zn fuel (prefiltered si) = sentence_build zn fuel si := by
  have hL : si.phrase_list ≠ [] := by
    intro e
    rw [e] at hne
    exact hne rfl
  have hmap := filter_entries_map si.phrase_list (fun p => pool_can_spell si.pool p)
  generalize hE : List.filter (fun a : Entry => pool_can_spell si.pool a.2)
    (entries si.phrase_list) = E0 at hmap
  have hE0 : E0 ≠ [] := by
    intro e
    rw [e] at hmap
    exact hne hmap.symm
  have hEL : entries si.phrase_list ≠ [] := entries_ne_nil _ hL
  have hsurv : survivors si (start si) (entries si.phrase_list) = E0 := by
    unfold survivors
    rw [← hE]
    apply List.filter_congr
    intro a _
    rw [keep_phrase_of_check_none si hc]
    rfl
  have hsurv2 : survivors si (start si) E0 = E0 := by
    unfold survivors
    rw [← hE, List.filter_filter]
    apply List.filter_congr
    intro a _
    rw [keep_phrase_of_check_none si hc]
    show (pool_can_spell si.pool a.2 && pool_can_spell si.pool a.2) = _
    simp
  rw [sentence_build_eq_inner zn fuel (prefiltered si) E0 hmap hne hz,
    sentence_build_eq_inner zn fuel si (entries si.phrase_list) (entries_from_map_snd 0 _) hL hz,
    inner_traced_config (prefiltered si) si rfl rfl rfl]
  show (sentence_build_inner_traced si fuel (start si, []) none (some (phrase_array E0 []))
    E0.length 0 []).1 = _
  cases fuel with
  | zero => simp [sentence_build_inner_traced]
  | succ f =>
    rw [inner_unfold si f (start si, []) none E0 [] 0 [] hE0,
      inner_unfold si f (start si, []) none (entries si.phrase_list) [] 0 [] hEL]
    simp only
    rw [hsurv, hsurv2]
    have hv : visited si 0 E0 E0 = visited si 0 (entries si.phrase_list) E0 := by
      unfold visited
      simp [hE0]
    rw [hv]

theorem prefiltered_emitted (zn : Bool) (fuel : Nat) (si : sentence_info)
    (hc : si.check_cb = none) :
    (sentence_build zn fuel (prefiltered si)).emitted = (sentence_build zn fuel si).emitted := by
  by_cases hz : 2 * pool_count_all si.pool = 0 ∧ zn = true
  · obtain ⟨h1, h2⟩ := hz
    subst h2
    rw [sentence_build_zero_null fuel si h1, sentence_build_zero_null fuel (prefiltered si) h1]
  · by_cases hne : si.phrase_list.filter (fun p => pool_can_spell si.pool p) = []
    · rw [sentence_build_nil _ _ _ hne]
      rw [emitted_nil_of_unspellable zn fuel si]
      intro p hp
      have := List.filter_eq_nil_iff.1 hne p hp
      simpa using this
    · rw [prefiltered_run zn fuel si hc hne hz]

/-! ## A check predicate that looks at the candidate only -/

theorem survivors_checked (si si2 : sentence_info) (g : List Char → Bool)
    (hc : si.check_cb = some (fun _ _ p => g p)) (hc2 : si2.check_cb = none) (st : Search)
    (L : List Entry) (hL : ∀ a ∈ L, g a.2 = true) :
    survivors si st L = survivors si2 st L := by
  unfold survivors
  apply List.filter_congr
  intro a ha
  simp only [keep_phrase, hc, hc2, hL a ha]

theorem place_entry_checked (si si2 : sentence_info) (f w : Nat) (S : List Entry)
    (depth : Nat) (br : List Nat)
    (ih : ∀ (t : Search × List Event) (wp : Option Nat) (br2 : List Nat),
      sentence_build_inner_traced si f t wp (some (phrase_array S [])) S.length (depth + 1)
          br2 =
        sentence_build_inner_traced si2 f t wp (some (phrase_array S [])) S.length
          (depth + 1) br2) :
    place_entry si f w S depth br = place_entry si2 f w S depth br := by
  funext c a t
  unfold place_entry place_phrase_traced
  simp only [phrase_array_take, ih]

theorem inner_checked (si si2 : sentence_info) (g : List Char → Bool)
    (hc : si.check_cb = some (fun _ _ p => g p)) (hc2 : si2.check_cb = none)
    (ho : si.offset = si2.offset) (hs : si.step = si2.step) :
    ∀ (f : Nat) (t : Search × List Event) (wp : Option Nat) (L : List Entry)
      (tail : List (Option Entry)) (depth : Nat) (br : List Nat), (∀ a ∈ L, g a.2 = true) →
      sentence_build_inner_traced si f t wp (some (phrase_array L tail)) L.length depth br =
        sentence_build_inner_traced si2 f t wp (some (phrase_array L tail)) L.length depth
          br := by
  intro f
  induction f with
  | zero =>
    intro t wp L tail depth br _
    simp [sentence_build_inner_traced]
  | succ f ih =>
    intro t wp L tail depth br hL
    by_cases hnil : L = []
    · subst hnil
      simp [sentence_build_inner_traced]
    · rw [inner_unfold si f t wp L tail depth br hnil,
        inner_unfold si2 f t wp L tail depth br hnil,
        survivors_checked si si2 g hc hc2 t.1 L hL]
      have hv : visited si depth L (survivors si2 t.1 L) =
          visited si2 depth L (survivors si2 t.1 L) := by
        unfold visited
        rw [ho]
      rw [hv, hs, ho]
      rw [place_entry_checked si si2 f (wp.getD 0) (survivors si2 t.1 L) depth br
        (fun t2 wp2 br2 => ih t2 wp2 _ [] (depth + 1) br2
          (fun a ha => hL a (survivors_subset si2 t.1 L a ha)))]

theorem checked_emitted (zn : Bool) (fuel : Nat) (si : sentence_info) (g : List Char → Bool)
    (hc : si.check_cb = some (fun _ _ p => g p))
    (h : si.offset = 0 ∨ ∃ p ∈ si.phrase_list, keep_phrase si (start si) p = true) :
    (sentence_build zn fuel si).emitted =
      (sentence_build zn fuel (without_rejected si g)).emitted := by
  have hkg : ∀ p, keep_phrase si (start si) p = true → g p = true := by
    intro p hp
    simp only [keep_phrase, hc, Bool.and_eq_true] at hp
    exact hp.2
  by_cases hz : 2 * pool_count_all si.pool = 0 ∧ zn = true
  · obtain ⟨h1, h2⟩ := hz
    subst h2
    rw [sentence_build_zero_null fuel si h1,
      sentence_build_zero_null fuel (without_rejected si g) h1]
  by_cases hL : si.phrase_list = []
  · have h2 : (without_rejected si g).phrase_list = [] := by
      simp [without_rejected, hL]
    rw [sentence_build_nil _ _ si hL, sentence_build_nil _ _ _ h2]
  · have hEL : entries si.phrase_list ≠ [] := entries_ne_nil _ hL
    by_cases hne : si.phrase_list.filter g = []
    · have h2 : (without_rejected si g).phrase_list = [] := hne
      rw [sentence_build_nil _ _ _ h2,
        sentence_build_eq_inner zn fuel si (entries si.phrase_list) (entries_from_map_snd 0 _)
          hL hz]
      have hS : survivors si (start si) (entries si.phrase_list) = [] := by
        unfold survivors
        rw [List.filter_eq_nil_iff]
        intro a ha hk
        have hm : a.2 ∈ si.phrase_list.filter g :=
          List.mem_filter.2 ⟨entries_snd_mem _ a ha, hkg a.2 hk⟩
        rw [hne] at hm
        cases hm
      have ho : si.offset = 0 := by
        rcases h with h | ⟨p, hp, hk⟩
        · exact h
        · have hm : p ∈ si.phrase_list.filter g := List.mem_filter.2 ⟨hp, hkg p hk⟩
          rw [hne] at hm
          cases hm
      cases fuel with
      | zero => simp [sentence_build_inner_traced, start]
      | succ f =>
        rw [inner_unfold si f (start si, []) none (entries si.phrase_list) [] 0 [] hEL]
        simp only
        rw [hS]
        have : visited si 0 (entries si.phrase_list) [] = [] := by simp [visited, ho]
        rw [this, place_list_nil]
        rfl
    · have hmap := filter_entries_map si.phrase_list g
      generalize hE : List.filter (fun a : Entry => g a.2) (entries si.phrase_list) = E2
        at hmap
      have hE2 : E2 ≠ [] := by
        intro e
        rw [e] at hmap
        exact hne hmap.symm
      have hg2 : ∀ a ∈ E2, g a.2 = true := by
        intro a ha
        rw [← hE] at ha
        exact (List.mem_filter.1 ha).2
      rw [sentence_build_eq_inner zn fuel (without_rejected si g) E2 hmap hne hz,
        sentence_build_eq_inner zn fuel si (entries si.phrase_list) (entries_from_map_snd 0 _)
          hL hz]
      show _ = (sentence_build_inner_traced (without_rejected si g) fuel (start si, []) none
        (some (phrase_array E2 [])) E2.length 0 []).1.emitted
      rw [← inner_checked si (without_rejected si g) g hc rfl rfl rfl fuel (start si, []) none
          E2 [] 0 [] hg2]
      cases fuel with
      | zero => simp [sentence_build_inner_traced]
      | succ f =>
        rw [inner_unfold si f (start si, []) none E2 [] 0 [] hE2,
          inner_unfold si f (start si, []) none (entries si.phrase_list) [] 0 [] hEL]
        simp only
        have hsurv : survivors si (start si) E2 =
            survivors si (start si) (entries si.phrase_list) := by
          unfold survivors
          rw [← hE, List.filter_filter]
          apply List.filter_congr
          intro a _
          simp only [keep_phrase, hc]
          cases pool_can_spell (start si).pool a.2 <;> cases g a.2 <;> rfl
        rw [hsurv]
        generalize hSe : survivors si (start si) (entries si.phrase_list) = S
        have hv : visited si 0 (entries si.phrase_list) S = visited si 0 E2 S := by
          unfold visited
          by_cases ho : si.offset = 0
          · simp [ho]
          · have hSne : S ≠ [] := by
              rcases h with h | ⟨p, hp, hk⟩
              · exact absurd h ho
              · rw [← hSe]
                exact survivors_ne_nil si p hp hk
            simp [ho, hSne]
        rw [hv]

theorem checked_phrases (zn : Bool) (fuel : Nat) (si : sentence_info) (g : List Char → Bool)
    (hc : si.check_cb = some (fun _ _ p => g p))
    (h : si.offset = 0 ∨ ∃ p ∈ si.phrase_list, keep_phrase si (start si) p = true) :
    ∀ s ∈ (sentence_build zn fuel si).emitted,
      ∃ ws : List (List Char), ws ≠ [] ∧ s = sentence_text ws ∧
        ∀ w ∈ ws, w ∈ si.phrase_list ∧ g w = true := by
  intro s hs
  rw [checked_emitted zn fuel si g hc h] at hs
  obtain ⟨D, hD, hprop, _⟩ := sentence_build_branches zn fuel (without_rejected si g)
  rw [hD, List.mem_map] at hs
  obtain ⟨ws, hws, e⟩ := hs
  obtain ⟨h1, h2, _⟩ := hprop ws hws
  refine ⟨ws.map Prod.snd, by simpa using h1, e.symm, ?_⟩
  intro w hw
  obtain ⟨b, hb, e2⟩ := List.mem_map.1 hw
  have hm := entries_snd_mem _ b (h2 b hb)
  rw [e2] at hm
  have hm2 : w ∈ si.phrase_list.filter g := hm
  exact ⟨List.mem_of_mem_filter hm2, (List.mem_filter.1 hm2).2⟩

/-! ## No slot below 0, when the skip loop stays within the list -/

theorem inner_traced_pool (si : sentence_info) (f : Nat) (t : Search × List Event)
    (wp : Option Nat) (phrases : Option (List (Option Entry))) (cnt depth : Nat)
    (br : List Nat)
    (h : (sentence_build_inner_traced si f t wp phrases cnt depth br).1.halt = none) :
    (sentence_build_inner_traced si f t wp phrases cnt depth br).1.pool = t.1.pool := by
  rw [inner_traced_fst] at h ⊢
  exact inner_pool si f _ _ _ _ _ h

theorem inner_nonneg (si : sentence_info) :
    ∀ (f : Nat) (t : Search × List Event) (wp : Option Nat) (L : List Entry)
      (tail : List (Option Entry)) (depth : Nat) (br : List Nat),
      t.1.halt = none → (depth = 0 → si.offset = 0 ∨ survivors si t.1 L ≠ []) →
      (∀ i, 0 ≤ t.1.pool i) →
      ∀ i, 0 ≤ (sentence_build_inner_traced si f t wp (some (phrase_array L tail)) L.length
        depth br).1.pool i := by
  intro f
  induction f with
  | zero =>
    intro t wp L tail depth br _ _ hpool
    rw [sentence_build_inner_traced]
    exact hpool
  | succ f ihf =>
    intro t wp L tail depth br hh hns hpool
    by_cases hnil : L = []
    · subst hnil
      rw [sentence_build_inner_traced]
      simpa using hpool
    · rw [inner_unfold si f t wp L tail depth br hnil]
      apply place_list_invariant _ _
        (fun t1 => t1.1.pool = t.1.pool) (fun t1 => ∀ i, 0 ≤ t1.1.pool i)
        (visited si depth L (survivors si t.1 L))
      · intro t1 hI _
        rw [hI]
        exact hpool
      · intro curr v t1 hv hI h1
        have hvS := visited_mem_survivors si depth L _ hns v hv
        have hsp : pool_can_spell t1.1.pool v.2 = true := by
          rw [hI]
          exact survivors_can_spell si t.1 L v hvS
        have hsub := pool_subtract_nonneg t1.1.pool v.2 hsp
        refine ⟨?_, fun h2 => (place_entry_pool _ _ _ _ _ _ _ _ _ h2).trans hI⟩
        intro _ _
        apply place_entry_cases (fun r => ∀ i, 0 ≤ r.1.pool i)
          si f _ _ depth br curr v t1 h1
        · exact hsub
        · intro buf1 _ i
          simp only
          rw [pool_add_subtract, hI]
          exact hpool i
        · intro buf1 n he r hr
          constructor
          · intro _ _
            rw [hr]
            exact ihf _ _ _ _ _ _ h1 (fun h0 => by omega) hsub
          · intro h2 i
            have hp : r.1.pool = pool_subtract t1.1.pool v.2 := by
              rw [hr] at h2 ⊢
              exact inner_traced_pool si f _ _ _ _ _ _ h2
            simp only
            rw [hp, pool_add_subtract, hI]
            exact hpool i
      · intro v hv
        exact hv
      · rfl
      · exact hh
      · right
        intro t1 hI
        simp only
        rw [hI]
        exact hpool

theorem sentence_build_nonneg (zn : Bool) (fuel : Nat) (si : sentence_info)
    (h : si.offset = 0 ∨ ∃ p ∈ si.phrase_list, keep_phrase si (start si) p = true)
    (hpool : ∀ i, 0 ≤ si.pool i) : ∀ i, 0 ≤ (sentence_build zn fuel si).pool i := by
  rw [← sentence_build_traced_fst]
  rcases sentence_build_traced_cases zn fuel si with e | e
  · rw [e]
    exact hpool
  · rw [e]
    apply inner_nonneg si fuel _ _ _ _ _ _ rfl
    · intro _
      rcases h with h | ⟨p, hp, hk⟩
      · exact Or.inl h
      · exact Or.inr (survivors_ne_nil si p hp hk)
    · exact hpool

/-! ## Runs that return -/

theorem sentence_build_returns (zn : Bool) (fuel : Nat) (si : sentence_info)
    (hc : si.check_cb = none)
    (hfit : ∀ p ∈ si.phrase_list, (cstr p).length + 1 ≤ 2 * letter_total p)
    (hstep : 1 ≤ si.step)
    (h : si.offset = 0 ∨ ∃ p ∈ si.phrase_list, keep_phrase si (start si) p = true)
    (hfuel : pool_count_all si.pool + si.phrase_list.length + 1 ≤ fuel) :
    (sentence_build zn fuel si).halt = none := by
  have hC := sentence_build_traced_complete zn fuel si hc hfit hfuel hstep
    (visited_mem_survivors si 0 _ _ (fun _ => by
      rcases h with h | ⟨p, hp, hk⟩
      · exact Or.inl h
      · exact Or.inr (survivors_ne_nil si p hp hk)))
  unfold Complete at hC
  rw [sentence_build_traced_fst] at hC
  exact hC.1

/-! ## The claims -/

/-- C1 (soundness).  Every sentence that `sentence_build` emits, for every pool, catalog,
step, offset and check predicate and however far the run gets, contains each letter
exactly as many times as the initial pool does; spaces and other non-letters do not
count.  This covers the sentences of a run in which the skip loop has stepped behind the
terminator of the filtered list. -/
theorem C1_emitted_letters_eq_pool (zn : Bool) (fuel : Nat) (si : sentence_info)
    (s : List Char) (h : s ∈ (sentence_build zn fuel si).emitted) (i : Fin POOL_SIZE) :
    (letter_count s i : Int) = si.pool i := by
  obtain ⟨D, hD, hprop, _⟩ := sentence_build_branches zn fuel si
  rw [hD] at h
  obtain ⟨ws, hws, e⟩ := List.mem_map.1 h
  rw [← e, letter_count_sentence_text]
  exact (hprop ws hws).2.2 i

set_option maxRecDepth 100000 in
theorem C1_witness :
    (sentence_build false 3 stale_rejecting_search).emitted = [['a']] ∧
      ∀ i, (letter_count ['a'] i : Int) = stale_rejecting_search.pool i :=
  ⟨by decide,
    fun i => C1_emitted_letters_eq_pool false 3 stale_rejecting_search _ (by decide) i⟩

/-- C5 (order).  The log of a run records, at every emission, the catalog positions of
the phrases under the cursors of the active calls, outermost first: the branch of the
search that is emitted.  For a step of at least 1, so for step 1 and offset 0, the
emitted sentences are, one for one and in order, the texts of the logged branches; the
logged branches are strictly increasing in the lexicographic order of their positions, so
candidates are tried in catalog order at every depth and no branch is emitted twice; and
the log does not change the run.  This holds for every prefix of a run. -/
theorem C5_emission_order (zn : Bool) (fuel : Nat) (si : sentence_info)
    (hstep : 1 ≤ si.step) :
    (sentence_build_traced zn fuel si).1 = sentence_build zn fuel si ∧
      (sentence_build zn fuel si).emitted =
        (emitted_branches (sentence_build_traced zn fuel si).2).map
          (fun q => sentence_text (q.map (fun n => si.phrase_list.getD n []))) ∧
      (emitted_branches (sentence_build_traced zn fuel si).2).Pairwise
        (List.Lex (fun m n : Nat => m < n)) ∧
      (emitted_branches (sentence_build_traced zn fuel si).2).Nodup ∧
      ∀ q ∈ emitted_branches (sentence_build_traced zn fuel si).2,
        q ≠ [] ∧ ∀ n ∈ q, n < si.phrase_list.length := by
  obtain ⟨D, hD, hB, hprop, hord⟩ := sentence_build_traced_branches zn fuel si
  have hpw : (D.map (fun ws => ws.map Prod.fst)).Pairwise
      (List.Lex (fun m n : Nat => m < n)) := by
    rw [List.pairwise_map]
    exact hord hstep
  rw [hB, ← sentence_build_traced_fst, hD]
  refine ⟨rfl, ?_, hpw, ?_, ?_⟩
  · rw [List.map_map]
    apply List.map_congr_left
    intro ws hws
    simp only [Function.comp]
    rw [map_snd_eq_getD si.phrase_list ws (hprop ws hws).2.1]
  · exact hpw.imp (fun hab e => by subst e; exact lex_lt_irrefl _ hab)
  · intro q hq
    obtain ⟨ws, hws, e⟩ := List.mem_map.1 hq
    subst e
    refine ⟨by simpa using (hprop ws hws).1, ?_⟩
    intro n hn
    obtain ⟨b, hb, eb⟩ := List.mem_map.1 hn
    exact eb ▸ entries_fst_lt _ b ((hprop ws hws).2.1 b hb)

set_option maxRecDepth 100000 in
theorem C5_witness :
    (1 ≤ eat_search.step ∧
      emitted_branches (sentence_build_traced false 6 eat_search).2 =
        [[0], [1], [2], [3, 4], [4, 3]]) ∧
      (sentence_build_traced false 6 eat_search).1 = sentence_build false 6 eat_search ∧
      (sentence_build false 6 eat_search).emitted =
        (emitted_branches (sentence_build_traced false 6 eat_search).2).map
          (fun q => sentence_text (q.map (fun n => eat_search.phrase_list.getD n []))) ∧
      (emitted_branches (sentence_build_traced false 6 eat_search).2).Pairwise
        (List.Lex (fun m n : Nat => m < n)) ∧
      (emitted_branches (sentence_build_traced false 6 eat_search).2).Nodup ∧
      ∀ q ∈ emitted_branches (sentence_build_traced false 6 eat_search).2,
        q ≠ [] ∧ ∀ n ∈ q, n < eat_search.phrase_list.length :=
  ⟨⟨by decide, by decide⟩, C5_emission_order false 6 eat_search (by decide)⟩

theorem sentence_text_ne_nil (w : List Char) (ws : List (List Char)) (h : cstr w ≠ []) :
    sentence_text (w :: ws) ≠ [] := by
  cases ws with
  | nil => simpa [sentence_text] using h
  | cons v vs =>
    rw [sentence_text_cons w (v :: vs) (by simp)]
    simp

theorem sentence_text_head (w : List Char) (ws : List (List Char)) (h : cstr w ≠ []) :
    (sentence_text (w :: ws)).head? = (cstr w).head? := by
  cases ws with
  | nil => simp [sentence_text]
  | cons v vs =>
    rw [sentence_text_cons w (v :: vs) (by simp)]
    cases hc : cstr w with
    | nil => exact absurd hc h
    | cons c cs => rfl

theorem sentence_text_getLast (ws : List (List Char)) (hne : ∀ w ∈ ws, cstr w ≠ []) :
    ∀ w, (sentence_text (w :: ws)).getLast? = (cstr ((w :: ws).getLast (by simp))).getLast? := by
  induction ws with
  | nil => intro w; simp [sentence_text]
  | cons v vs ih =>
    intro w
    rw [sentence_text_cons w (v :: vs) (by simp)]
    have hv : sentence_text (v :: vs) ≠ [] := sentence_text_ne_nil v vs (hne v (by simp))
    have := ih (fun x hx => hne x (List.mem_cons_of_mem _ hx)) v
    rw [List.getLast?_append_of_ne_nil _ (by simp)]
    obtain ⟨c, t, ht⟩ := List.exists_cons_of_ne_nil hv
    rw [ht] at this ⊢
    rw [List.getLast?_cons_cons, this]
    simp [List.getLast_cons]

/-- C6, as amended (sentence text).  Every sentence handed to the sink is the text of the
branch that the log records at its emission: the catalog phrases under the cursors of the
active calls, in placement order, each read as a C string, with one space between
neighbours and nothing else.  The phrases use up the pool exactly, and the text holds no
terminator, so it ends with the last phrase whatever an earlier branch had left in the
buffer.  It has no leading and no trailing space when none of these phrases is empty or
begins or ends with a space. -/
theorem C6_emitted_is_branch_text (zn : Bool) (fuel : Nat) (si : sentence_info)
    (s : List Char) (h : s ∈ (sentence_build zn fuel si).emitted) :
    ∃ q ∈ emitted_branches (sentence_build_traced zn fuel si).2,
      q ≠ [] ∧ (∀ n ∈ q, n < si.phrase_list.length) ∧
      (∀ i, (letters (q.map (fun n => si.phrase_list.getD n [])) i : Int) = si.pool i) ∧
      s = sentence_text (q.map (fun n => si.phrase_list.getD n [])) ∧
      s = List.intercalate [' '] ((q.map (fun n => si.phrase_list.getD n [])).map cstr) ∧
      NUL ∉ s ∧
      ((∀ n ∈ q, cstr (si.phrase_list.getD n []) ≠ [] ∧
          (cstr (si.phrase_list.getD n [])).head? ≠ some ' ' ∧
          (cstr (si.phrase_list.getD n [])).getLast? ≠ some ' ') →
        s.head? ≠ some ' ' ∧ s.getLast? ≠ some ' ') := by
  obtain ⟨D, hD, hB, hprop, _⟩ := sentence_build_traced_branches zn fuel si
  rw [sentence_build_traced_fst] at hD
  rw [hD] at h
  obtain ⟨ws, hws, e⟩ := List.mem_map.1 h
  obtain ⟨h1, h2, h3⟩ := hprop ws hws
  have hmap := map_snd_eq_getD si.phrase_list ws h2
  refine ⟨ws.map Prod.fst, ?_, by simpa using h1, ?_, ?_, ?_, ?_, ?_, ?_⟩
  · rw [hB]
    exact List.mem_map.2 ⟨ws, hws, rfl⟩
  · intro n hn
    obtain ⟨b, hb, eb⟩ := List.mem_map.1 hn
    exact eb ▸ entries_fst_lt _ b (h2 b hb)
  · rw [← hmap]
    exact h3
  · rw [← hmap, e]
  · rw [← hmap, ← e, sentence_text_eq_intercalate]
  · rw [← e]
    exact NUL_not_mem_sentence_text _
  · rw [← e]
    intro hnice
    have hnice2 : ∀ w ∈ ws.map Prod.snd, cstr w ≠ [] ∧ (cstr w).head? ≠ some ' ' ∧
        (cstr w).getLast? ≠ some ' ' := by
      intro w hw
      rw [hmap] at hw
      obtain ⟨n, hn, en⟩ := List.mem_map.1 hw
      exact en ▸ hnice n hn
    cases hl : ws.map Prod.snd with
    | nil => exact absurd (by simpa using hl) h1
    | cons w r =>
      rw [hl] at hnice2
      constructor
      · rw [sentence_text_head w r (hnice2 w (by simp)).1]
        exact (hnice2 w (by simp)).2.1
      · rw [sentence_text_getLast r (fun x hx => (hnice2 x (List.mem_cons_of_mem _ hx)).1) w]
        exact (hnice2 _ (List.getLast_mem _)).2.2

set_option maxRecDepth 100000 in
theorem C6_witness :
    ['a', 't', ' ', 'e'] ∈ (sentence_build false 6 eat_search).emitted ∧
      ∃ q ∈ emitted_branches (sentence_build_traced false 6 eat_search).2,
        q ≠ [] ∧ (∀ n ∈ q, n < eat_search.phrase_list.length) ∧
        (∀ i, (letters (q.map (fun n => eat_search.phrase_list.getD n [])) i : Int) =
          eat_search.pool i) ∧
        ['a', 't', ' ', 'e'] =
          sentence_text (q.map (fun n => eat_search.phrase_list.getD n [])) ∧
        ['a', 't', ' ', 'e'] =
          List.intercalate [' ']
            ((q.map (fun n => eat_search.phrase_list.getD n [])).map cstr) ∧
        NUL ∉ ['a', 't', ' ', 'e'] ∧
        ((∀ n ∈ q, cstr (eat_search.phrase_list.getD n []) ≠ [] ∧
            (cstr (eat_search.phrase_list.getD n [])).head? ≠ some ' ' ∧
            (cstr (eat_search.phrase_list.getD n [])).getLast? ≠ some ' ') →
          ['a', 't', ' ', 'e'].head? ≠ some ' ' ∧ ['a', 't', ' ', 'e'].getLast? ≠ some ' ') :=
  ⟨by decide, C6_emitted_is_branch_text false 6 eat_search _ (by decide)⟩

set_option maxRecDepth 100000 in
/-- A sentence can begin with a space: for the subject "aa" and the catalog " aa", a
phrase that `phrase_cannot_include` lets pass, every run with at least 2 units of fuel
returns and emits the sentence " aa". -/
theorem C6_counterexample :
    filter_rejects [' ', 'a', 'a'] = false ∧
      (∀ zn n, (sentence_build zn (n + 2) space_search).halt = none ∧
        (sentence_build zn (n + 2) space_search).emitted = [[' ', 'a', 'a']]) ∧
      [' ', 'a', 'a'].head? = some ' ' := by
  refine ⟨by decide, ?_, rfl⟩
  intro zn n
  rw [Nat.add_comm, sentence_build_more_fuel zn space_search 2 (by cases zn <;> decide) n]
  cases zn <;> decide

set_option maxRecDepth 100000 in
/-- C7 (worked example).  For the subject "eat" and the catalog eat, tea, ate, at, e, every
run with at least 6 units of fuel returns and emits "eat", "tea", "ate", "at e", "e at",
in this order; in particular it emits "eat", "tea", "ate" and "at e". -/
theorem C7_eat_example (zn : Bool) (n : Nat) :
    (sentence_build zn (n + 6) eat_search).halt = none ∧
      ['e', 'a', 't'] ∈ (sentence_build zn (n + 6) eat_search).emitted ∧
      ['t', 'e', 'a'] ∈ (sentence_build zn (n + 6) eat_search).emitted ∧
      ['a', 't', 'e'] ∈ (sentence_build zn (n + 6) eat_search).emitted ∧
      ['a', 't', ' ', 'e'] ∈ (sentence_build zn (n + 6) eat_search).emitted ∧
      (sentence_build zn (n + 6) eat_search).emitted =
        [['e', 'a', 't'], ['t', 'e', 'a'], ['a', 't', 'e'], ['a', 't', ' ', 'e'],
          ['e', ' ', 'a', 't']] := by
  rw [Nat.add_comm, sentence_build_more_fuel zn eat_search 6 (by cases zn <;> decide) n]
  cases zn <;> decide

theorem survivors_nil_of_unspellable (si : sentence_info) (st : Search) (L : List Entry)
    (h : ∀ b ∈ L, pool_can_spell st.pool b.2 = false) : survivors si st L = [] := by
  unfold survivors
  rw [List.filter_eq_nil_iff]
  intro b hb
  simp [keep_phrase, h b hb]

theorem returns_of_unspellable (zn : Bool) (fuel : Nat) (si : sentence_info)
    (h : ∀ p ∈ si.phrase_list, pool_can_spell si.pool p = false) (hoff : si.offset = 0) :
    (sentence_build zn (fuel + 1) si).halt = none := by
  by_cases hne : si.phrase_list = []
  · rw [sentence_build_nil _ _ si hne]
  · by_cases hz : 2 * pool_count_all si.pool = 0 ∧ zn = true
    · obtain ⟨h1, h2⟩ := hz
      subst h2
      rw [← sentence_build_traced_fst, sentence_build_traced_null _ si (by omega)]
    · rw [sentence_build_eq_inner zn _ si (entries si.phrase_list) (entries_from_map_snd 0 _)
        hne hz,
        inner_unfold si fuel (start si, []) none (entries si.phrase_list) [] 0 []
          (entries_ne_nil _ hne)]
      simp only
      rw [survivors_nil_of_unspellable si (start si) _
        (fun b hb => h b.2 (entries_snd_mem _ b hb))]
      have : visited si 0 (entries si.phrase_list) [] = [] := by simp [visited, hoff]
      rw [this, place_list_nil]
      rfl

set_option maxRecDepth 100000 in
/-- C4 (nothing to spell).  When no catalog phrase can be spelled from the pool (an empty
catalog included) no run emits a sentence, and with offset 0 the run returns normally.
With a non-zero offset it need not: for the subject "a", the catalog "b", "ccc", step 2
and offset 1 the skip loop steps over the terminator of the emptied list, the placement
loop subtracts the stale entry "ccc" from a pool that cannot spell it, and the copy loop
stores its third character outside the buffer of 2 bytes. -/
theorem C4_unspellable_catalog :
    (∀ (zn : Bool) (fuel : Nat) (si : sentence_info),
        (∀ p ∈ si.phrase_list, pool_can_spell si.pool p = false) →
        (sentence_build zn fuel si).emitted = []) ∧
      (∀ (zn : Bool) (fuel : Nat) (si : sentence_info),
        (∀ p ∈ si.phrase_list, pool_can_spell si.pool p = false) → si.offset = 0 →
        (sentence_build zn (fuel + 1) si).halt = none) ∧
      (∀ p ∈ unspellable_search.phrase_list,
        pool_can_spell unspellable_search.pool p = false) ∧
      ∀ zn n, (sentence_build zn (n + 2) unspellable_search).halt =
          some Halt.out_of_bounds ∧
        (sentence_build zn (n + 2) unspellable_search).max_length = 2 ∧
        (sentence_build zn (n + 2) unspellable_search).emitted = [] := by
  refine ⟨emitted_nil_of_unspellable, returns_of_unspellable, by decide, ?_⟩
  intro zn n
  rw [Nat.add_comm,
    sentence_build_more_fuel zn unspellable_search 2 (by cases zn <;> decide) n]
  cases zn <;> decide

set_option maxRecDepth 100000 in
/-- C9 (`max_words`).  The search never reads `max_words`: changing it changes no run.
For the subject "ab", the catalog "a", "b" and `max_words = 1`, every run with at least 3
units of fuel returns and emits the two-phrase sentences "a b" and "b a". -/
theorem C9_max_words_is_not_read :
    (∀ (zn : Bool) (fuel : Nat) (si : sentence_info) (m : Nat),
        sentence_build zn fuel { si with max_words := m } = sentence_build zn fuel si) ∧
      one_word_search.max_words = 1 ∧
      ∀ zn n, (sentence_build zn (n + 3) one_word_search).halt = none ∧
        (sentence_build zn (n + 3) one_word_search).emitted =
          [['a', ' ', 'b'], ['b', ' ', 'a']] := by
  refine ⟨fun zn fuel si m => sentence_build_config zn fuel _ si rfl rfl rfl rfl rfl, rfl, ?_⟩
  intro zn n
  rw [Nat.add_comm, sentence_build_more_fuel zn one_word_search 3 (by cases zn <;> decide) n]
  cases zn <;> decide

set_option maxRecDepth 100000 in
/-- C10 (cancellation).  The search never polls `canceled_cb`: changing it changes no run.
For the subject "a", the catalog "a", "b" and a predicate that reports canceled on every
poll, every run with at least 2 units of fuel returns and emits the sentence "a". -/
theorem C10_canceled_cb_is_not_polled :
    (∀ (zn : Bool) (fuel : Nat) (si : sentence_info) (c : Option (Nat → Bool)),
        sentence_build zn fuel { si with canceled_cb := c } = sentence_build zn fuel si) ∧
      (∃ c, canceled_search.canceled_cb = some c ∧ c 0 = true) ∧
      ∀ zn n, (sentence_build zn (n + 2) canceled_search).halt = none ∧
        (sentence_build zn (n + 2) canceled_search).emitted = [['a']] := by
  refine ⟨fun zn fuel si c => sentence_build_config zn fuel _ si rfl rfl rfl rfl rfl,
    ⟨_, rfl, rfl⟩, ?_⟩
  intro zn n
  rw [Nat.add_comm, sentence_build_more_fuel zn canceled_search 2 (by cases zn <;> decide) n]
  cases zn <;> decide

/-- C12 (shard count).  With or without thread support, `sentence_build_threaded` with
`num_threads = 0` runs no search, so emits nothing, and reports the invalid count; with
`num_threads = 1` it runs exactly `sentence_build` on the same description, whose
sentences are therefore emitted in the same order, and reports nothing. -/
theorem C12_zero_and_one_thread (threading zn : Bool) (fuel : Nat) (si : sentence_info) :
    (sentence_build_threaded threading zn fuel si 0).runs = [] ∧
      (sentence_build_threaded threading zn fuel si 0).stderr = [Message.invalid_threads 0] ∧
      (sentence_build_threaded threading zn fuel si 1).runs = [sentence_build zn fuel si] ∧
      ((sentence_build_threaded threading zn fuel si 1).runs.map Search.emitted =
        [(sentence_build zn fuel si).emitted]) ∧
      (sentence_build_threaded threading zn fuel si 1).stderr = [] := by
  cases threading <;> simp [sentence_build_threaded]

/-- C16 (backtracking).  When `sentence_build` returns, the pool has the value it had on
entry; and so has it when any call of `sentence_build_inner` returns, whatever the state,
the size of the sentence buffer, the candidate array, the depth, the step, the offset and
the check predicate.  A subtraction followed by the addition of the same phrase gives back
the pool, also when the pool could not spell the phrase.  A run that stores outside the
sentence buffer has no defined continuation and is not said to return. -/
theorem C16_pool_restored (zn : Bool) (si : sentence_info) (fuel : Nat) (st : Search)
    (wp : Option Nat) (phrases : Option (List (Option (List Char))))
    (phrase_count depth : Nat) :
    ((sentence_build zn fuel si).halt = none → (sentence_build zn fuel si).pool = si.pool) ∧
      ((sentence_build_inner si fuel st wp phrases phrase_count depth).halt = none →
        (sentence_build_inner si fuel st wp phrases phrase_count depth).pool = st.pool) ∧
      ∀ (pool : Pool) (p : List Char), pool_add (pool_subtract pool p) p = pool :=
  ⟨sentence_build_pool zn fuel si, inner_pool si fuel st wp phrases phrase_count depth,
    pool_add_subtract⟩

set_option maxRecDepth 100000 in
/-- Two runs that subtract a stale entry and return with the pool restored: the subject
"a" with the catalog "b", "c", step 2 and offset 1; and the subject "a" with the catalog
"b", "ccc", step 2 and offset 1, entered with a buffer of 16 bytes in place of the 2 that
`sentence_build` asks for. -/
theorem C16_witness :
    ((sentence_build_traced false 2 stale_search).2 =
        [Event.expand 0 1 ['c'] false, Event.call [none] 0 1] ∧
      (sentence_build false 2 stale_search).halt = none ∧
      (sentence_build_inner unspellable_search 2
        { start unspellable_search with sentence := List.replicate 16 NUL } none
        (some (unspellable_search.phrase_list.map some ++ [none])) 2 0).halt = none) ∧
      (sentence_build false 2 stale_search).pool = stale_search.pool ∧
      (sentence_build_inner unspellable_search 2
        { start unspellable_search with sentence := List.replicate 16 NUL } none
        (some (unspellable_search.phrase_list.map some ++ [none])) 2 0).pool =
        unspellable_search.pool :=
  ⟨⟨by decide, by decide, by decide⟩,
    (C16_pool_restored false stale_search 2 (start stale_search) none none 0 0).1 (by decide),
    (C16_pool_restored false unspellable_search 2
      { start unspellable_search with sentence := List.replicate 16 NUL } none
      (some (unspellable_search.phrase_list.map some ++ [none])) 2 0).2.1 (by decide)⟩

theorem phrase_cannot_include_ascii :
    ∀ c, c < 128 →
      (isdigit c = true → phrase_cannot_include c = true) ∧
      (iscntrl c = true → phrase_cannot_include c = true) ∧
      (ispunct c = true → phrase_cannot_include c = false) ∧
      (isalpha c = false →
        (phrase_cannot_include c = true ↔ isdigit c = true ∨ iscntrl c = true)) := by
  decide

theorem not_alpha_of_digit_or_cntrl :
    ∀ c, c < 128 → (isdigit c = true ∨ iscntrl c = true) → isalpha c = false := by
  decide

/-- C20 (character classes).  In the C locale `phrase_cannot_include` is true for every
digit and every control character and false for the space and for every punctuation
character; hence, on a phrase of ASCII characters, a filter that applies it to each
character that is not alphabetic rejects the phrase exactly when the phrase contains a
digit or a control character. -/
theorem C20_phrase_cannot_include (p : List Char) (hascii : ∀ c ∈ p, c.toNat < 128) :
    (∀ c : Nat, isdigit c = true → phrase_cannot_include c = true) ∧
      (∀ c : Nat, iscntrl c = true → phrase_cannot_include c = true) ∧
      phrase_cannot_include ' '.toNat = false ∧
      (∀ c : Nat, ispunct c = true → phrase_cannot_include c = false) ∧
      (filter_rejects p = true ↔
        ∃ c ∈ p, isdigit c.toNat = true ∨ iscntrl c.toNat = true) := by
  have hlt : ∀ c : Nat, isdigit c = true ∨ iscntrl c = true ∨ ispunct c = true → c < 128 := by
    intro c h
    simp only [isdigit, iscntrl, ispunct, Bool.or_eq_true, Bool.and_eq_true,
      decide_eq_true_eq, beq_iff_eq] at h
    omega
  refine ⟨?_, ?_, by decide, ?_, ?_⟩
  · intro c h
    exact (phrase_cannot_include_ascii c (hlt c (Or.inl h))).1 h
  · intro c h
    exact (phrase_cannot_include_ascii c (hlt c (Or.inr (Or.inl h)))).2.1 h
  · intro c h
    exact (phrase_cannot_include_ascii c (hlt c (Or.inr (Or.inr h)))).2.2.1 h
  · unfold filter_rejects
    rw [List.any_eq_true]
    constructor
    · rintro ⟨c, hc, h⟩
      simp only [Bool.and_eq_true, Bool.not_eq_true'] at h
      exact ⟨c, hc, ((phrase_cannot_include_ascii c.toNat (hascii c hc)).2.2.2 h.1).1 h.2⟩
    · rintro ⟨c, hc, h⟩
      refine ⟨c, hc, ?_⟩
      have hna : isalpha c.toNat = false :=
        not_alpha_of_digit_or_cntrl c.toNat (hascii c hc) h
      simp only [Bool.and_eq_true, Bool.not_eq_true']
      exact ⟨hna, ((phrase_cannot_include_ascii c.toNat (hascii c hc)).2.2.2 hna).2 h⟩

theorem C20_witness :
    (∀ c ∈ ['a', '1'], c.toNat < 128) ∧
      (∀ c : Nat, isdigit c = true → phrase_cannot_include c = true) ∧
      (∀ c : Nat, iscntrl c = true → phrase_cannot_include c = true) ∧
      phrase_cannot_include ' '.toNat = false ∧
      (∀ c : Nat, ispunct c = true → phrase_cannot_include c = false) ∧
      (filter_rejects ['a', '1'] = true ↔
        ∃ c ∈ ['a', '1'], isdigit c.toNat = true ∨ iscntrl c.toNat = true) :=
  ⟨by decide, C20_phrase_cannot_include ['a', '1'] (by decide)⟩

/-! ## The filter step and the array handed down -/

theorem filter_phrases_front (keep : List Char → Bool) (ps : List (List Char))
    (tail : List (Option (List Char))) :
    filter_phrases keep (ps.map some ++ none :: tail).length (ps.map some ++ none :: tail) 0 0
        ps.length =
      ((ps.filter keep).map some ++
          none :: (ps.map some ++ none :: tail).drop ((ps.filter keep).length + 1),
        (ps.filter keep).length) :=
  filter_phrases_array keep ps tail

theorem take_front {α : Type} (xs rest : List (Option α)) :
    (xs ++ none :: rest).take (xs.length + 1) = xs ++ [none] := by
  simp [List.take_append_eq_append_take]

/-- C18 (filter step and hand-down).  For a candidate array that holds the phrases `ps`,
a NULL and anything behind it, with `phrase_count` the number of phrases: the filter loop
leaves in front the phrases that the pool can spell and that pass the check predicate, in
their order, then a NULL, and returns their number; `sentence_build_inner` continues with
that array and that count; and the placement body, whatever the recursive call does with
its arguments, calls it with exactly the filtered phrases followed by one NULL, and with
their number. -/
theorem C18_filter_and_hand_down (si : sentence_info) (f : Nat) (st st2 : Search)
    (wp : Option Nat) (ps : List (List Char)) (tail : List (Option (List Char)))
    (depth w : Nat) (p : List Char)
    (recurse : Search → Option Nat → List (Option (List Char)) → Nat → Nat → Search) :
    (∀ q, keep_phrase si st q =
        (pool_can_spell st.pool q &&
          (match si.check_cb with
           | none => true
           | some check => check st.pool st.sentence q))) ∧
      filter_phrases (keep_phrase si st) (ps.map some ++ none :: tail).length
          (ps.map some ++ none :: tail) 0 0 ps.length =
        ((ps.filter (keep_phrase si st)).map some ++
            none :: (ps.map some ++ none :: tail).drop
              ((ps.filter (keep_phrase si st)).length + 1),
          (ps.filter (keep_phrase si st)).length) ∧
      sentence_build_inner si (f + 1) st wp (some (ps.map some ++ none :: tail)) ps.length
          depth =
        (if ps = [] then st
         else
          match
            (if depth = 0 then
              skip_offset
                ((ps.filter (keep_phrase si st)).map some ++
                  none :: (ps.map some ++ none :: tail).drop
                    ((ps.filter (keep_phrase si st)).length + 1))
                si.offset 0
             else some 0) with
          | none => st
          | some curr =>
            place_loop (fun s w ps c d => sentence_build_inner si f s w (some ps) c d)
              si.step (wp.getD 0)
              ((ps.filter (keep_phrase si st)).map some ++
                none :: (ps.map some ++ none :: tail).drop
                  ((ps.filter (keep_phrase si st)).length + 1))
              (ps.filter (keep_phrase si st)).length depth f curr st) ∧
      place_phrase recurse w
          ((ps.filter (keep_phrase si st)).map some ++
            none :: (ps.map some ++ none :: tail).drop
              ((ps.filter (keep_phrase si st)).length + 1))
          (ps.filter (keep_phrase si st)).length depth p st2 =
        place_phrase
          (fun s w2 _ _ d =>
            recurse s w2 ((ps.filter (keep_phrase si st)).map some ++ [none])
              (ps.filter (keep_phrase si st)).length d)
          w
          ((ps.filter (keep_phrase si st)).map some ++
            none :: (ps.map some ++ none :: tail).drop
              ((ps.filter (keep_phrase si st)).length + 1))
          (ps.filter (keep_phrase si st)).length depth p st2 := by
  refine ⟨fun q => rfl, filter_phrases_front _ ps tail, ?_, ?_⟩
  · rw [inner_succ]
    by_cases hps : ps = []
    · simp [hps]
    · have hlen : ps.length ≠ 0 := fun e => hps (List.length_eq_zero.1 e)
      simp only [hlen, hps, if_false]
      rw [filter_phrases_front]
  · have ht := take_front ((ps.filter (keep_phrase si st)).map some)
      ((ps.map some ++ none :: tail).drop ((ps.filter (keep_phrase si st)).length + 1))
    rw [List.length_map] at ht
    simp only [place_phrase, ht]

set_option maxRecDepth 100000 in
/-- C2 (completeness).  With step 1, offset 0 and no check predicate, for a non-empty pool
and a catalog in which every phrase, with the space that follows it, is no longer than
twice its number of letters, a run with enough fuel returns, and it has emitted the
sentence of every sequence of catalog entries (repetitions allowed) whose letters together
are exactly the pool, the phrases in the order of the sequence.  For a catalog whose
phrases have a letter each it need not: for the subject "ab" and the catalog "a-", "b-",
two phrases that `phrase_cannot_include` lets pass, the sequence "a-", "b-" spells the
pool, and every run with at least 3 units of fuel stops at a store outside the buffer of
4 bytes, having emitted nothing. -/
theorem C2_every_exact_sequence_emitted :
    (∀ (zn : Bool) (fuel : Nat) (si : sentence_info),
        si.check_cb = none → si.step = 1 → si.offset = 0 → pool_is_empty si.pool = false →
        (∀ p ∈ si.phrase_list, (cstr p).length + 1 ≤ 2 * letter_total p) →
        pool_count_all si.pool + si.phrase_list.length + 1 ≤ fuel →
        ∀ ws : List (List Char), (∀ w ∈ ws, w ∈ si.phrase_list) →
          (∀ i, (letters ws i : Int) = si.pool i) →
          (sentence_build zn fuel si).halt = none ∧
            sentence_text ws ∈ (sentence_build zn fuel si).emitted) ∧
      (hyphen_search.check_cb = none ∧ hyphen_search.step = 1 ∧ hyphen_search.offset = 0 ∧
        pool_is_empty hyphen_search.pool = false ∧
        (∀ p ∈ hyphen_search.phrase_list, 0 < letter_total p ∧ filter_rejects p = false) ∧
        (∀ w ∈ [['a', '-'], ['b', '-']], w ∈ hyphen_search.phrase_list) ∧
        (∀ i, (letters [['a', '-'], ['b', '-']] i : Int) = hyphen_search.pool i) ∧
        ∀ zn n, (sentence_build zn (n + 3) hyphen_search).halt = some Halt.out_of_bounds ∧
          (sentence_build zn (n + 3) hyphen_search).max_length = 4 ∧
          (sentence_build zn (n + 3) hyphen_search).emitted = []) := by
  refine ⟨?_, rfl, rfl, rfl, by decide, by decide, by decide, by decide, ?_⟩
  · intro zn fuel si hcheck hstep hoffset hpool hfit hfuel ws hws hsum
    cases ws with
    | nil =>
      exfalso
      have : pool_is_empty si.pool = true := by
        rw [pool_is_empty_iff]
        intro i
        have := hsum i
        simpa [letters] using this.symm
      rw [this] at hpool
      cases hpool
    | cons w ws =>
      exact default_run_complete zn fuel si hcheck hstep hoffset hfit hfuel w ws hws hsum
  · intro zn n
    rw [Nat.add_comm, sentence_build_more_fuel zn hyphen_search 3 (by cases zn <;> decide) n]
    cases zn <;> decide

set_option maxRecDepth 100000 in
theorem C2_witness :
    (sentence_build false 9 eat_search).halt = none ∧
      sentence_text [['a', 't'], ['e']] ∈ (sentence_build false 9 eat_search).emitted :=
  C2_every_exact_sequence_emitted.1 false 9 eat_search rfl rfl rfl (by decide) (by decide)
    (by decide) [['a', 't'], ['e']] (by decide) (by decide)

set_option maxRecDepth 100000 in
/-- C3 (shard equivalence).  Without a check predicate, for a catalog in which every
phrase, with the space that follows it, is no longer than twice its number of letters, a
shard count `k` of at least 1 and enough fuel: no shard runs out of fuel, the run with
step 1 and offset 0 returns, and a sentence is emitted by one of the runs with step `k`
and an offset below `k` exactly when the run with step 1 and offset 0 emits it.  With a
check predicate it need not: for the subject "a", the catalog "b", "a" and a predicate
that rejects every candidate, the second of two shards emits "a", which the skip loop
finds behind the terminator of the emptied list, and the run with step 1 and offset 0
emits nothing.  Nor does it hold for longer phrases: for the subject "ab" and the catalog
"a-", "b-", "ab", without check predicate, the third of three shards emits "ab", and the
run with step 1 and offset 0 stops at a store outside the buffer, in the branch "a-",
"b-", before it emits anything. -/
theorem C3_shards_emit_what_one_run_emits :
    (∀ (zn : Bool) (fuel : Nat) (si : sentence_info) (k : Nat), 1 ≤ k →
        si.check_cb = none →
        (∀ p ∈ si.phrase_list, (cstr p).length + 1 ≤ 2 * letter_total p) →
        pool_count_all si.pool + si.phrase_list.length + 1 ≤ fuel →
        (∀ i, (sentence_build zn fuel { si with step := k, offset := i }).halt ≠
          some Halt.out_of_fuel) ∧
        (sentence_build zn fuel { si with step := 1, offset := 0 }).halt = none ∧
        ∀ s : List Char,
          (∃ i, i < k ∧
              s ∈ (sentence_build zn fuel { si with step := k, offset := i }).emitted) ↔
            s ∈ (sentence_build zn fuel { si with step := 1, offset := 0 }).emitted) ∧
      ((∀ p ∈ rejecting_search.phrase_list, (cstr p).length + 1 ≤ 2 * letter_total p) ∧
        ∀ zn n,
          (sentence_build zn (n + 2) { rejecting_search with step := 2, offset := 1 }).halt =
            none ∧
          (sentence_build zn (n + 2)
            { rejecting_search with step := 2, offset := 1 }).emitted = [['a']] ∧
          (sentence_build zn (n + 2) { rejecting_search with step := 1, offset := 0 }).halt =
            none ∧
          (sentence_build zn (n + 2)
            { rejecting_search with step := 1, offset := 0 }).emitted = []) ∧
      (hyphen_ab_search.check_cb = none ∧
        (∀ p ∈ hyphen_ab_search.phrase_list, 0 < letter_total p) ∧
        ∀ zn n,
          (sentence_build zn (n + 3) { hyphen_ab_search with step := 3, offset := 2 }).halt =
            none ∧
          (sentence_build zn (n + 3)
            { hyphen_ab_search with step := 3, offset := 2 }).emitted = [['a', 'b']] ∧
          (sentence_build zn (n + 3) { hyphen_ab_search with step := 1, offset := 0 }).halt =
            some Halt.out_of_bounds ∧
          (sentence_build zn (n + 3)
            { hyphen_ab_search with step := 1, offset := 0 }).emitted = []) := by
  refine ⟨?_, ⟨by decide, ?_⟩, rfl, by decide, ?_⟩
  · intro zn fuel si k hk hcheck hfit hfuel
    have hlet : ∀ p ∈ si.phrase_list, 0 < letter_total p :=
      fun p hp => fits_letter_total p (hfit p hp)
    refine ⟨fun i => sentence_build_ends zn { si with step := k, offset := i } hk hlet fuel
      hfuel, ?_, ?_⟩
    · have hC := sentence_build_traced_complete zn fuel { si with step := 1, offset := 0 }
        hcheck hfit hfuel (Nat.le_refl 1) (by simp [visited])
      unfold Complete at hC
      rw [sentence_build_traced_fst] at hC
      exact hC.1
    · intro s
      constructor
      · rintro ⟨i, _, hs⟩
        obtain ⟨D, hD, hprop, _⟩ :=
          sentence_build_branches zn fuel { si with step := k, offset := i }
        rw [hD] at hs
        obtain ⟨ws, hws, e⟩ := List.mem_map.1 hs
        obtain ⟨h1, h2, h3⟩ := hprop ws hws
        cases ws with
        | nil => exact absurd rfl h1
        | cons a r =>
          rw [← e]
          exact (default_run_complete zn fuel { si with step := 1, offset := 0 } hcheck rfl
            rfl hfit hfuel a.2 (r.map Prod.snd)
            (by
              intro v hv
              obtain ⟨b, hb, eb⟩ := List.mem_map.1 (show v ∈ (a :: r).map Prod.snd from hv)
              exact eb ▸ entries_snd_mem _ b (h2 b hb))
            (fun j => h3 j)).2
      · intro hs
        obtain ⟨D, hD, hprop, _⟩ :=
          sentence_build_branches zn fuel { si with step := 1, offset := 0 }
        rw [hD] at hs
        obtain ⟨ws, hws, e⟩ := List.mem_map.1 hs
        obtain ⟨h1, h2, h3⟩ := hprop ws hws
        cases ws with
        | nil => exact absurd rfl h1
        | cons a r =>
          have haS : a ∈ survivors si (start si) (entries si.phrase_list) :=
            mem_survivors_of_letters si hcheck a (r.map Prod.snd) (h2 a (by simp))
              (fun j => h3 j)
          obtain ⟨m, hm⟩ := List.mem_iff_getElem?.1 haS
          refine ⟨m % k, Nat.mod_lt _ hk, ?_⟩
          rw [← e]
          exact (shard_run_complete zn fuel { si with step := k, offset := m % k } hcheck hfit
            hfuel hk a (r.map Prod.snd) m hm rfl
            (by
              intro w hw
              obtain ⟨b, hb, eb⟩ := List.mem_map.1 hw
              exact ⟨b, h2 b (List.mem_cons_of_mem _ hb), eb⟩)
            (fun j => h3 j)).2
  · intro zn n
    rw [Nat.add_comm,
      sentence_build_more_fuel zn { rejecting_search with step := 2, offset := 1 } 2
        (by cases zn <;> decide) n,
      sentence_build_more_fuel zn { rejecting_search with step := 1, offset := 0 } 2
        (by cases zn <;> decide) n]
    cases zn <;> decide
  · intro zn n
    rw [Nat.add_comm,
      sentence_build_more_fuel zn { hyphen_ab_search with step := 3, offset := 2 } 3
        (by cases zn <;> decide) n,
      sentence_build_more_fuel zn { hyphen_ab_search with step := 1, offset := 0 } 3
        (by cases zn <;> decide) n]
    cases zn <;> decide

set_option maxRecDepth 100000 in
theorem C3_witness :
    (∀ i, (sentence_build false 9 { eat_search with step := 2, offset := i }).halt ≠
        some Halt.out_of_fuel) ∧
      (sentence_build false 9 { eat_search with step := 1, offset := 0 }).halt = none ∧
      ∀ s : List Char,
        (∃ i, i < 2 ∧
            s ∈ (sentence_build false 9 { eat_search with step := 2, offset := i }).emitted) ↔
          s ∈ (sentence_build false 9 { eat_search with step := 1, offset := 0 }).emitted :=
  C3_shards_emit_what_one_run_emits.1 false 9 eat_search 2 (by decide) rfl (by decide)
    (by decide)

set_option maxRecDepth 100000 in
/-- C8 (single-phrase subject).  With step 1, offset 0, no check predicate and a catalog
in which every phrase, with the space that follows it, is no longer than twice its number
of letters, a run with enough fuel returns and emits the one-word sentence `w` for every
catalog entry `w` that has exactly the subject's letters.  For the subject "a" and the
catalog "a", "b", every run with at least 2 units of fuel returns and emits exactly one
sentence, "a".  For a catalog whose phrases have a letter each the general statement
fails: for the subject "ab" and the catalog "a-", "b-", "ab" the entry "ab" has exactly the
subject's letters, and every run with at least 3 units of fuel stops at a store outside
the buffer, in the branch "a-", "b-", before it reaches "ab".  So it does for the subject
"a" and the catalog "-", "a". -/
theorem C8_single_phrase_subject :
    (∀ (zn : Bool) (fuel : Nat) (si : sentence_info),
        si.check_cb = none → si.step = 1 → si.offset = 0 →
        (∀ p ∈ si.phrase_list, (cstr p).length + 1 ≤ 2 * letter_total p) →
        pool_count_all si.pool + si.phrase_list.length + 1 ≤ fuel →
        ∀ w ∈ si.phrase_list, (∀ i, (letter_count w i : Int) = si.pool i) →
          (sentence_build zn fuel si).halt = none ∧
            cstr w ∈ (sentence_build zn fuel si).emitted) ∧
      (∀ zn n, (sentence_build zn (n + 2) a_b_search).halt = none ∧
        (sentence_build zn (n + 2) a_b_search).emitted = [['a']]) ∧
      ((∀ p ∈ hyphen_ab_search.phrase_list, 0 < letter_total p ∧ filter_rejects p = false) ∧
        ['a', 'b'] ∈ hyphen_ab_search.phrase_list ∧
        (∀ i, (letter_count ['a', 'b'] i : Int) = hyphen_ab_search.pool i) ∧
        ∀ zn n, (sentence_build zn (n + 3) hyphen_ab_search).halt =
            some Halt.out_of_bounds ∧
          (sentence_build zn (n + 3) hyphen_ab_search).emitted = []) ∧
      (['a'] ∈ dash_search.phrase_list ∧
        (∀ i, (letter_count ['a'] i : Int) = dash_search.pool i) ∧
        ∀ zn n, (sentence_build zn (n + 3) dash_search).halt = some Halt.out_of_bounds ∧
          (sentence_build zn (n + 3) dash_search).emitted = []) := by
  refine ⟨?_, ?_, ⟨by decide, by decide, by decide, ?_⟩, ⟨by decide, by decide, ?_⟩⟩
  · intro zn fuel si hcheck hstep hoffset hfit hfuel w hw hsum
    have := default_run_complete zn fuel si hcheck hstep hoffset hfit hfuel w []
      (by simpa using hw) (by simpa [letters] using hsum)
    simpa [sentence_text] using this
  · intro zn n
    rw [Nat.add_comm, sentence_build_more_fuel zn a_b_search 2 (by cases zn <;> decide) n]
    cases zn <;> decide
  · intro zn n
    rw [Nat.add_comm,
      sentence_build_more_fuel zn hyphen_ab_search 3 (by cases zn <;> decide) n]
    cases zn <;> decide
  · intro zn n
    rw [Nat.add_comm, sentence_build_more_fuel zn dash_search 3 (by cases zn <;> decide) n]
    cases zn <;> decide

set_option maxRecDepth 100000 in
theorem C8_witness :
    (sentence_build false 4 a_b_search).halt = none ∧
      cstr ['a'] ∈ (sentence_build false 4 a_b_search).emitted :=
  C8_single_phrase_subject.1 false 4 a_b_search rfl rfl rfl (by decide) (by decide) ['a']
    (by decide) (by decide)

set_option maxRecDepth 100000 in
/-- C11 (catalog pre-filtering).  Without a check predicate, for every step and offset, a
run on the catalog restricted to the phrases that the initial pool can spell emits what
the run on the full catalog emits.  With a check predicate it need not: for the subject
"a", the catalog "b", "a", a predicate that rejects every candidate, step 2 and offset 1,
the run on the full catalog emits "a", which the skip loop finds behind the terminator of
the emptied list, and the run on the restricted catalog "a" emits nothing. -/
theorem C11_prefiltering :
    (∀ (zn : Bool) (fuel : Nat) (si : sentence_info), si.check_cb = none →
        (sentence_build zn fuel (prefiltered si)).emitted =
          (sentence_build zn fuel si).emitted) ∧
      rejecting_search.phrase_list = [['b'], ['a']] ∧
      (prefiltered rejecting_search).phrase_list = [['a']] ∧
      ∀ zn n, (sentence_build zn (n + 2) rejecting_search).halt = none ∧
        (sentence_build zn (n + 2) rejecting_search).emitted = [['a']] ∧
        (sentence_build zn (n + 2) (prefiltered rejecting_search)).halt = none ∧
        (sentence_build zn (n + 2) (prefiltered rejecting_search)).emitted = [] := by
  refine ⟨prefiltered_emitted, rfl, by decide, ?_⟩
  intro zn n
  rw [Nat.add_comm, sentence_build_more_fuel zn rejecting_search 2 (by cases zn <;> decide) n,
    sentence_build_more_fuel zn (prefiltered rejecting_search) 2 (by cases zn <;> decide) n]
  cases zn <;> decide

set_option maxRecDepth 100000 in
/-- C13 (subtract precondition).  In the log of a run every call of `pool_subtract` is
recorded with the answer of `pool_can_spell` for the pool of that moment.  When the offset
is 0, or when some catalog phrase passes the filter of the outermost call, every recorded
call is on a phrase that the pool can spell and the run leaves no slot of the pool below
0, for every step, check predicate and amount of fuel; the subtraction of a phrase that
the pool can spell leaves no slot below 0.
Otherwise a slot can underflow: for the subject "a", the catalog "b", "ccc", step 2 and
offset 1 the only subtraction of the run is the one of "ccc", at index 1 of the array,
from a pool that cannot spell it; it leaves the slot of "c", which the C code wraps
around, 3 below 0. -/
theorem C13_subtract_precondition :
    (∀ (zn : Bool) (fuel : Nat) (si : sentence_info),
        (si.offset = 0 ∨ ∃ p ∈ si.phrase_list, keep_phrase si (start si) p = true) →
        (∀ d c p ok, Event.expand d c p ok ∈ (sentence_build_traced zn fuel si).2 →
          ok = true) ∧
        ((∀ i, 0 ≤ si.pool i) → ∀ i, 0 ≤ (sentence_build zn fuel si).pool i)) ∧
      (∀ (pool : Pool) (p : List Char), pool_can_spell pool p = true →
        ∀ i, 0 ≤ pool_subtract pool p i) ∧
      (∀ (zn : Bool) (fuel : Nat) (si : sentence_info),
        (sentence_build_traced zn fuel si).1 = sentence_build zn fuel si) ∧
      pool_can_spell unspellable_search.pool ['c', 'c', 'c'] = false ∧
      ∀ zn n, (sentence_build_traced zn (n + 2) unspellable_search).2 =
          [Event.expand 0 1 ['c', 'c', 'c'] false] ∧
        (sentence_build_traced zn (n + 2) unspellable_search).1.halt =
          some Halt.out_of_bounds ∧
        ∀ i, pool_index 'c' = some i →
          (sentence_build_traced zn (n + 2) unspellable_search).1.pool i = -3 := by
  refine ⟨fun zn fuel si h => ⟨sentence_build_traced_spellable zn fuel si h,
    sentence_build_nonneg zn fuel si h⟩, pool_subtract_nonneg, sentence_build_traced_fst,
    by decide, ?_⟩
  intro zn n
  rw [Nat.add_comm,
    sentence_build_traced_more_fuel zn unspellable_search 2 (by cases zn <;> decide) n]
  cases zn <;> decide

set_option maxRecDepth 100000 in
/-- C14 (sentence buffer bound).  For the subject "ab" and the catalog "a-", "b-", two
phrases with a letter, without digit or control character and with no more than half of
their characters not letters, the buffer is allocated with `max_length = 4` bytes; the
sentence "a- b-", whose phrases spell the pool, takes 6 bytes with its terminator; and
every run with at least 3 units of fuel stops at a store outside the buffer, while it
copies "b-" behind "a- ". -/
theorem C14_sentence_buffer_bound :
    (∀ p ∈ hyphen_search.phrase_list,
        filter_rejects p = false ∧ 0 < letter_total p ∧
          2 * (p.length - letter_total p) ≤ p.length) ∧
      2 * pool_count_all hyphen_search.pool = 4 ∧
      (∀ i, (letters [['a', '-'], ['b', '-']] i : Int) = hyphen_search.pool i) ∧
      (sentence_text [['a', '-'], ['b', '-']]).length + 1 = 6 ∧
      ∀ zn n, (sentence_build_traced zn (n + 3) hyphen_search).1.halt =
          some Halt.out_of_bounds ∧
        (sentence_build_traced zn (n + 3) hyphen_search).1.max_length = 4 ∧
        (sentence_build_traced zn (n + 3) hyphen_search).1.sentence.length = 4 ∧
        (sentence_build_traced zn (n + 3) hyphen_search).2 =
          [Event.expand 0 0 ['a', '-'] true,
            Event.call [some ['a', '-'], some ['b', '-'], none] 2 1,
            Event.expand 1 0 ['b', '-'] true] ∧
        (sentence_build_traced zn (n + 3) hyphen_search).1 =
          sentence_build zn (n + 3) hyphen_search := by
  refine ⟨by decide, by decide, by decide, by decide, ?_⟩
  intro zn n
  have h4 : (sentence_build_traced zn (n + 3) hyphen_search).1.halt =
        some Halt.out_of_bounds ∧
      (sentence_build_traced zn (n + 3) hyphen_search).1.max_length = 4 ∧
      (sentence_build_traced zn (n + 3) hyphen_search).1.sentence.length = 4 ∧
      (sentence_build_traced zn (n + 3) hyphen_search).2 =
        [Event.expand 0 0 ['a', '-'] true,
          Event.call [some ['a', '-'], some ['b', '-'], none] 2 1,
          Event.expand 1 0 ['b', '-'] true] := by
    rw [Nat.add_comm,
      sentence_build_traced_more_fuel zn hyphen_search 3 (by cases zn <;> decide) n]
    cases zn <;> decide
  exact ⟨h4.1, h4.2.1, h4.2.2.1, h4.2.2.2, sentence_build_traced_fst _ _ _⟩

set_option maxRecDepth 100000 in
/-- C15 (termination and depth bound).  For a catalog in which every phrase has a letter
and a step of at least 1, whatever the pool, the offset and the check predicate: a run
with at least `pool_count_all + catalog length + 1` units of fuel does not run out of
fuel; the log does not change the run; and when the offset is 0, or when some catalog
phrase passes the filter of the outermost call, the depth argument of every recursive
call of `sentence_build_inner` in the log is below `pool_count_all` of the initial pool,
a subtraction of a phrase with a letter that the pool can spell strictly decreasing
`pool_count_all`, and the run returns if there is no check predicate and every phrase,
with the space that follows it, is no longer than twice its number of letters.  Otherwise the depth bound fails: for the subject "a", the catalog "b",
"c", step 2 and offset 1 every run with at least 2 units of fuel returns, and it has
called `sentence_build_inner` with depth 1, which is `pool_count_all` of the initial
pool, after it subtracted the stale entry "c" from a pool that cannot spell it. -/
theorem C15_termination_and_depth :
    (∀ (zn : Bool) (si : sentence_info), (∀ p ∈ si.phrase_list, 0 < letter_total p) →
        1 ≤ si.step →
        (∀ n, (sentence_build zn (pool_count_all si.pool + si.phrase_list.length + 1 + n)
            si).halt ≠ some Halt.out_of_fuel) ∧
        (∀ fuel, (sentence_build_traced zn fuel si).1 = sentence_build zn fuel si) ∧
        ((si.offset = 0 ∨ ∃ p ∈ si.phrase_list, keep_phrase si (start si) p = true) →
          ∀ fuel phrases phrase_count depth,
            Event.call phrases phrase_count depth ∈ (sentence_build_traced zn fuel si).2 →
            depth < pool_count_all si.pool) ∧
        ((si.offset = 0 ∨ ∃ p ∈ si.phrase_list, keep_phrase si (start si) p = true) →
          si.check_cb = none →
          (∀ p ∈ si.phrase_list, (cstr p).length + 1 ≤ 2 * letter_total p) →
          ∀ n, (sentence_build zn (pool_count_all si.pool + si.phrase_list.length + 1 + n)
            si).halt = none)) ∧
      (∀ (pool : Pool) (p : List Char), 0 < letter_total p → pool_can_spell pool p = true →
        pool_count_all (pool_subtract pool p) < pool_count_all pool) ∧
      ((∀ p ∈ stale_search.phrase_list, 0 < letter_total p) ∧ 1 ≤ stale_search.step ∧
        pool_count_all stale_search.pool = 1 ∧
        ∀ zn n, (sentence_build_traced zn (n + 2) stale_search).2 =
            [Event.expand 0 1 ['c'] false, Event.call [none] 0 1] ∧
          (sentence_build_traced zn (n + 2) stale_search).1.halt = none) := by
  refine ⟨?_, fun pool p hp hc => pool_count_all_subtract_lt pool p hc hp,
    by decide, by decide, by decide, ?_⟩
  · intro zn si hlet hstep
    refine ⟨fun n => sentence_build_ends zn si hstep hlet _ (Nat.le_add_right _ _),
      fun fuel => sentence_build_traced_fst zn fuel si,
      fun h fuel ps c d hm => sentence_build_traced_depth zn fuel si hlet h ps c d hm,
      fun h hc hfit n => sentence_build_returns zn _ si hc hfit hstep h
        (Nat.le_add_right _ _)⟩
  · intro zn n
    rw [Nat.add_comm,
      sentence_build_traced_more_fuel zn stale_search 2 (by cases zn <;> decide) n]
    cases zn <;> decide

set_option maxRecDepth 100000 in
theorem C15_witness :
    (Event.call (eat_search.phrase_list.map some ++ [none]) 5 1 ∈
        (sentence_build_traced false 6 eat_search).2 ∧
      (sentence_build false 9 eat_search).halt = none) ∧
      (sentence_build false (pool_count_all eat_search.pool + eat_search.phrase_list.length
        + 1 + 0) eat_search).halt ≠ some Halt.out_of_fuel ∧
      1 < pool_count_all eat_search.pool :=
  ⟨⟨by decide, by decide⟩,
    (C15_termination_and_depth.1 false eat_search (by decide) (by decide)).1 0,
    (C15_termination_and_depth.1 false eat_search (by decide) (by decide)).2.2.1
      (Or.inl rfl) 6 (eat_search.phrase_list.map some ++ [none]) 5 1 (by decide)⟩

set_option maxRecDepth 100000 in
/-- C17 (stride partition).  For the subject "a", the catalog "b", "a", a check predicate
that rejects every candidate, step 2 and offset 1, the filter loop of the outermost call
leaves no entry: it returns the count 0 and the array NULL, "a", NULL, the "a" being what
the loop did not overwrite.  The claim says that nothing is expanded then.  The run,
however, subtracts and places the entry at index 1 behind the terminator, the rejected
"a", and emits it. -/
theorem C17_stride_partition :
    (rejecting_search.step = 2 ∧ rejecting_search.offset = 1) ∧
      filter_phrases (keep_phrase rejecting_search (start rejecting_search)) 3
          (rejecting_search.phrase_list.map some ++ [none]) 0 0 2 =
        ([none, some ['a'], none], 0) ∧
      ∀ zn n, (sentence_build_traced zn (n + 2) rejecting_search).2 =
          [Event.expand 0 1 ['a'] true, Event.emit [1]] ∧
        (sentence_build_traced zn (n + 2) rejecting_search).1.halt = none ∧
        (sentence_build_traced zn (n + 2) rejecting_search).1.emitted = [['a']] := by
  refine ⟨⟨rfl, rfl⟩, by decide, ?_⟩
  intro zn n
  rw [Nat.add_comm,
    sentence_build_traced_more_fuel zn rejecting_search 2 (by cases zn <;> decide) n]
  cases zn <;> decide

set_option maxRecDepth 100000 in
/-- C21 (check predicate as a catalog filter).  Let the check predicate look at the
candidate only.  When the offset is 0, or when some catalog phrase passes the filter of
the outermost call, the run emits the sentences, in the same order, of the run without
check predicate on the catalog from which the rejected phrases are removed, and every
emitted sentence is the text of accepted catalog phrases; this for every step and amount
of fuel.  Otherwise it need not: for the subject "a", the catalog "b", "a", a predicate
that rejects every candidate, step 2 and offset 1 the run emits "a", a phrase the predicate
rejects, while the catalog without the rejected phrases is empty and its run emits
nothing. -/
theorem C21_check_as_catalog_filter :
    (∀ (zn : Bool) (fuel : Nat) (si : sentence_info) (g : List Char → Bool),
        si.check_cb = some (fun _ _ p => g p) →
        (si.offset = 0 ∨ ∃ p ∈ si.phrase_list, keep_phrase si (start si) p = true) →
        (sentence_build zn fuel si).emitted =
            (sentence_build zn fuel (without_rejected si g)).emitted ∧
          ∀ s ∈ (sentence_build zn fuel si).emitted,
            ∃ ws : List (List Char), ws ≠ [] ∧ s = sentence_text ws ∧
              ∀ w ∈ ws, w ∈ si.phrase_list ∧ g w = true) ∧
      rejecting_search.check_cb = some (fun _ _ p => (fun _ => false) p) ∧
      (without_rejected rejecting_search (fun _ => false)).phrase_list = [] ∧
      ∀ zn n, (sentence_build zn (n + 2) rejecting_search).halt = none ∧
        (sentence_build zn (n + 2) rejecting_search).emitted = [['a']] ∧
        (sentence_build zn (n + 2)
          (without_rejected rejecting_search (fun _ => false))).halt = none ∧
        (sentence_build zn (n + 2)
          (without_rejected rejecting_search (fun _ => false))).emitted = [] := by
  refine ⟨fun zn fuel si g hc h =>
    ⟨checked_emitted zn fuel si g hc h, checked_phrases zn fuel si g hc h⟩, rfl, rfl, ?_⟩
  intro zn n
  rw [Nat.add_comm, sentence_build_more_fuel zn rejecting_search 2 (by cases zn <;> decide) n,
    sentence_build_nil zn (2 + n) (without_rejected rejecting_search (fun _ => false)) rfl]
  cases zn <;> decide

end WordSearch
